import Mathlib

/-!
Market-Intelligence-Center: alignment and indicator engine.

A shallow embedding of `assets/js/transforms/indicators.js`, `series.js` and
`takeaway.js`, with the properties of the written specification proved
against it.

Modelling conventions.

* A JavaScript value that the code inspects dynamically is a `JSVal`:
  `undefined`, `null`, a finite number, one of the three non-finite numbers
  (`NaN`, `Infinity`, `-Infinity`) or a string.  A finite number is the
  rational it denotes; comparisons are exact, and the arithmetic operations
  `+`, `-`, `*`, `/` round their exact result to the nearest double, ties to
  even, with gradual underflow and overflow to an infinity (`roundToDouble`).
  The sign of a zero is not recorded.
* An argument that the code guards with `?.` or `|| []` is an `Option`
  (`none` is a nullish argument).
* `a[i]` on an array is `List.getD a i undefined`.
* Loops are written as structural recursions carrying the loop variables.
-/

/-! ## Values -/

/-- A JavaScript primitive value as it occurs in series, dates and records. -/
inductive JSVal where
  | undefined
  | null
  | num (q : ℚ)
  | nan
  | posInf
  | negInf
  | str (s : String)
  deriving DecidableEq, Repr

namespace JSVal

/-- The test `Number.isFinite(v)`: true exactly for finite numbers, without coercion. -/
def isFinite : JSVal → Bool
  | num _ => true
  | _ => false

/-- The test `v == null`: true for `null` and `undefined`. -/
def isNullish : JSVal → Bool
  | undefined => true
  | null => true
  | _ => false

/-- Truthiness of a value (`Boolean(v)`). -/
def truthy : JSVal → Bool
  | undefined => false
  | null => false
  | num q => decide (q ≠ 0)
  | nan => false
  | posInf => true
  | negInf => true
  | str s => decide (s ≠ "")

end JSVal

/-- The comparison `a < b` for operands of type number (false as soon as one is `NaN`). -/
def numLt : JSVal → JSVal → Bool
  | .num a, .num b => decide (a < b)
  | .num _, .posInf => true
  | .negInf, .num _ => true
  | .negInf, .posInf => true
  | _, _ => false

/-- The comparison `a <= b` for operands of type number (false as soon as one is `NaN`). -/
def numLe : JSVal → JSVal → Bool
  | .num a, .num b => decide (a ≤ b)
  | .num _, .posInf => true
  | .negInf, .num _ => true
  | .negInf, .posInf => true
  | .posInf, .posInf => true
  | .negInf, .negInf => true
  | _, _ => false

/-- The comparison `a > b` for operands of type number. -/
def numGt (a b : JSVal) : Bool := numLt b a

/-- The comparison `a >= b` for operands of type number. -/
def numGe (a b : JSVal) : Bool := numLe b a

/-- The comparison `a === b` on primitives: same type and same value, `NaN` equal to nothing. -/
def strictEq : JSVal → JSVal → Bool
  | .undefined, .undefined => true
  | .null, .null => true
  | .num a, .num b => decide (a = b)
  | .posInf, .posInf => true
  | .negInf, .negInf => true
  | .str a, .str b => decide (a = b)
  | _, _ => false

/-! ## Double-precision arithmetic -/

/-- Rounding of a rational to the nearest integer, a tie going to the even
neighbour. -/
def roundHalfEven (x : ℚ) : ℤ :=
  if x - ⌊x⌋ < 1 / 2 then ⌊x⌋
  else if 1 / 2 < x - ⌊x⌋ then ⌊x⌋ + 1
  else if ⌊x⌋ % 2 = 0 then ⌊x⌋ else ⌊x⌋ + 1

/-- The exponent of the spacing of the doubles around a positive `q`:
`e - 52` for `2 ^ e <= q < 2 ^ (e + 1)`, and `-1074` throughout the
subnormal range. -/
def ulpExp (q : ℚ) : ℤ :=
  max (Int.log 2 q) (-1022) - 52

/-- Rounding of a positive rational to 53 significant bits, ties to even,
with the exponent bounded below as for doubles and unbounded above. -/
def roundPos (q : ℚ) : ℚ :=
  (roundHalfEven (q / 2 ^ ulpExp q) : ℚ) * 2 ^ ulpExp q

/-- Rounding to nearest, ties to even, before the check for overflow. -/
def roundNearest (q : ℚ) : ℚ :=
  if 0 < q then roundPos q else if q < 0 then -roundPos (-q) else 0

/-- The double that the exact result `q` of an operation is rounded to:
round to nearest, ties to even, a magnitude of `2 ^ 1024` or more after
rounding being an infinity. -/
def roundToDouble (q : ℚ) : JSVal :=
  if 2 ^ 1024 ≤ roundNearest q then .posInf
  else if roundNearest q ≤ -2 ^ 1024 then .negInf
  else .num (roundNearest q)

/-- A finite number that is a double. -/
def isDouble (q : ℚ) : Prop :=
  roundToDouble q = .num q

/-- The sum `a + b` of two numbers. -/
def jsAdd : JSVal → JSVal → JSVal
  | .num a, .num b => roundToDouble (a + b)
  | .num _, .posInf => .posInf
  | .posInf, .num _ => .posInf
  | .posInf, .posInf => .posInf
  | .num _, .negInf => .negInf
  | .negInf, .num _ => .negInf
  | .negInf, .negInf => .negInf
  | _, _ => .nan

/-- The difference `a - b` of two numbers. -/
def jsSub : JSVal → JSVal → JSVal
  | .num a, .num b => roundToDouble (a - b)
  | .num _, .negInf => .posInf
  | .posInf, .num _ => .posInf
  | .posInf, .negInf => .posInf
  | .num _, .posInf => .negInf
  | .negInf, .num _ => .negInf
  | .negInf, .posInf => .negInf
  | _, _ => .nan

/-- The product `a * b` of two numbers. -/
def jsMul : JSVal → JSVal → JSVal
  | .num a, .num b => roundToDouble (a * b)
  | .num a, .posInf => if 0 < a then .posInf else if a < 0 then .negInf else .nan
  | .posInf, .num b => if 0 < b then .posInf else if b < 0 then .negInf else .nan
  | .num a, .negInf => if 0 < a then .negInf else if a < 0 then .posInf else .nan
  | .negInf, .num b => if 0 < b then .negInf else if b < 0 then .posInf else .nan
  | .posInf, .posInf => .posInf
  | .negInf, .negInf => .posInf
  | .posInf, .negInf => .negInf
  | .negInf, .posInf => .negInf
  | _, _ => .nan

/-- The quotient `a / b` of two numbers; the divisor zero is taken as `+0`. -/
def jsDiv : JSVal → JSVal → JSVal
  | .num a, .num b =>
    if b = 0 then (if 0 < a then .posInf else if a < 0 then .negInf else .nan)
    else roundToDouble (a / b)
  | .num _, .posInf => .num 0
  | .num _, .negInf => .num 0
  | .posInf, .num b => if 0 ≤ b then .posInf else .negInf
  | .negInf, .num b => if 0 ≤ b then .negInf else .posInf
  | _, _ => .nan

/-! ## Arrays of numbers -/

/-- The finite numbers of an array, in order: `values.filter(Number.isFinite)`. -/
def finiteEntries : List JSVal → List ℚ
  | [] => []
  | .num q :: rest => q :: finiteEntries rest
  | _ :: rest => finiteEntries rest

/-! ## indicators.js -/

/-- The element `vals[i]` of an array of finite numbers. -/
def numAt (vals : List ℚ) (i : Nat) : JSVal :=
  match vals[i]? with
  | some q => .num q
  | none => .undefined

/-- Source `median(values)`: the finite entries are sorted ascending by
`(a, b) => a - b`, then the middle entry or the mean of the two middle
entries is returned; `null` when there is no finite entry. -/
def median (values : Option (List JSVal)) : JSVal :=
  let vals := (finiteEntries (values.getD [])).insertionSort (· ≤ ·)
  let n := vals.length
  if n = 0 then .null
  else
    let mid := n / 2
    if n % 2 ≠ 0 then numAt vals mid
    else
      match vals[mid - 1]?, vals[mid]? with
      | some a, some b => jsDiv (jsAdd (.num a) (.num b)) (.num 2)
      | _, _ => .nan

/-- One iteration of the loop of `percentile`; the state is `(lt, eq, n)`. -/
def percentileStep (x : JSVal) (acc : Nat × Nat × Nat) (v : JSVal) : Nat × Nat × Nat :=
  if !v.isFinite then acc
  else if numLt v x then (acc.1 + 1, acc.2.1, acc.2.2 + 1)
  else if strictEq v x then (acc.1, acc.2.1 + 1, acc.2.2 + 1)
  else (acc.1, acc.2.1, acc.2.2 + 1)

/-- Source `percentile(values, x)`. The counters `lt`, `eq`, `n` are at most
the length of an array, which is below `2 ^ 32`, so `eq * 0.5` and
`lt + midTies` are exact; the division and the multiplication round. -/
def percentile (values : Option (List JSVal)) (x : JSVal) : JSVal :=
  match values with
  | none => .null
  | some vs =>
    if vs.length = 0 || !x.isFinite then .null
    else
      let acc := vs.foldl (percentileStep x) (0, 0, 0)
      if acc.2.2 = 0 then .null
      else
        let midTies : ℚ := (acc.2.1 : ℚ) * (1 / 2)
        jsMul (jsDiv (.num ((acc.1 : ℚ) + midTies)) (.num (acc.2.2 : ℚ))) (.num 100)

/-- A recorded extreme `{ value, date }`. -/
structure Extreme where
  value : JSVal
  date : JSVal
  deriving DecidableEq, Repr

/-- The result `{ min, max }` of `findMinMax`; `none` is `null`. -/
structure MinMax where
  min : Option Extreme
  max : Option Extreme
  deriving DecidableEq, Repr

/-- The forward loop of `findMinMax`, from index `i` over the remaining
entries, with the recorded `min` and `max`. -/
def findMinMaxLoop (dates : List JSVal) : List JSVal → Nat → Extreme → Extreme → Extreme × Extreme
  | [], _, mn, mx => (mn, mx)
  | v :: rest, i, mn, mx =>
    if !v.isFinite then findMinMaxLoop dates rest (i + 1) mn mx
    else
      let mn1 := if numLt v mn.value then { value := v, date := dates.getD i .undefined } else mn
      let mx1 := if numGt v mx.value then { value := v, date := dates.getD i .undefined } else mx
      findMinMaxLoop dates rest (i + 1) mn1 mx1

/-- Source `findMinMax(dates, series)`. -/
def findMinMax (dates series : List JSVal) : MinMax :=
  let r := findMinMaxLoop dates series 0
    { value := .posInf, date := .null } { value := .negInf, date := .null }
  { min := if !r.1.value.isFinite then none else some r.1
    max := if !r.2.value.isFinite then none else some r.2 }

/-- The loop `while (last >= 0 && !Number.isFinite(series[last])) last--`
started at `last = k - 1`; `none` is the exit with `last < 0`. -/
def lastFinite (series : List JSVal) : Nat → Option Nat
  | 0 => none
  | k + 1 => if !(series.getD k .undefined).isFinite then lastFinite series k else some k

/-- The result `{ startDate, days, direction }` of `timeInRegime`. -/
structure Regime where
  startDate : JSVal
  days : Nat
  direction : String
  deriving DecidableEq, Repr

/-- The test `isAbove ? (v >= threshold) : (v < threshold)` of `timeInRegime`. -/
def regimeOk (threshold : JSVal) (isAbove : Bool) (v : JSVal) : Bool :=
  if isAbove then numGe v threshold else numLt v threshold

/-- The backward loop `for (let i = last; i >= 0; i--)` of `timeInRegime`
started at `i = k - 1`, with state `(count, startIdx)`. -/
def regimeLoop (series : List JSVal) (threshold : JSVal) (isAbove : Bool) :
    Nat → Nat × Nat → Nat × Nat
  | 0, st => st
  | k + 1, st =>
    let v := series.getD k .undefined
    if !v.isFinite then regimeLoop series threshold isAbove k st
    else
      let ok := regimeOk threshold isAbove v
      if !ok then st
      else regimeLoop series threshold isAbove k (st.1 + 1, k)

/-- Source `timeInRegime(dates, series, threshold)`; `none` is `null`. -/
def timeInRegime (dates series : Option (List JSVal)) (threshold : JSVal) : Option Regime :=
  match dates, series with
  | some ds, some ss =>
    if ds.length = 0 || ss.length = 0 || ds.length ≠ ss.length then none
    else if !threshold.isFinite then none
    else
      match lastFinite ss ss.length with
      | none => none
      | some last =>
        let current := ss.getD last .undefined
        let isAbove := numGe current threshold
        let st := regimeLoop ss threshold isAbove (last + 1) (0, last)
        some { startDate := ds.getD st.2 .undefined
               days := st.1
               direction := if isAbove then "above" else "below" }
  | _, _ => none


/-! ## Runtime builtins -/

/-- Conversions of the JavaScript runtime that the model takes as given:
`Number(s)` for a string, `String(x)` for a finite number and
`x.toFixed(digits)`. -/
structure Builtins where
  stringToNumber : String → JSVal
  numberToString : ℚ → String
  toFixed : ℚ → Nat → String

/-- The conversion `Number(v)` on a primitive value. -/
def toNumber (B : Builtins) : JSVal → JSVal
  | .undefined => .nan
  | .null => .num 0
  | .str s => B.stringToNumber s
  | v => v

/-- The conversion `String(v)` on a primitive value, as used by template literals and by
the default order of `Array.prototype.sort`. -/
def jsToString (B : Builtins) : JSVal → String
  | .undefined => "undefined"
  | .null => "null"
  | .num q => B.numberToString q
  | .nan => "NaN"
  | .posInf => "Infinity"
  | .negInf => "-Infinity"
  | .str s => s

/-- The UTF-16 code units of a character. -/
def utf16Units (c : Char) : List Nat :=
  if c.toNat < 0x10000 then [c.toNat]
  else [0xD800 + (c.toNat - 0x10000) / 0x400, 0xDC00 + (c.toNat - 0x10000) % 0x400]

/-- The sequence of UTF-16 code units of a string, by which JavaScript
compares strings. -/
def codeUnits (s : String) : List Nat :=
  s.toList.flatMap utf16Units

/-- Lexicographic `<=` on code-unit sequences (a proper prefix comes first). -/
def lexLe : List Nat → List Nat → Bool
  | [], _ => true
  | _ :: _, [] => false
  | a :: as, b :: bs => if a < b then true else if b < a then false else lexLe as bs

/-- The comparison `s < t` on strings: comparison of the code-unit sequences. -/
def jsStrLt (s t : String) : Bool :=
  !lexLe (codeUnits t) (codeUnits s)

/-- The order of `Array.prototype.sort()` without a comparator: `undefined`
goes last, other elements are ordered by the code units of their string
conversion. -/
def sortLe (B : Builtins) : JSVal → JSVal → Bool
  | _, .undefined => true
  | .undefined, _ => false
  | a, b => lexLe (codeUnits (jsToString B a)) (codeUnits (jsToString B b))

/-- The call `arr.sort()` without a comparator (a stable sort). -/
def defaultSort (B : Builtins) (arr : List JSVal) : List JSVal :=
  arr.insertionSort (fun a b => sortLe B a b = true)

/-! ## Objects and maps -/

/-- A plain object: its own properties in order. -/
abbrev JSObj := List (String × JSVal)

/-- The read `p?.[key]`: `undefined` for a nullish `p` or a missing property. -/
def getProp (p : Option JSObj) (key : String) : JSVal :=
  match p with
  | none => .undefined
  | some o =>
    match o.lookup key with
    | some v => v
    | none => .undefined

/-- A `Map` with primitive keys: its entries in insertion order. -/
abbrev JSMap := List (JSVal × JSVal)

/-- The call `m.set(k, v)`: an existing key keeps its position and takes the new
value, a new key is appended. -/
def mapSet : JSMap → JSVal → JSVal → JSMap
  | [], k, v => [(k, v)]
  | (k0, v0) :: rest, k, v =>
    if k0 = k then (k0, v) :: rest else (k0, v0) :: mapSet rest k v

/-- The call `m.get(k)`. -/
def mapGet : JSMap → JSVal → JSVal
  | [], _ => .undefined
  | (k0, v0) :: rest, k => if k0 = k then v0 else mapGet rest k

/-- The call `m.has(k)`. -/
def mapHas : JSMap → JSVal → Bool
  | [], _ => false
  | (k0, _) :: rest, k => if k0 = k then true else mapHas rest k

/-- The keys `[...m.keys()]` in insertion order. -/
def mapKeys (m : JSMap) : List JSVal :=
  m.map (fun e => e.1)

/-! ## series.js -/

/-- One iteration of the loop of `toMap`. -/
def toMapStep (B : Builtins) (valueKey : String) (m : JSMap) (p : Option JSObj) : JSMap :=
  let date := getProp p "date"
  let v := toNumber B (getProp p valueKey)
  if !date.truthy || !v.isFinite then m
  else mapSet m date v

/-- Source `toMap(points, valueKey = "close")`; a `none` key is the omitted
argument. -/
def toMap (B : Builtins) (points : Option (List (Option JSObj))) (valueKey : Option String) :
    JSMap :=
  (points.getD []).foldl (toMapStep B (valueKey.getD "close")) []

/-- Source `intersectDates(mapA, mapB)`. -/
def intersectDates (B : Builtins) (mapA mapB : JSMap) : List JSVal :=
  defaultSort B ((mapKeys mapA).filter (fun d => mapHas mapB d))

/-- A cached series file `{ points: [...] }`. -/
structure SeriesJson where
  points : Option (List (Option JSObj))

/-- The result `{ dates, ratio }` of `buildRatioSeries`. -/
structure RatioSeries where
  dates : List JSVal
  ratio : List JSVal
  deriving DecidableEq, Repr

/-- The callback of `dates.map` in `buildRatioSeries`: `null` unless both
values are finite and the divisor is positive, else the quotient. -/
def ratioAt (numMap denMap : JSMap) (d : JSVal) : JSVal :=
  match mapGet numMap d, mapGet denMap d with
  | .num a, .num b => if b ≤ 0 then .null else jsDiv (.num a) (.num b)
  | _, _ => .null

/-- Source `buildRatioSeries({ numJson, denJson, numKey, denKey })`. -/
def buildRatioSeries (B : Builtins) (numJson denJson : Option SeriesJson)
    (numKey denKey : Option String) : RatioSeries :=
  let numMap := toMap B (numJson.bind (fun j => j.points)) (some (numKey.getD "close"))
  let denMap := toMap B (denJson.bind (fun j => j.points)) (some (denKey.getD "close"))
  let dates := intersectDates B numMap denMap
  { dates := dates, ratio := dates.map (ratioAt numMap denMap) }

/-! ## takeaway.js -/

/-- The indicator record returned by `computeRatioIndicators`. -/
structure IndicatorRecord where
  latestValue : JSVal
  latestDate : JSVal
  startYear : JSVal
  median : JSVal
  percentile : JSVal
  timeInRegime : Option Regime
  historical : MinMax

/-- A narrative `{ headline, body }`. -/
structure Takeaway where
  headline : String
  body : String
  deriving DecidableEq, Repr

/-- The regime resolved by `generateTakeaway` (the variable `state`). -/
inductive TakeawayState where
  | low
  | high
  | normal
  deriving DecidableEq, Repr

/-- The `templates` object of a profile: an optional function per regime. -/
structure Templates where
  low : Option (IndicatorRecord → Takeaway)
  high : Option (IndicatorRecord → Takeaway)
  normal : Option (IndicatorRecord → Takeaway)

/-- The profile object; an absent or nullish field is `undefined` for the
thresholds and `none` for the texts and the templates. -/
structure Profile where
  lowExtreme : JSVal
  highExtreme : JSVal
  noun : Option String
  lowHeadline : Option String
  highHeadline : Option String
  normalHeadlineAbove : Option String
  normalHeadlineBelow : Option String
  normalHeadlineUnknown : Option String
  templates : Option Templates

/-- The empty profile `{}`. -/
def Profile.empty : Profile :=
  { lowExtreme := .undefined, highExtreme := .undefined, noun := none,
    lowHeadline := none, highHeadline := none, normalHeadlineAbove := none,
    normalHeadlineBelow := none, normalHeadlineUnknown := none, templates := none }

/-- The second argument of `generateTakeaway`: omitted (or `undefined`),
`null`, or an object. -/
inductive ProfileArg where
  | omitted
  | null
  | obj (p : Profile)

/-- The operator `a ?? b` on values. -/
def nullishOr (a b : JSVal) : JSVal :=
  if a.isNullish then b else a

/-- Source `fmt(x, digits)`. -/
def fmt (B : Builtins) (x : JSVal) (digits : Nat) : String :=
  match x with
  | .num q => B.toFixed q digits
  | _ => "—"

/-- The call `Math.round(p)` for a finite `p`. -/
def mathRound (p : ℚ) : ℚ :=
  (⌊p + 1 / 2⌋ : ℤ)

/-- Source `fmtPct(p)`. -/
def fmtPct (B : Builtins) (p : JSVal) : String :=
  match p with
  | .num q => if q < 1 then "<1%" else B.numberToString (mathRound q) ++ "%"
  | _ => "—"

/-- The lookup `templates[state]`. -/
def templateFor (templates : Templates) : TakeawayState → Option (IndicatorRecord → Takeaway)
  | .low => templates.low
  | .high => templates.high
  | .normal => templates.normal

/-- The block "Decide state" of `generateTakeaway`: `low` when the
percentile is finite and `<= LOW_EXTREME`, else `high` when it is finite and
`>= HIGH_EXTREME`, else `normal`. -/
def takeawayState (B : Builtins) (ind : IndicatorRecord) (profile : Profile) : TakeawayState :=
  let p := ind.percentile
  let lowExtreme := nullishOr profile.lowExtreme (.num 15)
  let highExtreme := nullishOr profile.highExtreme (.num 85)
  if !p.isNullish && p.isFinite && numLe p (toNumber B lowExtreme) then .low
  else if !p.isNullish && p.isFinite && numGe p (toNumber B highExtreme) then .high
  else .normal

/-- The value `isAbove` of `generateTakeaway`; `none` is `null`. -/
def takeawayIsAbove (ind : IndicatorRecord) : Option Bool :=
  if ind.latestValue.isFinite && ind.median.isFinite
  then some (numGe ind.latestValue ind.median) else none

/-- The headline chosen by the default assembly. -/
def takeawayHeadline (ind : IndicatorRecord) (profile : Profile) (state : TakeawayState) :
    String :=
  match state with
  | .low => profile.lowHeadline.getD "Historically low reading"
  | .high => profile.highHeadline.getD "Historically high reading"
  | .normal =>
    match takeawayIsAbove ind with
    | none => profile.normalHeadlineUnknown.getD "Within typical range"
    | some true => profile.normalHeadlineAbove.getD "Above median regime"
    | some false => profile.normalHeadlineBelow.getD "Below median regime"

/-- The first body part: the latest value and its date. -/
def latestSentence (B : Builtins) (ind : IndicatorRecord) (profile : Profile) : String :=
  "Latest " ++ profile.noun.getD "ratio" ++ " is " ++ fmt B ind.latestValue 4 ++
    " (" ++ jsToString B ind.latestDate ++ ")."

/-- The second body part: the median sentence, or the empty string when the
median is not finite. -/
def medianSentence (B : Builtins) (ind : IndicatorRecord) : String :=
  if ind.median.isFinite then
    "The long-run median is " ++ fmt B ind.median 4 ++ ", and the ratio remains " ++
      (match takeawayIsAbove ind with
        | none => "—"
        | some true => "above"
        | some false => "below") ++
      " its long-term historical median."
  else ""

/-- The part pushed in the `low` state: the bottom-percentile sentence. -/
def bottomSentence (B : Builtins) (ind : IndicatorRecord) : String :=
  let startYear := nullishOr ind.startYear .null
  let since := if startYear.truthy then " since " ++ jsToString B startYear else ""
  "This is in the bottom " ++ fmtPct B ind.percentile ++ " of historical observations" ++
    since ++ "."

/-- The array `bodyParts` before `filter(Boolean)`. -/
def bodyParts (B : Builtins) (ind : IndicatorRecord) (profile : Profile)
    (state : TakeawayState) : List String :=
  [latestSentence B ind profile, medianSentence B ind] ++
    (if state = .low then [bottomSentence B ind] else [])

/-- The default parameter `profile = {}`: an omitted profile is the empty
object; `none` is the `null` profile. -/
def ProfileArg.resolve : ProfileArg → Option Profile
  | .omitted => some Profile.empty
  | .null => none
  | .obj p => some p

/-- Source `generateTakeaway(ind, profile = {})`; a `none` record is a falsy
`ind`, and reading a property of a `null` profile throws a `TypeError`. -/
def generateTakeaway (B : Builtins) (ind : Option IndicatorRecord) (profile : ProfileArg) :
    Except String Takeaway :=
  match ind with
  | none =>
    .ok { headline := "No takeaway available"
          body := "Indicator data was not available for this series." }
  | some ind =>
    match profile.resolve with
    | none => .error "TypeError"
    | some profile =>
      let state := takeawayState B ind profile
      match templateFor (profile.templates.getD ⟨none, none, none⟩) state with
      | some template => .ok (template ind)
      | none =>
        .ok { headline := takeawayHeadline ind profile state
              body := " ".intercalate ((bodyParts B ind profile state).filter (· ≠ "")) }

/-! ## indicators.js: the indicator record -/

/-- The first `n` UTF-16 code units of a string given by its characters;
`none` when the cut falls inside a surrogate pair, where the slice is not a
well-formed string. -/
def takeUnits : List Char → Nat → Option (List Char)
  | [], _ => some []
  | _ :: _, 0 => some []
  | c :: cs, n + 1 =>
    if c.toNat < 0x10000 then (takeUnits cs n).map (fun l => c :: l)
    else
      match n with
      | 0 => none
      | m + 1 => (takeUnits cs m).map (fun l => c :: l)

/-- The expression `Number(dates[0]?.slice(0, 4)) || null` on the value
`dates[0]`: a nullish value short-circuits to `NaN`, a string is sliced and
converted (a slice with a lone surrogate is no numeric literal), and a
number has no method `slice`, so the call throws. -/
def startYearOf (B : Builtins) (d0 : JSVal) : Except String JSVal :=
  match d0 with
  | .undefined => .ok .null
  | .null => .ok .null
  | .str s =>
    let n := match takeUnits s.toList 4 with
      | some l => toNumber B (.str (String.mk l))
      | none => .nan
    .ok (if n.truthy then n else .null)
  | _ => .error "TypeError"

/-- Source `computeRatioIndicators(dates, ratio)`; `.ok none` is the result
`null`. -/
def computeRatioIndicators (B : Builtins) (dates ratio : Option (List JSVal)) :
    Except String (Option IndicatorRecord) :=
  match dates, ratio with
  | some ds, some rs =>
    if ds.length = 0 || rs.length = 0 || ds.length ≠ rs.length then .ok none
    else
      match lastFinite rs rs.length with
      | none => .ok none
      | some last =>
        let latestValue := rs.getD last .undefined
        let latestDate := ds.getD last .undefined
        match startYearOf B (ds.getD 0 .undefined) with
        | .error e => .error e
        | .ok startYear =>
          let vals := rs.filter JSVal.isFinite
          let med := median (some vals)
          let pct := percentile (some vals) latestValue
          let tir := timeInRegime (some ds) (some rs) med
          let historical := findMinMax ds rs
          .ok (some { latestValue := latestValue
                      latestDate := latestDate
                      startYear := startYear
                      median := med
                      percentile := pct
                      timeInRegime := tir
                      historical := historical })
  | _, _ => .ok none

/-! ## ratioCharts.js -/

/-- The compute part of `renderRatioPage` between loading the two files and
rendering: `buildRatioSeries({ numJson, denJson })`, the check
`fullDates.length < 2` that throws, then `computeRatioIndicators`. -/
def renderRatioPageCompute (B : Builtins) (numJson denJson : SeriesJson) :
    Except String (RatioSeries × Option IndicatorRecord) :=
  let r := buildRatioSeries B (some numJson) (some denJson) none none
  if r.dates.length < 2 then .error "Not enough overlapping dates to render chart."
  else
    match computeRatioIndicators B (some r.dates) (some r.ratio) with
    | .error e => .error e
    | .ok ind => .ok (r, ind)

/-! ## tokenCharts.js -/

/-- One iteration of the loop of `mapPointsToMap`. -/
def mapPointsToMapStep (B : Builtins) (m : JSMap) (p : Option JSObj) : JSMap :=
  if (getProp p "date").truthy && !(getProp p "close").isNullish
  then mapSet m (getProp p "date") (toNumber B (getProp p "close"))
  else m

/-- Source `mapPointsToMap(points)`. -/
def mapPointsToMap (B : Builtins) (points : Option (List (Option JSObj))) : JSMap :=
  (points.getD []).foldl (mapPointsToMapStep B) []

/-- A point `{ date, close }` of the premium series. -/
structure PremiumPoint where
  date : JSVal
  close : JSVal
  deriving DecidableEq, Repr

/-- The callback of `dates.map` in `buildPremiumSeries`; `none` is `null`. -/
def premiumAt (tokenMap goldMap : JSMap) (date : JSVal) : Option PremiumPoint :=
  match mapGet tokenMap date, mapGet goldMap date with
  | .num token, .num gold =>
    if gold = 0 then none
    else some { date := date, close := jsSub (jsDiv (.num token) (.num gold)) (.num 1) }
  | _, _ => none

/-- Source `buildPremiumSeries(tokenPricePoints, goldSpotPoints)`; the final
`filter(Boolean)` drops the `null` positions. -/
def buildPremiumSeries (B : Builtins) (tokenPricePoints goldSpotPoints :
    Option (List (Option JSObj))) : List PremiumPoint :=
  let tokenMap := mapPointsToMap B tokenPricePoints
  let goldMap := mapPointsToMap B goldSpotPoints
  let dates := defaultSort B ((mapKeys tokenMap).filter (fun d => mapHas goldMap d))
  (dates.map (premiumAt tokenMap goldMap)).filterMap id

/-! ## Auxiliary notions for the statements -/

/-- The entries of a map as points `{ date, [valueKey]: value }`, in the
iteration order of the map. -/
def mapToPoints (m : JSMap) (valueKey : String) : List (Option JSObj) :=
  m.map (fun e => some [("date", e.1), (valueKey, e.2)])

/-- Strictly ascending string dates, in the order of `<` on strings. -/
def StrictlyAscending (dates : List JSVal) : Prop :=
  dates.Pairwise (fun x y => ∃ s t, x = JSVal.str s ∧ y = JSVal.str t ∧ jsStrLt s t = true)

/-! ## ratioCharts.js: the state class -/

/-- The profile `{ lowExtreme: 15, highExtreme: 85, noun: "ratio" }` with the
default headline strings written out. -/
def Profile.defaults : Profile :=
  { lowExtreme := .num 15, highExtreme := .num 85, noun := some "ratio",
    lowHeadline := some "Historically low reading",
    highHeadline := some "Historically high reading",
    normalHeadlineAbove := some "Above median regime",
    normalHeadlineBelow := some "Below median regime",
    normalHeadlineUnknown := some "Within typical range",
    templates := none }

/-- Source `classifyIndicator(ind, profile = {})` of ratioCharts.js; a `none`
record is a falsy `ind`, and reading a property of a `null` profile throws a
`TypeError`. -/
def classifyIndicator (B : Builtins) (ind : Option IndicatorRecord) (profile : ProfileArg) :
    Except String String :=
  match ind with
  | none => .ok ""
  | some ind =>
    match profile.resolve with
    | none => .error "TypeError"
    | some profile =>
      let v := ind.latestValue
      let med := ind.median
      let p := ind.percentile
      let lowExtreme := nullishOr profile.lowExtreme (.num 15)
      let highExtreme := nullishOr profile.highExtreme (.num 85)
      let isAbove : Option Bool :=
        if v.isFinite && med.isFinite then some (numGe v med) else none
      if !p.isNullish && p.isFinite && numLe p (toNumber B lowExtreme) then .ok "is-extreme-low"
      else if !p.isNullish && p.isFinite && numGe p (toNumber B highExtreme)
      then .ok "is-extreme-high"
      else if isAbove = some true then .ok "is-above-median"
      else if isAbove = some false then .ok "is-below-median"
      else .ok ""

/-! ## commodityBargainMonitor.js: the return window -/

/-- A calendar date of the UTC calendar: what a `Date` at midnight UTC holds. -/
structure CivilDate where
  year : Int
  month : Nat
  day : Nat
  deriving DecidableEq, Repr

/-- Leap years of the proleptic Gregorian calendar. -/
def isLeapYear (y : Int) : Bool :=
  (y % 4 = 0 && y % 100 ≠ 0) || y % 400 = 0

/-- The number of days of a month. -/
def daysInMonth (y : Int) (m : Nat) : Nat :=
  if m = 2 then (if isLeapYear y then 29 else 28)
  else if m = 4 ∨ m = 6 ∨ m = 9 ∨ m = 11 then 30
  else 31

/-- A date that exists in the calendar. -/
def CivilDate.valid (c : CivilDate) : Bool :=
  decide (1 ≤ c.month) && decide (c.month ≤ 12) && decide (1 ≤ c.day) &&
    decide (c.day ≤ daysInMonth c.year c.month)

/-- Chronological order of calendar dates. -/
def CivilDate.le (a b : CivilDate) : Prop :=
  a.year < b.year ∨ (a.year = b.year ∧
    (a.month < b.month ∨ (a.month = b.month ∧ a.day ≤ b.day)))

/-- The day number of a calendar date, counted from 1970-01-01. -/
def daysFromCivil (c : CivilDate) : Int :=
  let y : Int := if c.month ≤ 2 then c.year - 1 else c.year
  let era : Int := y / 400
  let yoe : Int := y - era * 400
  let mp : Int := if c.month > 2 then (c.month : Int) - 3 else (c.month : Int) + 9
  let doy : Int := (153 * mp + 2) / 5 + (c.day : Int) - 1
  let doe : Int := yoe * 365 + yoe / 4 - yoe / 100 + doy
  era * 146097 + doe - 719468

/-- The range of time values a `Date` can hold (`TimeClip`): at most
100,000,000 days on either side of the epoch. -/
def inDateRange (c : CivilDate) : Bool :=
  decide (-100000000 ≤ daysFromCivil c) && decide (daysFromCivil c ≤ 100000000)

/-- The decimal digit `n` as a character. -/
def digitChar (n : Nat) : Char :=
  Char.ofNat (48 + n)

/-- The decimal digits of a natural number, most significant first; the
first argument bounds the number of digits. -/
def natDigits : Nat → Nat → List Char
  | 0, _ => []
  | fuel + 1, n =>
    if n < 10 then [digitChar n] else natDigits fuel (n / 10) ++ [digitChar (n % 10)]

/-- The characters of `String(i)` for an integer `i`. -/
def intChars (i : Int) : List Char :=
  match i with
  | .ofNat n => natDigits (n + 1) n
  | .negSucc n => '-' :: natDigits (n + 2) (n + 1)

/-- The characters of `s.padStart(2, "0")`. -/
def padStart2 (s : List Char) : List Char :=
  List.replicate (2 - s.length) '0' ++ s

/-- Source `isoUTCDate(d)`: the year printed as it is, month and day padded
to two characters; `none` is an invalid `Date`, whose fields are `NaN`. -/
def isoUTCDate (d : Option CivilDate) : String :=
  match d with
  | none => "NaN-NaN-NaN"
  | some c =>
    String.mk (intChars c.year ++ '-' :: padStart2 (intChars (c.month : Int)) ++
      '-' :: padStart2 (intChars (c.day : Int)))

/-- The value of a decimal digit character. -/
def digitVal (c : Char) : Option Nat :=
  if 48 ≤ c.toNat ∧ c.toNat ≤ 57 then some (c.toNat - 48) else none

/-- The constructor `new Date(s)` on a string `YYYY-MM-DDT00:00:00Z` with a
month from 01 to 12 and a day from 01 to 31, as V8 reads it: a day past the
end of its month runs over into the next month (`2023-02-30` is the 2nd of
March). Every other string is taken as an invalid `Date` (`none`). -/
def utcMidnight (s : String) : Option CivilDate :=
  match s.toList with
  | [y1, y2, y3, y4, c1, m1, m2, c2, d1, d2, t, h1, h2, c3, n1, n2, c4, s1, s2, z] =>
    if [c1, c2, t, h1, h2, c3, n1, n2, c4, s1, s2, z] =
        ['-', '-', 'T', '0', '0', ':', '0', '0', ':', '0', '0', 'Z'] then
      match digitVal y1, digitVal y2, digitVal y3, digitVal y4,
          digitVal m1, digitVal m2, digitVal d1, digitVal d2 with
      | some a, some b, some c, some d, some e, some f, some g, some h =>
        let date : CivilDate :=
          { year := ((1000 * a + 100 * b + 10 * c + d : Nat) : Int)
            month := 10 * e + f
            day := 10 * g + h }
        if date.valid then some date
        else if 1 ≤ date.month ∧ date.month ≤ 12 ∧ 1 ≤ date.day ∧ date.day ≤ 31 then
          some { year := date.year, month := date.month + 1,
                 day := date.day - daysInMonth date.year date.month }
        else none
      | _, _, _, _, _, _, _, _ => none
    else none
  | _ => none

/-- The calendar date reached by `setUTCFullYear(y)` from a date of the
calendar: the same month and day in the year `y`, the 29th of February of a
year without one running over to the 1st of March. -/
def shiftYear (c : CivilDate) (y : Int) : CivilDate :=
  if c.month = 2 ∧ c.day = 29 ∧ isLeapYear y = false then { year := y, month := 3, day := 1 }
  else { year := y, month := c.month, day := c.day }

/-- The call `d.setUTCFullYear(y)` for an integer `y`: an invalid date stays
invalid, and a result outside the range of time values is invalid. -/
def setUTCFullYear (d : Option CivilDate) (y : Int) : Option CivilDate :=
  match d with
  | none => none
  | some c => if inDateRange (shiftYear c y) then some (shiftYear c y) else none

/-- The comparison `s >= t` on strings. -/
def jsStrGe (s t : String) : Bool :=
  !jsStrLt s t

/-- A point `{ date, close }` of a fetched daily series. -/
structure DatedPoint where
  date : String
  close : JSVal
  deriving DecidableEq, Repr

/-- The result `{ fromDate, toDate, startClose, endClose }`. -/
structure ReturnWindow where
  fromDate : String
  toDate : String
  startClose : JSVal
  endClose : JSVal
  deriving DecidableEq, Repr

/-- Source `pickStartEndFor3Y(points, lookbackYears = 3)` for an integer
`lookbackYears`; `none` is `null`, and `find?` is `findIndex` followed by
`points[idx]`. -/
def pickStartEndFor3Y (points : List DatedPoint) (lookbackYears : Option Int) :
    Option ReturnWindow :=
  match points.getLast? with
  | none => none
  | some last =>
    let endDate := last.date
    let endD := utcMidnight (endDate ++ "T00:00:00Z")
    let target := setUTCFullYear endD
      (match endD with
        | some c => c.year - lookbackYears.getD 3
        | none => 0)
    let targetISO := isoUTCDate target
    match points.find? (fun p => jsStrGe p.date targetISO) with
    | none => none
    | some start =>
      some { fromDate := start.date, toDate := endDate,
             startClose := start.close, endClose := last.close }

/-- The string `YYYY-MM-DD` of a calendar date with a year from 0 to 9999:
a well-formed ISO date. -/
def isoDateString (c : CivilDate) : String :=
  String.mk [digitChar (c.year.toNat / 1000), digitChar (c.year.toNat / 100 % 10),
    digitChar (c.year.toNat / 10 % 10), digitChar (c.year.toNat % 10), '-',
    digitChar (c.month / 10), digitChar (c.month % 10), '-',
    digitChar (c.day / 10), digitChar (c.day % 10)]

/-- The calendar dates a well-formed ISO date `YYYY-MM-DD` can name: the
dates of the calendar with a year from 0 to 9999. -/
def CivilDate.fourDigit (c : CivilDate) : Prop :=
  c.valid = true ∧ 0 ≤ c.year ∧ c.year ≤ 9999
/-! ## Properties of the rounding -/

theorem roundHalfEven_intCast (z : ℤ) : roundHalfEven (z : ℚ) = z := by
  unfold roundHalfEven
  simp

theorem roundHalfEven_bounds (x : ℚ) : ⌊x⌋ ≤ roundHalfEven x ∧ roundHalfEven x ≤ ⌊x⌋ + 1 := by
  unfold roundHalfEven
  split_ifs <;> constructor <;> omega

theorem roundHalfEven_eq_floor_of (x : ℚ) (h : x - ⌊x⌋ < 1 / 2) : roundHalfEven x = ⌊x⌋ := by
  unfold roundHalfEven
  rw [if_pos h]

theorem roundHalfEven_mono (x y : ℚ) (h : x ≤ y) : roundHalfEven x ≤ roundHalfEven y := by
  have hfl : ⌊x⌋ ≤ ⌊y⌋ := Int.floor_mono h
  rcases lt_or_eq_of_le hfl with hlt | heq
  · have h1 := (roundHalfEven_bounds x).2
    have h2 := (roundHalfEven_bounds y).1
    omega
  · unfold roundHalfEven
    rw [heq]
    have hxy : x - ⌊y⌋ ≤ y - ⌊y⌋ := by linarith
    split_ifs <;> first | omega | (exfalso; linarith)

theorem roundHalfEven_near (x : ℚ) (m : ℤ) (h1 : (m : ℚ) - 1 / 2 < x) (h2 : x < m + 1 / 2) :
    roundHalfEven x = m := by
  by_cases hm : (m : ℚ) ≤ x
  · have hf : ⌊x⌋ = m := by
      rw [Int.floor_eq_iff]
      constructor
      · exact hm
      · linarith
    unfold roundHalfEven
    rw [hf, if_pos (by linarith)]
  · have hf : ⌊x⌋ = m - 1 := by
      rw [Int.floor_eq_iff]
      push_cast
      constructor
      · linarith
      · linarith
    unfold roundHalfEven
    rw [hf]
    push_cast
    rw [if_neg (by linarith), if_pos (by linarith)]
    ring

theorem roundHalfEven_nonneg (x : ℚ) (h : 0 ≤ x) : 0 ≤ roundHalfEven x := by
  have := roundHalfEven_mono 0 x h
  have h0 : roundHalfEven (0 : ℚ) = 0 := by
    have := roundHalfEven_intCast 0
    simpa using this
  omega

theorem roundHalfEven_le_of_le (x : ℚ) (n : ℤ) (h : x ≤ n) : roundHalfEven x ≤ n := by
  have := roundHalfEven_mono x n h
  rwa [roundHalfEven_intCast] at this

theorem roundHalfEven_ge_of_ge (x : ℚ) (n : ℤ) (h : (n : ℚ) ≤ x) : n ≤ roundHalfEven x := by
  have := roundHalfEven_mono n x h
  rwa [roundHalfEven_intCast] at this

theorem two_zpow_pos (z : ℤ) : (0 : ℚ) < 2 ^ z :=
  zpow_pos (by norm_num) z

theorem two_zpow_mono (a b : ℤ) (h : a ≤ b) : (2 : ℚ) ^ a ≤ 2 ^ b :=
  zpow_le_zpow_right₀ (by norm_num) h

theorem two_zpow_log_le (q : ℚ) (hq : 0 < q) : (2 : ℚ) ^ Int.log 2 q ≤ q := by
  have := Int.zpow_log_le_self (b := 2) (by norm_num) hq
  simpa using this

theorem lt_two_zpow_log (q : ℚ) : q < (2 : ℚ) ^ (Int.log 2 q + 1) := by
  have := Int.lt_zpow_succ_log_self (b := 2) (by norm_num) q
  simpa using this

theorem log_two_lt_of_lt (q : ℚ) (e : ℤ) (hq : 0 < q) (h : q < 2 ^ e) : Int.log 2 q < e := by
  have := (Int.lt_zpow_iff_log_lt (b := 2) (by norm_num) (x := e) hq).mp (by simpa using h)
  exact this

theorem le_log_two_of_le (q : ℚ) (e : ℤ) (hq : 0 < q) (h : 2 ^ e ≤ q) : e ≤ Int.log 2 q := by
  have := (Int.zpow_le_iff_le_log (b := 2) (by norm_num) (x := e) hq).mp (by simpa using h)
  exact this

theorem ulpExp_ge (q : ℚ) : -1074 ≤ ulpExp q := by
  unfold ulpExp
  have := le_max_right (Int.log 2 q) (-1022)
  omega

theorem ulpExp_mono (p q : ℚ) (hp : 0 < p) (h : p ≤ q) : ulpExp p ≤ ulpExp q := by
  unfold ulpExp
  have := Int.log_mono_right (b := 2) hp h
  have := max_le_max_right (-1022) this
  omega

theorem lt_two_zpow_ulpExp (q : ℚ) : q < 2 ^ (ulpExp q + 53) := by
  have h1 := lt_two_zpow_log q
  have h2 : Int.log 2 q + 1 ≤ ulpExp q + 53 := by
    unfold ulpExp
    have := le_max_left (Int.log 2 q) (-1022)
    omega
  exact lt_of_lt_of_le h1 (two_zpow_mono _ _ h2)

theorem roundPos_le (q : ℚ) (n : ℤ) (h : q ≤ n * 2 ^ ulpExp q) :
    roundPos q ≤ n * 2 ^ ulpExp q := by
  unfold roundPos
  have hu := two_zpow_pos (ulpExp q)
  have h1 : q / 2 ^ ulpExp q ≤ n := by
    rw [div_le_iff₀ hu]
    exact h
  have h2 : ((roundHalfEven (q / 2 ^ ulpExp q) : ℤ) : ℚ) ≤ (n : ℚ) := by
    exact_mod_cast roundHalfEven_le_of_le _ n h1
  exact mul_le_mul_of_nonneg_right h2 hu.le

theorem roundPos_ge (q : ℚ) (n : ℤ) (h : (n : ℚ) * 2 ^ ulpExp q ≤ q) :
    (n : ℚ) * 2 ^ ulpExp q ≤ roundPos q := by
  unfold roundPos
  have hu := two_zpow_pos (ulpExp q)
  have h1 : (n : ℚ) ≤ q / 2 ^ ulpExp q := by
    rw [le_div_iff₀ hu]
    exact h
  have h2 : (n : ℚ) ≤ ((roundHalfEven (q / 2 ^ ulpExp q) : ℤ) : ℚ) := by
    exact_mod_cast roundHalfEven_ge_of_ge _ n h1
  exact mul_le_mul_of_nonneg_right h2 hu.le

theorem roundPos_nonneg (q : ℚ) (hq : 0 < q) : 0 ≤ roundPos q := by
  have := roundPos_ge q 0 (by simpa using hq.le)
  simpa using this

theorem roundPos_le_pow (q : ℚ) : roundPos q ≤ 2 ^ (ulpExp q + 53) := by
  have hc : (((2 : ℤ) ^ 53 : ℤ) : ℚ) = (2 : ℚ) ^ (53 : ℤ) := by norm_num
  have h := roundPos_le q (2 ^ 53) (by
    rw [hc, ← zpow_add₀ (by norm_num : (2 : ℚ) ≠ 0), add_comm]
    exact (lt_two_zpow_ulpExp q).le)
  rw [hc, ← zpow_add₀ (by norm_num : (2 : ℚ) ≠ 0), add_comm] at h
  exact h

theorem roundPos_ge_pow (q : ℚ) (hq : 0 < q) (hn : -1022 ≤ Int.log 2 q) :
    (2 : ℚ) ^ (ulpExp q + 52) ≤ roundPos q := by
  have hu : ulpExp q + 52 = Int.log 2 q := by
    unfold ulpExp
    rw [max_eq_left hn]
    ring
  have hle : (2 : ℚ) ^ (ulpExp q + 52) ≤ q := by
    rw [hu]
    exact two_zpow_log_le q hq
  have hc : (((2 : ℤ) ^ 52 : ℤ) : ℚ) = (2 : ℚ) ^ (52 : ℤ) := by norm_num
  have h := roundPos_ge q (2 ^ 52) (by
    rw [hc, ← zpow_add₀ (by norm_num : (2 : ℚ) ≠ 0), add_comm]
    exact hle)
  rw [hc, ← zpow_add₀ (by norm_num : (2 : ℚ) ≠ 0), add_comm] at h
  exact h

theorem roundPos_mono (p q : ℚ) (hp : 0 < p) (h : p ≤ q) : roundPos p ≤ roundPos q := by
  have hq : 0 < q := lt_of_lt_of_le hp h
  have hu := ulpExp_mono p q hp h
  rcases lt_or_eq_of_le hu with hlt | heq
  · have hlog : -1022 ≤ Int.log 2 q := by
      by_contra hc
      push_neg at hc
      have h1 : ulpExp q = -1074 := by
        unfold ulpExp
        rw [max_eq_right hc.le]
        rfl
      have := ulpExp_ge p
      omega
    calc roundPos p ≤ 2 ^ (ulpExp p + 53) := roundPos_le_pow p
      _ ≤ 2 ^ (ulpExp q + 52) := two_zpow_mono _ _ (by omega)
      _ ≤ roundPos q := roundPos_ge_pow q hq hlog
  · unfold roundPos
    rw [heq]
    have hupos := two_zpow_pos (ulpExp q)
    have h1 : p / 2 ^ ulpExp q ≤ q / 2 ^ ulpExp q := div_le_div_of_nonneg_right h hupos.le
    have h2 : ((roundHalfEven (p / 2 ^ ulpExp q) : ℤ) : ℚ) ≤
        ((roundHalfEven (q / 2 ^ ulpExp q) : ℤ) : ℚ) := by
      exact_mod_cast roundHalfEven_mono _ _ h1
    exact mul_le_mul_of_nonneg_right h2 hupos.le

theorem roundNearest_mono (p q : ℚ) (h : p ≤ q) : roundNearest p ≤ roundNearest q := by
  unfold roundNearest
  by_cases hp : 0 < p
  · have hq : 0 < q := lt_of_lt_of_le hp h
    rw [if_pos hp, if_pos hq]
    exact roundPos_mono p q hp h
  · rw [if_neg hp]
    by_cases hp2 : p < 0
    · rw [if_pos hp2]
      have hnp := roundPos_nonneg (-p) (by linarith)
      by_cases hq : 0 < q
      · rw [if_pos hq]
        have := roundPos_nonneg q hq
        linarith
      · rw [if_neg hq]
        by_cases hq2 : q < 0
        · rw [if_pos hq2]
          have := roundPos_mono (-q) (-p) (by linarith) (by linarith)
          linarith
        · rw [if_neg hq2]
          linarith
    · rw [if_neg hp2]
      have hp0 : p = 0 := le_antisymm (not_lt.mp hp) (not_lt.mp hp2)
      by_cases hq : 0 < q
      · rw [if_pos hq]
        exact roundPos_nonneg q hq
      · rw [if_neg hq]
        have hq2 : ¬ q < 0 := by
          intro hc
          linarith
        rw [if_neg hq2]

theorem roundNearest_neg (q : ℚ) : roundNearest (-q) = -roundNearest q := by
  unfold roundNearest
  by_cases hp : 0 < q
  · have h1 : ¬ (0 < -q) := by linarith
    have h2 : -q < 0 := by linarith
    rw [if_pos hp, if_neg h1, if_pos h2, neg_neg]
  · by_cases hp2 : q < 0
    · have h1 : 0 < -q := by linarith
      rw [if_neg hp, if_pos hp2, if_pos h1, neg_neg]
    · have h1 : ¬ (0 < -q) := by linarith
      have h2 : ¬ (-q < 0) := by linarith
      rw [if_neg hp, if_neg hp2, if_neg h1, if_neg h2, neg_zero]

theorem roundNearest_zero : roundNearest 0 = 0 := by
  unfold roundNearest
  simp

theorem roundPos_exact_of_ulp (q : ℚ) (k j : ℤ) (hq : q = k * 2 ^ j) (hj : ulpExp q ≤ j) :
    roundPos q = q := by
  obtain ⟨n, hn⟩ : ∃ n : ℕ, j = ulpExp q + n := ⟨(j - ulpExp q).toNat, by omega⟩
  have hu := two_zpow_pos (ulpExp q)
  have hdiv : q / 2 ^ ulpExp q = ((k * 2 ^ n : ℤ) : ℚ) := by
    rw [div_eq_iff hu.ne']
    conv_lhs => rw [hq, hn, zpow_add₀ (by norm_num : (2 : ℚ) ≠ 0)]
    push_cast
    rw [zpow_natCast]
    ring
  unfold roundPos
  rw [hdiv, roundHalfEven_intCast, ← hdiv, div_mul_cancel₀ _ hu.ne']

theorem ulpExp_le_of_lt (q : ℚ) (j : ℤ) (hq : 0 < q) (hj : -1074 ≤ j) (hlt : q < 2 ^ (j + 53)) :
    ulpExp q ≤ j := by
  have h1 := log_two_lt_of_lt q (j + 53) hq hlt
  unfold ulpExp
  have h2 : max (Int.log 2 q) (-1022) ≤ j + 52 := max_le (by omega) (by omega)
  omega

theorem roundNearest_exact_of_ulp (q : ℚ) (k j : ℤ) (hq : q = k * 2 ^ j)
    (hj : ulpExp |q| ≤ j) : roundNearest q = q := by
  unfold roundNearest
  by_cases hp : 0 < q
  · rw [if_pos hp]
    rw [abs_of_pos hp] at hj
    exact roundPos_exact_of_ulp q k j hq hj
  · rw [if_neg hp]
    by_cases hp2 : q < 0
    · rw [if_pos hp2]
      rw [abs_of_neg hp2] at hj
      have := roundPos_exact_of_ulp (-q) (-k) j (by rw [hq]; push_cast; ring) hj
      rw [this, neg_neg]
    · rw [if_neg hp2]
      exact le_antisymm (not_lt.mp hp2) (not_lt.mp hp)

theorem roundNearest_exact (q : ℚ) (k j : ℤ) (hq : q = k * 2 ^ j) (hj : -1074 ≤ j)
    (hlt : |q| < 2 ^ (j + 53)) : roundNearest q = q := by
  by_cases h0 : q = 0
  · rw [h0, roundNearest_zero]
  · exact roundNearest_exact_of_ulp q k j hq
      (ulpExp_le_of_lt |q| j (abs_pos.mpr h0) hj hlt)

theorem roundPos_eval (q : ℚ) (e m : ℤ) (h1 : 2 ^ e ≤ q) (h2 : q < 2 ^ (e + 1))
    (he : -1022 ≤ e) (hm1 : (m : ℚ) - 1 / 2 < q / 2 ^ (e - 52))
    (hm2 : q / 2 ^ (e - 52) < m + 1 / 2) : roundPos q = m * 2 ^ (e - 52) := by
  have hq : 0 < q := lt_of_lt_of_le (two_zpow_pos e) h1
  have hlog : Int.log 2 q = e := by
    have := le_log_two_of_le q e hq h1
    have := log_two_lt_of_lt q (e + 1) hq h2
    omega
  have hu : ulpExp q = e - 52 := by
    unfold ulpExp
    rw [hlog, max_eq_left he]
  unfold roundPos
  rw [hu, roundHalfEven_near _ m hm1 hm2]

theorem roundNearest_of_pos (q : ℚ) (hq : 0 < q) : roundNearest q = roundPos q := by
  unfold roundNearest
  rw [if_pos hq]

theorem roundNearest_double (q : ℚ) (h : roundNearest q = q) :
    roundNearest (2 * q) = 2 * q := by
  by_cases h0 : q = 0
  · rw [h0, mul_zero, roundNearest_zero]
  · have hpos : 0 < |q| := abs_pos.mpr h0
    have habs : roundPos |q| = |q| := by
      rcases lt_or_gt_of_ne h0 with hneg | hp
      · rw [abs_of_neg hneg]
        have := roundNearest_neg q
        rw [h, roundNearest_of_pos (-q) (by linarith)] at this
        exact this
      · rw [abs_of_pos hp, ← roundNearest_of_pos q hp, h]
    have hform : |q| = (roundHalfEven (|q| / 2 ^ ulpExp |q|) : ℚ) * 2 ^ ulpExp |q| := by
      conv_lhs => rw [← habs]
      rfl
    have hlog : Int.log 2 |2 * q| ≤ Int.log 2 |q| + 1 := by
      have h1 := lt_two_zpow_log |q|
      have h2 : |2 * q| < 2 ^ (Int.log 2 |q| + 1 + 1) := by
        rw [abs_mul, abs_of_pos (by norm_num : (0 : ℚ) < 2),
          zpow_add₀ (by norm_num : (2 : ℚ) ≠ 0) _ 1, zpow_one]
        linarith
      have := log_two_lt_of_lt |2 * q| _ (abs_pos.mpr (by simpa using h0)) h2
      omega
    have hu : ulpExp |2 * q| ≤ ulpExp |q| + 1 := by
      unfold ulpExp
      have := max_le_max_right (-1022) hlog
      have h3 : max (Int.log 2 |q| + 1) (-1022) ≤ max (Int.log 2 |q|) (-1022) + 1 := by
        apply max_le
        · have := le_max_left (Int.log 2 |q|) (-1022)
          omega
        · have := le_max_right (Int.log 2 |q|) (-1022)
          omega
      omega
    rcases lt_or_gt_of_ne h0 with hneg | hp
    · have hq2 : |q| = -q := abs_of_neg hneg
      apply roundNearest_exact_of_ulp (2 * q)
        (-roundHalfEven (|q| / 2 ^ ulpExp |q|)) (ulpExp |q| + 1) _ hu
      rw [zpow_add₀ (by norm_num : (2 : ℚ) ≠ 0) _ 1, zpow_one]
      push_cast
      linarith
    · have hq2 : |q| = q := abs_of_pos hp
      apply roundNearest_exact_of_ulp (2 * q)
        (roundHalfEven (|q| / 2 ^ ulpExp |q|)) (ulpExp |q| + 1) _ hu
      rw [zpow_add₀ (by norm_num : (2 : ℚ) ≠ 0) _ 1, zpow_one]
      linarith

theorem roundToDouble_of_lt (q : ℚ) (h1 : -2 ^ 1024 < roundNearest q)
    (h2 : roundNearest q < 2 ^ 1024) : roundToDouble q = .num (roundNearest q) := by
  unfold roundToDouble
  rw [if_neg (not_le.mpr h2), if_neg (not_le.mpr h1)]

theorem roundToDouble_num (q r : ℚ) (h : roundToDouble q = .num r) :
    r = roundNearest q ∧ -2 ^ 1024 < r ∧ r < 2 ^ 1024 := by
  unfold roundToDouble at h
  split_ifs at h with h1 h2
  simp only [JSVal.num.injEq] at h
  subst h
  exact ⟨rfl, not_le.mp h2, not_le.mp h1⟩

theorem isDouble_iff (q : ℚ) :
    isDouble q ↔ roundNearest q = q ∧ -2 ^ 1024 < q ∧ q < 2 ^ 1024 := by
  unfold isDouble
  constructor
  · intro h
    obtain ⟨h1, h2, h3⟩ := roundToDouble_num q q h
    exact ⟨h1.symm, h2, h3⟩
  · rintro ⟨h1, h2, h3⟩
    rw [roundToDouble_of_lt q (by rw [h1]; exact h2) (by rw [h1]; exact h3), h1]

theorem roundToDouble_between (lo hi q : ℚ) (hlo : isDouble lo) (hhi : isDouble hi)
    (h1 : lo ≤ q) (h2 : q ≤ hi) :
    ∃ r : ℚ, roundToDouble q = .num r ∧ lo ≤ r ∧ r ≤ hi := by
  obtain ⟨el, l1, l2⟩ := (isDouble_iff lo).mp hlo
  obtain ⟨eh, u1, u2⟩ := (isDouble_iff hi).mp hhi
  have m1 := roundNearest_mono lo q h1
  have m2 := roundNearest_mono q hi h2
  rw [el] at m1
  rw [eh] at m2
  exact ⟨roundNearest q, roundToDouble_of_lt q (by linarith) (by linarith), m1, m2⟩

theorem isDouble_of_form (q : ℚ) (k j : ℤ) (hq : q = k * 2 ^ j) (hj : -1074 ≤ j)
    (hlt : |q| < 2 ^ (j + 53)) (hfin : |q| < 2 ^ 1024) : isDouble q := by
  rw [isDouble_iff]
  rw [abs_lt] at hfin
  exact ⟨roundNearest_exact q k j hq hj hlt, hfin.1, hfin.2⟩

theorem isDouble_of_nonneg (q : ℚ) (k j : ℤ) (hq : q = k * 2 ^ j) (h0 : 0 ≤ q)
    (hj : -1074 ≤ j) (hlt : q < 2 ^ (j + 53)) (hfin : q < 2 ^ 1024) : isDouble q := by
  apply isDouble_of_form q k j hq hj
  · rw [abs_of_nonneg h0]
    exact hlt
  · rw [abs_of_nonneg h0]
    exact hfin

theorem isDouble_neg (q : ℚ) (h : isDouble q) : isDouble (-q) := by
  rw [isDouble_iff] at h ⊢
  obtain ⟨h1, h2, h3⟩ := h
  refine ⟨by rw [roundNearest_neg, h1], by linarith, by linarith⟩

theorem isDouble_natCast (n : ℕ) (h : n < 2 ^ 53) : isDouble (n : ℚ) := by
  have hq : ((n : ℚ)) < 2 ^ 53 := by exact_mod_cast h
  apply isDouble_of_nonneg (n : ℚ) (n : ℤ) 0 (by simp) (by positivity) (by norm_num)
  · have : ((0 : ℤ) + 53) = 53 := by norm_num
    rw [this]
    exact_mod_cast h
  · calc (n : ℚ) < 2 ^ 53 := hq
      _ ≤ 2 ^ 1024 := by norm_num

theorem isDouble_zero : isDouble 0 := by
  have := isDouble_natCast 0 (by norm_num)
  simpa using this

theorem isDouble_one : isDouble 1 := by
  have := isDouble_natCast 1 (by norm_num)
  simpa using this

theorem isDouble_hundred : isDouble 100 := by
  have := isDouble_natCast 100 (by norm_num)
  simpa using this

theorem roundToDouble_of_isDouble (q : ℚ) (h : isDouble q) : roundToDouble q = .num q := h

theorem percentile_value (a n : ℚ) (h0 : 0 ≤ a) (han : a ≤ n) (hn : 0 < n) :
    ∃ r p : ℚ, jsDiv (.num a) (.num n) = .num r ∧ r = roundNearest (a / n) ∧
      0 ≤ r ∧ r ≤ 1 ∧
      jsMul (jsDiv (.num a) (.num n)) (.num 100) = .num p ∧
      p = roundNearest (r * 100) ∧ 0 ≤ p ∧ p ≤ 100 := by
  have h1 : 0 ≤ a / n := div_nonneg h0 hn.le
  have h2 : a / n ≤ 1 := by
    rw [div_le_one hn]
    exact han
  obtain ⟨r, hr, hr0, hr1⟩ := roundToDouble_between 0 1 (a / n) isDouble_zero isDouble_one h1 h2
  have hdiv : jsDiv (.num a) (.num n) = .num r := by
    simp only [jsDiv, hn.ne', if_false]
    exact hr
  obtain ⟨p, hp, hp0, hp1⟩ := roundToDouble_between 0 100 (r * 100) isDouble_zero
    isDouble_hundred (by nlinarith) (by nlinarith)
  refine ⟨r, p, hdiv, (roundToDouble_num _ _ hr).1, hr0, hr1, ?_, (roundToDouble_num _ _ hp).1,
    hp0, hp1⟩
  rw [hdiv]
  simp only [jsMul]
  exact hp

theorem ulpExp_eq (q : ℚ) (e : ℤ) (h1 : 2 ^ e ≤ q) (h2 : q < 2 ^ (e + 1)) (he : -1022 ≤ e) :
    ulpExp q = e - 52 := by
  have hq : 0 < q := lt_of_lt_of_le (two_zpow_pos e) h1
  have hlog : Int.log 2 q = e := by
    have := le_log_two_of_le q e hq h1
    have := log_two_lt_of_lt q (e + 1) hq h2
    omega
  unfold ulpExp
  rw [hlog, max_eq_left he]

theorem roundToDouble_eval (q : ℚ) (e m : ℤ) (h1 : 2 ^ e ≤ q) (h2 : q < 2 ^ (e + 1))
    (he : -1022 ≤ e) (he2 : e ≤ 1022) (hm1 : (m : ℚ) - 1 / 2 < q / 2 ^ (e - 52))
    (hm2 : q / 2 ^ (e - 52) < m + 1 / 2) :
    roundToDouble q = .num (m * 2 ^ (e - 52)) := by
  have hq : 0 < q := lt_of_lt_of_le (two_zpow_pos e) h1
  have hrn : roundNearest q = m * 2 ^ (e - 52) := by
    rw [roundNearest_of_pos q hq]
    exact roundPos_eval q e m h1 h2 he hm1 hm2
  have hle := roundPos_le_pow q
  rw [ulpExp_eq q e h1 h2 he, ← roundNearest_of_pos q hq] at hle
  have hnn := roundPos_nonneg q hq
  rw [← roundNearest_of_pos q hq] at hnn
  have hpow : (2 : ℚ) ^ (e - 52 + 53) ≤ 2 ^ (1023 : ℤ) := two_zpow_mono _ _ (by omega)
  have h1023 : (2 : ℚ) ^ (1023 : ℤ) < 2 ^ 1024 := by norm_num
  rw [← hrn]
  apply roundToDouble_of_lt
  · have : (0 : ℚ) < 2 ^ 1024 := by positivity
    linarith
  · linarith

theorem roundToDouble_cases (q : ℚ) :
    (∃ r : ℚ, roundToDouble q = .num r ∧ r = roundNearest q ∧ -2 ^ 1024 < r ∧ r < 2 ^ 1024) ∨
    (roundToDouble q = .posInf ∧ 2 ^ 1024 ≤ roundNearest q) ∨
    (roundToDouble q = .negInf ∧ roundNearest q ≤ -2 ^ 1024) := by
  unfold roundToDouble
  by_cases h1 : (2 : ℚ) ^ 1024 ≤ roundNearest q
  · right; left
    rw [if_pos h1]
    exact ⟨rfl, h1⟩
  · by_cases h2 : roundNearest q ≤ -2 ^ 1024
    · right; right
      rw [if_neg h1, if_pos h2]
      exact ⟨rfl, h2⟩
    · left
      rw [if_neg h1, if_neg h2]
      exact ⟨_, rfl, rfl, not_le.mp h2, not_le.mp h1⟩

theorem isDouble_two_pow_1023 : isDouble (2 ^ 1023) := by
  have h := isDouble_of_nonneg (2 ^ 1023) 1 1023 (by norm_num) (by positivity) (by norm_num)
    (by norm_num) (by norm_num)
  exact h

theorem roundToDouble_half_of_num (s : ℚ) (h1 : -2 ^ 1024 < s) (h2 : s < 2 ^ 1024) :
    roundToDouble (s / 2) = .num (roundNearest (s / 2)) := by
  have hd := isDouble_two_pow_1023
  obtain ⟨r, hr, _, _⟩ := roundToDouble_between (-2 ^ 1023) (2 ^ 1023) (s / 2)
    (isDouble_neg _ hd) hd (by
      have : (2 : ℚ) ^ 1024 = 2 * 2 ^ 1023 := by norm_num
      linarith) (by
      have : (2 : ℚ) ^ 1024 = 2 * 2 ^ 1023 := by norm_num
      linarith)
  rw [hr, (roundToDouble_num _ _ hr).1]

theorem mean_cases (a b : ℚ) :
    (∃ s : ℚ, jsAdd (.num a) (.num b) = .num s ∧ s = roundNearest (a + b) ∧
      -2 ^ 1024 < s ∧ s < 2 ^ 1024 ∧
      jsDiv (jsAdd (.num a) (.num b)) (.num 2) = .num (roundNearest (s / 2))) ∨
    (jsDiv (jsAdd (.num a) (.num b)) (.num 2) = .posInf ∧ 2 ^ 1024 ≤ roundNearest (a + b)) ∨
    (jsDiv (jsAdd (.num a) (.num b)) (.num 2) = .negInf ∧ roundNearest (a + b) ≤ -2 ^ 1024) := by
  have hadd : jsAdd (.num a) (.num b) = roundToDouble (a + b) := rfl
  rcases roundToDouble_cases (a + b) with ⟨s, hs, hsr, h1, h2⟩ | ⟨hs, h⟩ | ⟨hs, h⟩
  · left
    refine ⟨s, by rw [hadd, hs], hsr, h1, h2, ?_⟩
    rw [hadd, hs]
    simp only [jsDiv, (by norm_num : (2 : ℚ) ≠ 0), if_false]
    exact roundToDouble_half_of_num s h1 h2
  · right; left
    rw [hadd, hs]
    exact ⟨by simp [jsDiv], h⟩
  · right; right
    rw [hadd, hs]
    exact ⟨by simp [jsDiv], h⟩

theorem mean_ne_null (a b : ℚ) : jsDiv (jsAdd (.num a) (.num b)) (.num 2) ≠ .null := by
  rcases mean_cases a b with ⟨s, _, _, _, _, h⟩ | ⟨h, _⟩ | ⟨h, _⟩ <;> rw [h] <;>
    exact fun h => JSVal.noConfusion h

/-! ## Properties of the indicator engine -/

theorem finiteEntries_eq_nil_iff (values : List JSVal) :
    finiteEntries values = [] ↔ ∀ v ∈ values, v.isFinite = false := by
  induction values with
  | nil => simp [finiteEntries]
  | cons v rest ih =>
    cases v <;> simp [finiteEntries, JSVal.isFinite, ih]

theorem mem_finiteEntries_iff (values : List JSVal) (q : ℚ) :
    q ∈ finiteEntries values ↔ JSVal.num q ∈ values := by
  induction values with
  | nil => simp [finiteEntries]
  | cons v rest ih =>
    cases v <;> simp [finiteEntries, ih]

theorem percentile_foldl (x : ℚ) (values : List JSVal) (acc : Nat × Nat × Nat) :
    values.foldl (percentileStep (.num x)) acc =
      (acc.1 + (finiteEntries values).countP (fun v => decide (v < x)),
       acc.2.1 + (finiteEntries values).countP (fun v => decide (v = x)),
       acc.2.2 + (finiteEntries values).length) := by
  induction values generalizing acc with
  | nil => simp [finiteEntries]
  | cons v rest ih =>
    cases v with
    | num q =>
      simp only [List.foldl_cons, ih, finiteEntries, percentileStep, JSVal.isFinite, numLt,
        strictEq, List.countP_cons, List.length_cons]
      by_cases h1 : q < x
      · have h2 : ¬ q = x := ne_of_lt h1
        simp [h1, h2]; omega
      · by_cases h2 : q = x
        · simp [h1, h2]; omega
        · simp [h1, h2]; omega
    | _ => simp [List.foldl_cons, ih, finiteEntries, percentileStep, JSVal.isFinite]

theorem percentile_formula (values : List JSVal) (x : ℚ) (hne : finiteEntries values ≠ []) :
    percentile (some values) (.num x) =
      jsMul (jsDiv
          (.num (((finiteEntries values).countP (fun v => decide (v < x)) : ℚ)
                + ((finiteEntries values).countP (fun v => decide (v = x)) : ℚ) / 2))
          (.num ((finiteEntries values).length : ℚ))) (.num 100) := by
  have hvs : values ≠ [] := by
    intro h0
    rw [h0] at hne
    exact hne rfl
  have hlen : (finiteEntries values).length ≠ 0 := by
    simpa [List.length_eq_zero] using hne
  have harg : ∀ a b : ℚ, a + b * 2⁻¹ = a + b / 2 := by
    intro a b
    ring
  simp [percentile, percentile_foldl, JSVal.isFinite, hvs, hlen, harg]

/-- C1: `percentile(values, x)` for a finite `x` is `null` when `values` has
no finite entry and `(lt + eq/2) / n * 100` otherwise, evaluated as the code
does in double arithmetic, with `n`, `lt`, `eq` the numbers of finite
entries, of finite entries below `x` and of finite entries equal to `x`;
`[1,2,2,3]` and `2` give `50`, and `[1,1,1,2,3,...,3]` with 21 entries `3`
and `2` give `14.000000000000002`, the double `7881299347898369 / 2^49`. -/
theorem percentile_spec (values : List JSVal) (x : ℚ) :
    percentile (some values) (.num x) =
      (if values.any JSVal.isFinite = false then .null
       else jsMul (jsDiv
          (.num (((finiteEntries values).countP (fun v => decide (v < x)) : ℚ)
                + ((finiteEntries values).countP (fun v => decide (v = x)) : ℚ) / 2))
          (.num ((finiteEntries values).length : ℚ))) (.num 100)) ∧
    percentile (some [.num 1, .num 2, .num 2, .num 3]) (.num 2) = .num 50 ∧
    percentile (some ([.num 1, .num 1, .num 1, .num 2] ++ List.replicate 21 (.num 3)))
      (.num 2) = .num (7881299347898369 / 2 ^ 49) := by
  refine ⟨?_, ?_, ?_⟩
  · by_cases h : values.any JSVal.isFinite = false
    · have hn : finiteEntries values = [] :=
        (finiteEntries_eq_nil_iff values).2 (by simpa using h)
      simp [percentile, percentile_foldl, hn, h]
    · have hne : finiteEntries values ≠ [] := by
        intro hn
        exact h (by simpa using (finiteEntries_eq_nil_iff values).1 hn)
      rw [if_neg h]
      exact percentile_formula values x hne
  · have e1 : roundToDouble (1 / 2) = .num (1 / 2) :=
      isDouble_of_nonneg (1 / 2) 1 (-1) (by norm_num) (by norm_num) (by norm_num)
        (by norm_num) (by norm_num)
    have e2 : roundToDouble 50 = .num 50 := by
      have := isDouble_natCast 50 (by norm_num)
      simpa using this
    norm_num [percentile, percentileStep, numLt, strictEq, JSVal.isFinite, jsDiv, jsMul, e1, e2]
  · have e1 : roundToDouble (7 / 50) = .num (1261007895663739 / 2 ^ 53) := by
      have := roundToDouble_eval (7 / 50) (-3) 5044031582654956 (by norm_num) (by norm_num)
        (by norm_num) (by norm_num) (by norm_num) (by norm_num)
      rw [this]
      norm_num
    have e2 : roundToDouble (1261007895663739 / 2 ^ 53 * 100) =
        .num (7881299347898369 / 2 ^ 49) := by
      have := roundToDouble_eval (1261007895663739 / 2 ^ 53 * 100) 3 7881299347898369
        (by norm_num) (by norm_num) (by norm_num) (by norm_num) (by norm_num) (by norm_num)
      rw [this]
      norm_num
    have hdiv : jsDiv (.num (7 / 2)) (.num 25) = .num (1261007895663739 / 2 ^ 53) := by
      simp only [jsDiv]
      norm_num
      exact e1
    have hmul : jsMul (.num (1261007895663739 / 2 ^ 53)) (.num 100) =
        .num (7881299347898369 / 2 ^ 49) := by
      simp only [jsMul]
      exact e2
    have hfin : finiteEntries ([.num 1, .num 1, .num 1, .num 2] ++
        List.replicate 21 (.num 3)) = [1, 1, 1, 2] ++ List.replicate 21 (3 : ℚ) := by
      simp [finiteEntries, List.replicate]
    have hfold : percentile (some ([.num 1, .num 1, .num 1, .num 2] ++
        List.replicate 21 (.num 3))) (.num 2) =
        jsMul (jsDiv (.num (7 / 2)) (.num 25)) (.num 100) := by
      rw [percentile_formula _ _ (by rw [hfin]; simp), hfin]
      simp only [List.countP_append, List.countP_replicate, List.length_append,
        List.length_replicate, List.countP_cons, List.countP_nil, List.length_cons,
        List.length_nil]
      norm_num
    rw [hfold, hdiv, hmul]

theorem median_sorted_eq (values : List JSVal) (s : List ℚ)
    (hs : s.Sorted (· ≤ ·)) (hp : s.Perm (finiteEntries values)) :
    (finiteEntries values).insertionSort (· ≤ ·) = s :=
  List.eq_of_perm_of_sorted
    ((List.perm_insertionSort _ _).trans hp.symm)
    (List.sorted_insertionSort _ _) hs

theorem median_pair (a : ℚ) :
    median (some [.num a, .num a]) = jsDiv (jsAdd (.num a) (.num a)) (.num 2) := by
  simp [median, finiteEntries, List.insertionSort, List.orderedInsert]

theorem roundToDouble_overflow : roundToDouble (2 ^ 1023 + 2 ^ 1023) = .posInf := by
  have hrn : roundNearest (2 ^ 1023 + 2 ^ 1023) = 2 ^ 1023 + 2 ^ 1023 :=
    roundNearest_exact _ 1 1024 (by norm_num) (by norm_num) (by norm_num)
  unfold roundToDouble
  rw [hrn, if_pos (by norm_num)]

theorem median_overflow : median (some [.num (2 ^ 1023), .num (2 ^ 1023)]) = .posInf := by
  rw [median_pair]
  have h : jsAdd (.num (2 ^ 1023)) (.num (2 ^ 1023)) = .posInf := roundToDouble_overflow
  rw [h]
  rfl

/-- C3: `median(values)` is `null` exactly when `values` has no finite entry;
otherwise, for `s` the finite entries sorted ascending and `n` their number,
it is `s[(n-1)/2]` for odd `n` and `(s[n/2-1] + s[n/2]) / 2` for even `n`,
evaluated as the code does in double arithmetic: `[1,2,3,4]` gives `2.5`,
`[1,2,3]` gives `2`, and `[2^1023, 2^1023]`, whose sum overflows, gives
`Infinity`. -/
theorem median_spec (values : List JSVal) :
    (median (some values) = .null ↔ values.any JSVal.isFinite = false) ∧
    (∀ s : List ℚ, s.Sorted (· ≤ ·) → s.Perm (finiteEntries values) → s ≠ [] →
      (s.length % 2 = 1 →
        ∃ a, s[(s.length - 1) / 2]? = some a ∧ median (some values) = .num a) ∧
      (s.length % 2 = 0 →
        ∃ a b, s[s.length / 2 - 1]? = some a ∧ s[s.length / 2]? = some b ∧
          median (some values) = jsDiv (jsAdd (.num a) (.num b)) (.num 2))) ∧
    median (some [.num 1, .num 2, .num 3, .num 4]) = .num (5 / 2) ∧
    median (some [.num 1, .num 2, .num 3]) = .num 2 ∧
    median (some [.num (2 ^ 1023), .num (2 ^ 1023)]) = .posInf := by
  have key : ∀ s : List ℚ, s.Sorted (· ≤ ·) → s.Perm (finiteEntries values) → s ≠ [] →
      (s.length % 2 = 1 →
        ∃ a, s[(s.length - 1) / 2]? = some a ∧ median (some values) = .num a) ∧
      (s.length % 2 = 0 →
        ∃ a b, s[s.length / 2 - 1]? = some a ∧ s[s.length / 2]? = some b ∧
          median (some values) = jsDiv (jsAdd (.num a) (.num b)) (.num 2)) := by
    intro s hs hp hne
    have hsort := median_sorted_eq values s hs hp
    have hlen : s.length ≠ 0 := by simpa [List.length_eq_zero] using hne
    refine ⟨?_, ?_⟩
    · intro hodd
      have hmid : (s.length - 1) / 2 = s.length / 2 := by omega
      have hlt : s.length / 2 < s.length := by omega
      refine ⟨s[s.length / 2], ?_, ?_⟩
      · rw [hmid]; exact List.getElem?_eq_getElem hlt
      · simp [median, hsort, hlen, hodd, numAt, List.getElem?_eq_getElem hlt]
    · intro heven
      have hlt : s.length / 2 < s.length := by omega
      have hlt1 : s.length / 2 - 1 < s.length := by omega
      refine ⟨s[s.length / 2 - 1], s[s.length / 2], List.getElem?_eq_getElem hlt1,
        List.getElem?_eq_getElem hlt, ?_⟩
      simp [median, hsort, hlen, heven, List.getElem?_eq_getElem hlt,
        List.getElem?_eq_getElem hlt1]
  refine ⟨?_, key, ?_, ?_, ?_⟩
  · by_cases h : values.any JSVal.isFinite = false
    · have hn : finiteEntries values = [] :=
        (finiteEntries_eq_nil_iff values).2 (by simpa using h)
      simp [median, hn, h]
    · have hne : finiteEntries values ≠ [] := by
        intro hn
        exact h (by simpa using (finiteEntries_eq_nil_iff values).1 hn)
      have hs := List.sorted_insertionSort (· ≤ ·) (finiteEntries values)
      have hp := List.perm_insertionSort (· ≤ ·) (finiteEntries values)
      have hne2 : (finiteEntries values).insertionSort (· ≤ ·) ≠ [] := by
        intro h0
        rw [h0] at hp
        exact hne (List.Perm.nil_eq hp).symm
      have k := key _ hs hp hne2
      constructor
      · intro hnull
        exfalso
        rcases Nat.mod_two_eq_zero_or_one
          ((finiteEntries values).insertionSort (· ≤ ·)).length with h0 | h1
        · obtain ⟨a, b, _, _, hm⟩ := k.2 h0
          rw [hm] at hnull
          exact mean_ne_null a b hnull
        · obtain ⟨a, _, hm⟩ := k.1 h1
          rw [hm] at hnull
          exact JSVal.noConfusion hnull
      · intro h'; exact absurd h' h
  · have e1 : roundToDouble 5 = .num 5 := by
      have := isDouble_natCast 5 (by norm_num)
      simpa using this
    have e2 : roundToDouble (5 / 2) = .num (5 / 2) :=
      isDouble_of_nonneg (5 / 2) 5 (-1) (by norm_num) (by norm_num) (by norm_num)
        (by norm_num) (by norm_num)
    norm_num [median, finiteEntries, List.insertionSort, List.orderedInsert, jsAdd, jsDiv,
      e1, e2]
  · simp [median, finiteEntries, numAt]
  · exact median_overflow

/-- Witness for C3 on the series `[3, null, 1]`, whose finite entries sorted
are `[1, 3]`. -/
theorem median_spec_witness :
    median (some [.num 3, .null, .num 1]) = .num 2 := by
  obtain ⟨a, b, ha, hb, hm⟩ :=
    ((median_spec [.num 3, .null, .num 1]).2.1 [1, 3]
      (by simp) (by simp [finiteEntries, List.Perm.swap]) (by simp)).2 (by simp)
  simp at ha hb
  have e1 : roundToDouble 4 = .num 4 := by
    have := isDouble_natCast 4 (by norm_num)
    simpa using this
  have e2 : roundToDouble 2 = .num 2 := by
    have := isDouble_natCast 2 (by norm_num)
    simpa using this
  rw [hm, ← ha, ← hb]
  norm_num [jsAdd, jsDiv, e1, e2]

theorem findMinMax_min_step (dates pre : List JSVal) (mn : Extreme) (x : ℚ)
    (hinv : ((∀ q, JSVal.num q ∉ pre) ∧ mn = ⟨.posInf, .null⟩) ∨
      (∃ k q, pre[k]? = some (.num q) ∧ mn = ⟨.num q, dates.getD k .undefined⟩ ∧
        (∀ r, JSVal.num r ∈ pre → q ≤ r) ∧ ∀ j, j < k → pre[j]? ≠ some (.num q))) :
    ∃ k q, (pre ++ [JSVal.num x])[k]? = some (.num q) ∧
      (if numLt (.num x) mn.value then
          ({ value := .num x, date := dates.getD pre.length .undefined } : Extreme)
        else mn) = ⟨.num q, dates.getD k .undefined⟩ ∧
      (∀ r, JSVal.num r ∈ pre ++ [JSVal.num x] → q ≤ r) ∧
      ∀ j, j < k → (pre ++ [JSVal.num x])[j]? ≠ some (.num q) := by
  have hnew : ∀ j, j < pre.length → (pre ++ [JSVal.num x])[j]? = pre[j]? :=
    fun j hj => List.getElem?_append_left hj
  rcases hinv with ⟨hnone, hmn⟩ | ⟨k, q, hk, hmn, hle, hfirst⟩
  · refine ⟨pre.length, x, List.getElem?_concat_length pre _, ?_, ?_, ?_⟩
    · simp [hmn, numLt]
    · intro r hr
      rcases List.mem_append.1 hr with h | h
      · exact absurd h (hnone r)
      · simp at h; exact le_of_eq h.symm
    · intro j hj hget
      rw [hnew j hj] at hget
      exact hnone x (List.getElem?_mem hget)
  · have hklt : k < pre.length := (List.getElem?_eq_some.1 hk).1
    by_cases hx : x < q
    · refine ⟨pre.length, x, List.getElem?_concat_length pre _, ?_, ?_, ?_⟩
      · simp [hmn, numLt, hx]
      · intro r hr
        rcases List.mem_append.1 hr with h | h
        · exact le_trans (le_of_lt hx) (hle r h)
        · simp at h; exact le_of_eq h.symm
      · intro j hj hget
        rw [hnew j hj] at hget
        exact absurd (hle x (List.getElem?_mem hget)) (not_le.2 hx)
    · refine ⟨k, q, ?_, ?_, ?_, ?_⟩
      · rw [hnew k hklt]; exact hk
      · simp [hmn, numLt, hx]
      · intro r hr
        rcases List.mem_append.1 hr with h | h
        · exact hle r h
        · simp at h; rw [h]; exact not_lt.1 hx
      · intro j hj
        rw [hnew j (lt_trans hj hklt)]
        exact hfirst j hj

theorem findMinMax_max_step (dates pre : List JSVal) (mx : Extreme) (x : ℚ)
    (hinv : ((∀ q, JSVal.num q ∉ pre) ∧ mx = ⟨.negInf, .null⟩) ∨
      (∃ k q, pre[k]? = some (.num q) ∧ mx = ⟨.num q, dates.getD k .undefined⟩ ∧
        (∀ r, JSVal.num r ∈ pre → r ≤ q) ∧ ∀ j, j < k → pre[j]? ≠ some (.num q))) :
    ∃ k q, (pre ++ [JSVal.num x])[k]? = some (.num q) ∧
      (if numGt (.num x) mx.value then
          ({ value := .num x, date := dates.getD pre.length .undefined } : Extreme)
        else mx) = ⟨.num q, dates.getD k .undefined⟩ ∧
      (∀ r, JSVal.num r ∈ pre ++ [JSVal.num x] → r ≤ q) ∧
      ∀ j, j < k → (pre ++ [JSVal.num x])[j]? ≠ some (.num q) := by
  have hnew : ∀ j, j < pre.length → (pre ++ [JSVal.num x])[j]? = pre[j]? :=
    fun j hj => List.getElem?_append_left hj
  rcases hinv with ⟨hnone, hmx⟩ | ⟨k, q, hk, hmx, hle, hfirst⟩
  · refine ⟨pre.length, x, List.getElem?_concat_length pre _, ?_, ?_, ?_⟩
    · simp [hmx, numGt, numLt]
    · intro r hr
      rcases List.mem_append.1 hr with h | h
      · exact absurd h (hnone r)
      · simp at h; exact le_of_eq h
    · intro j hj hget
      rw [hnew j hj] at hget
      exact hnone x (List.getElem?_mem hget)
  · have hklt : k < pre.length := (List.getElem?_eq_some.1 hk).1
    by_cases hx : q < x
    · refine ⟨pre.length, x, List.getElem?_concat_length pre _, ?_, ?_, ?_⟩
      · simp [hmx, numGt, numLt, hx]
      · intro r hr
        rcases List.mem_append.1 hr with h | h
        · exact le_trans (hle r h) (le_of_lt hx)
        · simp at h; exact le_of_eq h
      · intro j hj hget
        rw [hnew j hj] at hget
        exact absurd (hle x (List.getElem?_mem hget)) (not_le.2 hx)
    · refine ⟨k, q, ?_, ?_, ?_, ?_⟩
      · rw [hnew k hklt]; exact hk
      · simp [hmx, numGt, numLt, hx]
      · intro r hr
        rcases List.mem_append.1 hr with h | h
        · exact hle r h
        · simp at h; rw [h]; exact not_lt.1 hx
      · intro j hj
        rw [hnew j (lt_trans hj hklt)]
        exact hfirst j hj

theorem findMinMax_skip_step (dates pre : List JSVal) (e init : Extreme) (v : JSVal)
    (le : ℚ → ℚ → Prop) (hv : v.isFinite = false)
    (hinv : ((∀ q, JSVal.num q ∉ pre) ∧ e = init) ∨
      (∃ k q, pre[k]? = some (.num q) ∧ e = ⟨.num q, dates.getD k .undefined⟩ ∧
        (∀ r, JSVal.num r ∈ pre → le q r) ∧ ∀ j, j < k → pre[j]? ≠ some (.num q))) :
    ((∀ q, JSVal.num q ∉ pre ++ [v]) ∧ e = init) ∨
      (∃ k q, (pre ++ [v])[k]? = some (.num q) ∧ e = ⟨.num q, dates.getD k .undefined⟩ ∧
        (∀ r, JSVal.num r ∈ pre ++ [v] → le q r) ∧
        ∀ j, j < k → (pre ++ [v])[j]? ≠ some (.num q)) := by
  have hnew : ∀ j, j < pre.length → (pre ++ [v])[j]? = pre[j]? :=
    fun j hj => List.getElem?_append_left hj
  have hmem : ∀ r, JSVal.num r ∈ pre ++ [v] → JSVal.num r ∈ pre := by
    intro r hr
    rcases List.mem_append.1 hr with h | h
    · exact h
    · simp at h; rw [← h] at hv; simp [JSVal.isFinite] at hv
  rcases hinv with ⟨hnone, he⟩ | ⟨k, q, hk, he, hle, hfirst⟩
  · exact Or.inl ⟨fun q hq => hnone q (hmem q hq), he⟩
  · have hklt : k < pre.length := (List.getElem?_eq_some.1 hk).1
    refine Or.inr ⟨k, q, ?_, he, fun r hr => hle r (hmem r hr), ?_⟩
    · rw [hnew k hklt]; exact hk
    · intro j hj
      rw [hnew j (lt_trans hj hklt)]
      exact hfirst j hj

theorem findMinMaxLoop_inv (dates : List JSVal) (rest pre : List JSVal) (mn mx : Extreme)
    (hmin : ((∀ q, JSVal.num q ∉ pre) ∧ mn = ⟨.posInf, .null⟩) ∨
      (∃ k q, pre[k]? = some (.num q) ∧ mn = ⟨.num q, dates.getD k .undefined⟩ ∧
        (∀ r, JSVal.num r ∈ pre → q ≤ r) ∧ ∀ j, j < k → pre[j]? ≠ some (.num q)))
    (hmax : ((∀ q, JSVal.num q ∉ pre) ∧ mx = ⟨.negInf, .null⟩) ∨
      (∃ k q, pre[k]? = some (.num q) ∧ mx = ⟨.num q, dates.getD k .undefined⟩ ∧
        (∀ r, JSVal.num r ∈ pre → r ≤ q) ∧ ∀ j, j < k → pre[j]? ≠ some (.num q))) :
    (((∀ q, JSVal.num q ∉ pre ++ rest) ∧
        (findMinMaxLoop dates rest pre.length mn mx).1 = ⟨.posInf, .null⟩) ∨
      (∃ k q, (pre ++ rest)[k]? = some (.num q) ∧
        (findMinMaxLoop dates rest pre.length mn mx).1 = ⟨.num q, dates.getD k .undefined⟩ ∧
        (∀ r, JSVal.num r ∈ pre ++ rest → q ≤ r) ∧
        ∀ j, j < k → (pre ++ rest)[j]? ≠ some (.num q))) ∧
    (((∀ q, JSVal.num q ∉ pre ++ rest) ∧
        (findMinMaxLoop dates rest pre.length mn mx).2 = ⟨.negInf, .null⟩) ∨
      (∃ k q, (pre ++ rest)[k]? = some (.num q) ∧
        (findMinMaxLoop dates rest pre.length mn mx).2 = ⟨.num q, dates.getD k .undefined⟩ ∧
        (∀ r, JSVal.num r ∈ pre ++ rest → r ≤ q) ∧
        ∀ j, j < k → (pre ++ rest)[j]? ≠ some (.num q))) := by
  induction rest generalizing pre mn mx with
  | nil => simpa [findMinMaxLoop] using And.intro hmin hmax
  | cons v rest ih =>
    have happ : pre ++ v :: rest = (pre ++ [v]) ++ rest := by simp
    have hlen : (pre ++ [v]).length = pre.length + 1 := by simp
    rw [happ]
    by_cases hv : v.isFinite = true
    · obtain ⟨x, rfl⟩ : ∃ x, v = JSVal.num x := by
        cases v <;> simp [JSVal.isFinite] at hv
        exact ⟨_, rfl⟩
      have h1 := findMinMax_min_step dates pre mn x hmin
      have h2 := findMinMax_max_step dates pre mx x hmax
      have := ih (pre ++ [JSVal.num x]) _ _ (Or.inr h1) (Or.inr h2)
      rw [hlen] at this
      simpa [findMinMaxLoop, JSVal.isFinite] using this
    · have hv' : v.isFinite = false := by simpa using hv
      have h1 := findMinMax_skip_step dates pre mn ⟨.posInf, .null⟩ v (· ≤ ·) hv' hmin
      have h2 := findMinMax_skip_step dates pre mx ⟨.negInf, .null⟩ v (fun a b => b ≤ a) hv' hmax
      have := ih (pre ++ [v]) mn mx h1 h2
      rw [hlen] at this
      simpa [findMinMaxLoop, hv'] using this

/-- C4: when `series` has a finite entry, `findMinMax` returns the least and
the greatest finite entry, each with the date at the smallest index where
that value occurs; `[5,1,9,1]` gives min `1` at `d1` and max `9` at `d2`. -/
theorem findMinMax_spec (dates series : List JSVal)
    (h : ∃ v ∈ series, v.isFinite = true) :
    (∃ (imin imax : Nat) (vmin vmax : ℚ),
      series[imin]? = some (.num vmin) ∧ series[imax]? = some (.num vmax) ∧
      (∀ q, JSVal.num q ∈ series → vmin ≤ q ∧ q ≤ vmax) ∧
      (∀ j, j < imin → series[j]? ≠ some (.num vmin)) ∧
      (∀ j, j < imax → series[j]? ≠ some (.num vmax)) ∧
      findMinMax dates series =
        { min := some ⟨.num vmin, dates.getD imin .undefined⟩
          max := some ⟨.num vmax, dates.getD imax .undefined⟩ }) ∧
    findMinMax [.str "d0", .str "d1", .str "d2", .str "d3"]
        [.num 5, .num 1, .num 9, .num 1] =
      { min := some ⟨.num 1, .str "d1"⟩, max := some ⟨.num 9, .str "d2"⟩ } := by
  refine ⟨?_, ?_⟩
  · obtain ⟨v, hv, hfin⟩ := h
    obtain ⟨x, rfl⟩ : ∃ x, v = JSVal.num x := by
      cases v <;> simp [JSVal.isFinite] at hfin
      exact ⟨_, rfl⟩
    have inv := findMinMaxLoop_inv dates series [] ⟨.posInf, .null⟩ ⟨.negInf, .null⟩
      (Or.inl ⟨by simp, rfl⟩) (Or.inl ⟨by simp, rfl⟩)
    simp only [List.nil_append, List.length_nil] at inv
    obtain ⟨hmin, hmax⟩ := inv
    rcases hmin with ⟨hnone, _⟩ | ⟨imin, vmin, hi, hr, hle, hfirst⟩
    · exact absurd hv (hnone x)
    rcases hmax with ⟨hnone, _⟩ | ⟨imax, vmax, hi2, hr2, hle2, hfirst2⟩
    · exact absurd hv (hnone x)
    refine ⟨imin, imax, vmin, vmax, hi, hi2, fun q hq => ⟨hle q hq, hle2 q hq⟩,
      hfirst, hfirst2, ?_⟩
    simp [findMinMax, hr, hr2, JSVal.isFinite]
  · norm_num [findMinMax, findMinMaxLoop, JSVal.isFinite, numGt, numLt]

/-- Witness for C4 on the series `[null, 2, 2]`. -/
theorem findMinMax_spec_witness :
    ∃ (imin imax : Nat) (vmin vmax : ℚ),
      [JSVal.null, .num 2, .num 2][imin]? = some (.num vmin) ∧
      [JSVal.null, .num 2, .num 2][imax]? = some (.num vmax) ∧
      (∀ q, JSVal.num q ∈ [JSVal.null, .num 2, .num 2] → vmin ≤ q ∧ q ≤ vmax) ∧
      (∀ j, j < imin → [JSVal.null, .num 2, .num 2][j]? ≠ some (.num vmin)) ∧
      (∀ j, j < imax → [JSVal.null, .num 2, .num 2][j]? ≠ some (.num vmax)) ∧
      findMinMax [.str "a", .str "b", .str "c"] [.null, .num 2, .num 2] =
        { min := some ⟨.num vmin, [JSVal.str "a", .str "b", .str "c"].getD imin .undefined⟩
          max := some ⟨.num vmax, [JSVal.str "a", .str "b", .str "c"].getD imax .undefined⟩ } :=
  (findMinMax_spec [.str "a", .str "b", .str "c"] [.null, .num 2, .num 2]
    ⟨.num 2, by simp, rfl⟩).1

theorem lastFinite_spec (series : List JSVal) (k : Nat) :
    match lastFinite series k with
    | none => ∀ j, j < k → (series.getD j .undefined).isFinite = false
    | some L => L < k ∧ (series.getD L .undefined).isFinite = true ∧
        ∀ j, L < j → j < k → (series.getD j .undefined).isFinite = false := by
  induction k with
  | zero => simp [lastFinite]
  | succ k ih =>
    by_cases hk : (series.getD k .undefined).isFinite = true
    · simp only [lastFinite, hk]
      refine ⟨by omega, hk, ?_⟩
      intro j h1 h2; omega
    · have hk' : (series.getD k .undefined).isFinite = false := by simpa using hk
      simp only [lastFinite, hk']
      cases hl : lastFinite series k with
      | none =>
        rw [hl] at ih
        simp only [Bool.not_false, if_true]
        intro j hj
        rcases Nat.lt_succ_iff_lt_or_eq.1 hj with h | h
        · exact ih j h
        · rw [h]; exact hk'
      | some L =>
        rw [hl] at ih
        simp only [Bool.not_false, if_true]
        refine ⟨by omega, ih.2.1, ?_⟩
        intro j h1 h2
        rcases Nat.lt_succ_iff_lt_or_eq.1 h2 with h | h
        · exact ih.2.2 j h1 h
        · rw [h]; exact hk'

theorem regimeLoop_spec (series : List JSVal) (threshold : JSVal) (isAbove : Bool)
    (k : Nat) (st : Nat × Nat) :
    ∃ b, b ≤ k ∧
      (b = 0 ∨ ((series.getD (b - 1) .undefined).isFinite = true ∧
        regimeOk threshold isAbove (series.getD (b - 1) .undefined) = false)) ∧
      (∀ j, b ≤ j → j < k → (series.getD j .undefined).isFinite = true →
        regimeOk threshold isAbove (series.getD j .undefined) = true) ∧
      (regimeLoop series threshold isAbove k st).1 =
        st.1 + (List.range k).countP
          (fun j => decide (b ≤ j) && (series.getD j .undefined).isFinite) ∧
      ((∀ j, b ≤ j → j < k → (series.getD j .undefined).isFinite = false) →
        (regimeLoop series threshold isAbove k st).2 = st.2) ∧
      (∀ m, b ≤ m → m < k → (series.getD m .undefined).isFinite = true →
        (∀ j, b ≤ j → j < m → (series.getD j .undefined).isFinite = false) →
        (regimeLoop series threshold isAbove k st).2 = m) := by
  induction k generalizing st with
  | zero =>
    refine ⟨0, le_refl _, Or.inl rfl, ?_, ?_, ?_, ?_⟩
    · intro j _ hj; omega
    · simp [regimeLoop]
    · intro _; simp [regimeLoop]
    · intro m _ hm; omega
  | succ k ih =>
    by_cases hfin : (series.getD k .undefined).isFinite = true
    · by_cases hok : regimeOk threshold isAbove (series.getD k .undefined) = true
      · obtain ⟨b, hb, hbrk, hall, hcnt, hnone, hfirst⟩ := ih (st.1 + 1, k)
        have hloop : regimeLoop series threshold isAbove (k + 1) st =
            regimeLoop series threshold isAbove k (st.1 + 1, k) := by
          simp [regimeLoop, hfin, hok, -List.getD_eq_getElem?_getD]
        refine ⟨b, by omega, hbrk, ?_, ?_, ?_, ?_⟩
        · intro j h1 h2 h3
          rcases Nat.lt_succ_iff_lt_or_eq.1 h2 with h | h
          · exact hall j h1 h h3
          · rw [h]; exact hok
        · rw [hloop, hcnt, List.range_succ, List.countP_append]
          simp [hfin, hb, -List.getD_eq_getElem?_getD]
          omega
        · intro hno
          have := hno k hb (Nat.lt_succ_self k)
          rw [hfin] at this
          exact absurd this (by simp)
        · intro m h1 h2 h3 h4
          rw [hloop]
          rcases Nat.lt_succ_iff_lt_or_eq.1 h2 with h | h
          · exact hfirst m h1 h h3 h4
          · subst h
            exact hnone h4
      · have hok' : regimeOk threshold isAbove (series.getD k .undefined) = false := by
          simpa using hok
        have hloop : regimeLoop series threshold isAbove (k + 1) st = st := by
          simp [regimeLoop, hfin, hok', -List.getD_eq_getElem?_getD]
        refine ⟨k + 1, le_refl _, Or.inr ⟨by simpa using hfin, by simpa using hok'⟩,
          ?_, ?_, ?_, ?_⟩
        · intro j h1 h2; omega
        · rw [hloop]
          have : (List.range (k + 1)).countP
              (fun j => decide (k + 1 ≤ j) && (series.getD j .undefined).isFinite) = 0 := by
            rw [List.countP_eq_zero]
            intro j hj
            have := List.mem_range.1 hj
            simp; omega
          rw [this]; rfl
        · intro _; rw [hloop]
        · intro m h1 h2; omega
    · have hfin' : (series.getD k .undefined).isFinite = false := by simpa using hfin
      obtain ⟨b, hb, hbrk, hall, hcnt, hnone, hfirst⟩ := ih st
      have hloop : regimeLoop series threshold isAbove (k + 1) st =
          regimeLoop series threshold isAbove k st := by
        simp [regimeLoop, hfin', -List.getD_eq_getElem?_getD]
      refine ⟨b, by omega, hbrk, ?_, ?_, ?_, ?_⟩
      · intro j h1 h2 h3
        rcases Nat.lt_succ_iff_lt_or_eq.1 h2 with h | h
        · exact hall j h1 h h3
        · rw [h, hfin'] at h3; exact absurd h3 (by simp)
      · rw [hloop, hcnt, List.range_succ, List.countP_append]
        simp [hfin', -List.getD_eq_getElem?_getD]
      · intro hno
        rw [hloop]
        exact hnone (fun j h1 h2 => hno j h1 (by omega))
      · intro m h1 h2 h3 h4
        rw [hloop]
        rcases Nat.lt_succ_iff_lt_or_eq.1 h2 with h | h
        · exact hfirst m h1 h h3 h4
        · rw [h, hfin'] at h3; exact absurd h3 (by simp)

theorem getD_isFinite_iff (series : List JSVal) (j : Nat) :
    (series.getD j .undefined).isFinite = true ↔ ∃ q, series[j]? = some (.num q) := by
  rw [List.getD_eq_getElem?_getD]
  cases h : series[j]? with
  | none => simp [JSVal.isFinite]
  | some v => cases v <;> simp [JSVal.isFinite]

theorem regimeOk_num_iff (t cur q : ℚ) :
    regimeOk (.num t) (numGe (.num cur) (.num t)) (.num q) = true ↔ (t ≤ q ↔ t ≤ cur) := by
  by_cases h : t ≤ cur
  · simp [regimeOk, numGe, numLe, h]
  · simp [regimeOk, numGe, numLe, numLt, h]

/-- C2: for equal-length non-empty `dates`/`series` with a finite entry and a
finite threshold `t`, with `L` the greatest index of a finite entry,
`timeInRegime` reports direction `above` iff `series[L] >= t`, the start date
`dates[s]` for the smallest finite index `s <= L` such that all finite entries
at `s..L` lie on the side of `series[L]`, and as days the number of finite
entries at `s..L`; `[1,3,5,2,6,7]` with `3.5` gives 2 days above since the
date of `6`. -/
theorem timeInRegime_spec (dates series : List JSVal) (t : ℚ)
    (hlen : dates.length = series.length) (hne : series ≠ [])
    (hfin : ∃ v ∈ series, v.isFinite = true) :
    (∃ (L s : Nat) (cur : ℚ),
      series[L]? = some (.num cur) ∧
      (∀ j, L < j → (series.getD j .undefined).isFinite = false) ∧
      s ≤ L ∧ (series.getD s .undefined).isFinite = true ∧
      (∀ j q, s ≤ j → j ≤ L → series[j]? = some (.num q) → (t ≤ q ↔ t ≤ cur)) ∧
      (∀ s0, s0 ≤ L → (series.getD s0 .undefined).isFinite = true →
        (∀ j q, s0 ≤ j → j ≤ L → series[j]? = some (.num q) → (t ≤ q ↔ t ≤ cur)) →
        s ≤ s0) ∧
      timeInRegime (some dates) (some series) (.num t) =
        some { startDate := dates.getD s .undefined
               days := (List.range (L + 1)).countP
                 (fun j => decide (s ≤ j) && (series.getD j .undefined).isFinite)
               direction := if t ≤ cur then "above" else "below" }) ∧
    timeInRegime
        (some [.str "d0", .str "d1", .str "d2", .str "d3", .str "d4", .str "d5"])
        (some [.num 1, .num 3, .num 5, .num 2, .num 6, .num 7]) (.num (7 / 2)) =
      some { startDate := .str "d4", days := 2, direction := "above" } := by
  refine ⟨?_, ?_⟩
  · obtain ⟨v, hv, hvfin⟩ := hfin
    obtain ⟨i, hi⟩ := List.mem_iff_getElem?.1 hv
    have hilt : i < series.length := (List.getElem?_eq_some.1 hi).1
    have hifin : (series.getD i .undefined).isFinite = true := by
      rw [List.getD_eq_getElem?_getD, hi]; exact hvfin
    have hlast := lastFinite_spec series series.length
    cases hl : lastFinite series series.length with
    | none =>
      rw [hl] at hlast
      have := hlast i hilt
      rw [hifin] at this
      exact absurd this (by simp)
    | some L =>
      rw [hl] at hlast
      obtain ⟨hLlt, hLfin, hLafter⟩ := hlast
      obtain ⟨cur, hcur⟩ := (getD_isFinite_iff series L).1 hLfin
      have hcurD : series.getD L .undefined = .num cur := by
        rw [List.getD_eq_getElem?_getD, hcur]; rfl
      obtain ⟨b, hb, hbrk, hall, hcnt, hnone, hfirst⟩ :=
        regimeLoop_spec series (.num t) (numGe (.num cur) (.num t)) (L + 1) (0, L)
      have hokL : regimeOk (.num t) (numGe (.num cur) (.num t)) (series.getD L .undefined)
          = true := by
        rw [hcurD]; exact (regimeOk_num_iff t cur cur).2 Iff.rfl
      have hbL : b ≤ L := by
        rcases hbrk with h0 | ⟨_, hbad⟩
        · omega
        · by_contra hcon
          have hbeq : b - 1 = L := by omega
          rw [hbeq, hokL] at hbad
          exact absurd hbad (by simp)
      have hex : ∃ m, b ≤ m ∧ (series.getD m .undefined).isFinite = true := ⟨L, hbL, hLfin⟩
      have hs := Nat.find_spec hex
      have hsmin : ∀ j, j < Nat.find hex →
          ¬ (b ≤ j ∧ (series.getD j .undefined).isFinite = true) :=
        fun j hj => Nat.find_min hex hj
      have hsL : Nat.find hex ≤ L := Nat.find_min' hex ⟨hbL, hLfin⟩
      have hstart := hfirst (Nat.find hex) hs.1 (by omega) hs.2 (by
        intro j h1 h2
        have := hsmin j h2
        simpa [h1] using this)
      have hcount : (List.range (L + 1)).countP
            (fun j => decide (b ≤ j) && (series.getD j .undefined).isFinite) =
          (List.range (L + 1)).countP
            (fun j => decide (Nat.find hex ≤ j) && (series.getD j .undefined).isFinite) := by
        apply List.countP_congr
        intro j _
        by_cases hjf : (series.getD j .undefined).isFinite = true
        · have : b ≤ j ↔ Nat.find hex ≤ j := by
            constructor
            · intro hbj
              exact Nat.find_min' hex ⟨hbj, hjf⟩
            · intro h; exact le_trans hs.1 h
          simp [hjf, this, -List.getD_eq_getElem?_getD]
        · have hjf' : (series.getD j .undefined).isFinite = false := by simpa using hjf
          simp [hjf', -List.getD_eq_getElem?_getD]
      refine ⟨L, Nat.find hex, cur, hcur, ?_, hsL, hs.2, ?_, ?_, ?_⟩
      · intro j hj
        by_cases hjl : j < series.length
        · exact hLafter j hj hjl
        · rw [List.getD_eq_getElem?_getD, List.getElem?_eq_none (by omega)]; rfl
      · intro j q h1 h2 hq
        have hqD : series.getD j .undefined = .num q := by
          rw [List.getD_eq_getElem?_getD, hq]; rfl
        have := hall j (le_trans hs.1 h1) (by omega) (by rw [hqD]; rfl)
        rw [hqD] at this
        exact (regimeOk_num_iff t cur q).1 this
      · intro s0 hs0L hs0fin hside
        by_contra hcon
        have hlt : s0 < Nat.find hex := by omega
        have hnb : ¬ b ≤ s0 := fun h => hsmin s0 hlt ⟨h, hs0fin⟩
        rcases hbrk with h0 | ⟨hbfin, hbad⟩
        · omega
        · obtain ⟨q, hq⟩ := (getD_isFinite_iff series (b - 1)).1 hbfin
          have hqD : series.getD (b - 1) .undefined = .num q := by
            rw [List.getD_eq_getElem?_getD, hq]; rfl
          have := (regimeOk_num_iff t cur q).2 (hside (b - 1) q (by omega) (by omega) hq)
          rw [hqD, this] at hbad
          exact absurd hbad (by simp)
      · have hlen0 : series.length ≠ 0 := by simpa [List.length_eq_zero] using hne
        rw [hcount] at hcnt
        simp only [timeInRegime, hlen, hl, hcurD, hcnt, hstart]
        simp [hlen0, JSVal.isFinite, numGe, numLe, -List.getD_eq_getElem?_getD]
  · norm_num [timeInRegime, lastFinite, regimeLoop, regimeOk, JSVal.isFinite, numGe, numLe,
      numLt]

/-- Witness for C2 on the series `[4, null, 1]` with threshold `2`. -/
theorem timeInRegime_spec_witness :
    ∃ (L s : Nat) (cur : ℚ),
      [JSVal.num 4, .null, .num 1][L]? = some (.num cur) ∧
      (∀ j, L < j → ([JSVal.num 4, .null, .num 1].getD j .undefined).isFinite = false) ∧
      s ≤ L ∧ ([JSVal.num 4, .null, .num 1].getD s .undefined).isFinite = true ∧
      (∀ j q, s ≤ j → j ≤ L → [JSVal.num 4, .null, .num 1][j]? = some (.num q) →
        ((2 : ℚ) ≤ q ↔ (2 : ℚ) ≤ cur)) ∧
      (∀ s0, s0 ≤ L → ([JSVal.num 4, .null, .num 1].getD s0 .undefined).isFinite = true →
        (∀ j q, s0 ≤ j → j ≤ L → [JSVal.num 4, .null, .num 1][j]? = some (.num q) →
          ((2 : ℚ) ≤ q ↔ (2 : ℚ) ≤ cur)) →
        s ≤ s0) ∧
      timeInRegime (some [.str "a", .str "b", .str "c"])
          (some [.num 4, .null, .num 1]) (.num 2) =
        some { startDate := [JSVal.str "a", .str "b", .str "c"].getD s .undefined
               days := (List.range (L + 1)).countP
                 (fun j => decide (s ≤ j) &&
                   ([JSVal.num 4, .null, .num 1].getD j .undefined).isFinite)
               direction := if (2 : ℚ) ≤ cur then "above" else "below" } :=
  (timeInRegime_spec [.str "a", .str "b", .str "c"] [.num 4, .null, .num 1] 2
    rfl (by simp) ⟨.num 4, by simp, rfl⟩).1

/-! ## Properties of the normalizer, the aligner and the ratio builder -/

theorem mapHas_iff (m : JSMap) (k : JSVal) : mapHas m k = true ↔ k ∈ mapKeys m := by
  induction m with
  | nil => simp [mapHas, mapKeys]
  | cons e rest ih =>
    obtain ⟨k0, v0⟩ := e
    by_cases h : k0 = k
    · simp [mapHas, mapKeys, h]
    · have h' : ¬ k = k0 := fun hk => h hk.symm
      simp only [mapKeys] at ih
      simp [mapHas, mapKeys, h, h', ih]

theorem mapGet_mem (m : JSMap) (k : JSVal) (h : k ∈ mapKeys m) : (k, mapGet m k) ∈ m := by
  induction m with
  | nil => simp [mapKeys] at h
  | cons e rest ih =>
    obtain ⟨k0, v0⟩ := e
    by_cases hk : k0 = k
    · simp [mapGet, hk]
    · have hk' : ¬ k = k0 := fun hh => hk hh.symm
      have hrest : k ∈ mapKeys rest := by
        simp only [mapKeys, List.map_cons, List.mem_cons] at h
        rcases h with h | h
        · exact absurd h hk'
        · exact h
      simp [mapGet, hk, ih hrest]

theorem mem_mapSet (m : JSMap) (k v : JSVal) (e : JSVal × JSVal) (h : e ∈ mapSet m k v) :
    e ∈ m ∨ e = (k, v) := by
  induction m with
  | nil => simp [mapSet] at h; exact Or.inr h
  | cons e0 rest ih =>
    obtain ⟨k0, v0⟩ := e0
    by_cases hk : k0 = k
    · simp only [mapSet, hk, if_true, List.mem_cons] at h
      rcases h with h | h
      · exact Or.inr h
      · exact Or.inl (List.mem_cons_of_mem _ h)
    · simp only [mapSet, hk, if_false, List.mem_cons] at h
      rcases h with h | h
      · exact Or.inl (by rw [h]; exact List.mem_cons_self _ _)
      · rcases ih h with h1 | h1
        · exact Or.inl (List.mem_cons_of_mem _ h1)
        · exact Or.inr h1

theorem toMapStep_values_finite (B : Builtins) (key : String) (m : JSMap) (p : Option JSObj)
    (hm : ∀ e ∈ m, e.2.isFinite = true) :
    ∀ e ∈ toMapStep B key m p, e.2.isFinite = true := by
  intro e he
  unfold toMapStep at he
  by_cases hc : (!(getProp p "date").truthy || !(toNumber B (getProp p key)).isFinite) = true
  · simp only [hc, if_true] at he
    exact hm e he
  · simp only [hc] at he
    rcases mem_mapSet _ _ _ _ he with h | h
    · exact hm e h
    · rw [h]
      have : (getProp p "date").truthy = true ∧
          (toNumber B (getProp p key)).isFinite = true := by simpa using hc
      exact this.2

theorem toMap_values_finite (B : Builtins) (points : Option (List (Option JSObj)))
    (key : Option String) : ∀ e ∈ toMap B points key, e.2.isFinite = true := by
  unfold toMap
  generalize (points.getD []) = pts
  have gen : ∀ (m : JSMap), (∀ e ∈ m, e.2.isFinite = true) →
      ∀ e ∈ pts.foldl (toMapStep B (key.getD "close")) m, e.2.isFinite = true := by
    induction pts with
    | nil => intro m hm; simpa using hm
    | cons p rest ih =>
      intro m hm
      simp only [List.foldl_cons]
      exact ih _ (toMapStep_values_finite B _ m p hm)
  exact gen [] (by simp)

theorem mem_intersectDates (B : Builtins) (mapA mapB : JSMap) (d : JSVal) :
    d ∈ intersectDates B mapA mapB ↔ (d ∈ mapKeys mapA ∧ d ∈ mapKeys mapB) := by
  unfold intersectDates defaultSort
  rw [(List.perm_insertionSort _ _).mem_iff, List.mem_filter, mapHas_iff]

theorem mapGet_finite_of_mem (B : Builtins) (points : Option (List (Option JSObj)))
    (key : Option String) (d : JSVal) (h : d ∈ mapKeys (toMap B points key)) :
    ∃ a : ℚ, mapGet (toMap B points key) d = .num a := by
  have hfin := toMap_values_finite B points key _ (mapGet_mem _ d h)
  simp only at hfin
  cases hv : mapGet (toMap B points key) d <;> rw [hv] at hfin <;>
    simp [JSVal.isFinite] at hfin
  exact ⟨_, rfl⟩

/-- C5: `buildRatioSeries` returns `ratio` of the length of `dates`, and at
every index the entry is `a / b`, the quotient in double arithmetic, when the
normalized denominator `b` is positive and `null` otherwise, `a` and `b`
being the (finite) normalized values at that date; numerators `[100,200]`
over denominators `[50,0]` give `[2, null]`, and the quotient of `2^1023` by
`0.5` is `Infinity`. -/
theorem buildRatioSeries_spec (B : Builtins) (numJson denJson : Option SeriesJson)
    (numKey denKey : Option String) :
    (buildRatioSeries B numJson denJson numKey denKey).ratio.length =
      (buildRatioSeries B numJson denJson numKey denKey).dates.length ∧
    (∀ i, i < (buildRatioSeries B numJson denJson numKey denKey).dates.length →
      ∃ a b : ℚ,
        mapGet (toMap B (numJson.bind (fun j => j.points)) (some (numKey.getD "close")))
          ((buildRatioSeries B numJson denJson numKey denKey).dates.getD i .undefined)
          = .num a ∧
        mapGet (toMap B (denJson.bind (fun j => j.points)) (some (denKey.getD "close")))
          ((buildRatioSeries B numJson denJson numKey denKey).dates.getD i .undefined)
          = .num b ∧
        (buildRatioSeries B numJson denJson numKey denKey).ratio.getD i .undefined =
          if 0 < b then jsDiv (.num a) (.num b) else .null) ∧
    (buildRatioSeries B
        (some ⟨some [some [("date", .str "2024-01-01"), ("close", .num 100)],
                     some [("date", .str "2024-01-02"), ("close", .num 200)]]⟩)
        (some ⟨some [some [("date", .str "2024-01-01"), ("close", .num 50)],
                     some [("date", .str "2024-01-02"), ("close", .num 0)]]⟩)
        none none).ratio = [.num 2, .null] ∧
    jsDiv (.num (2 ^ 1023)) (.num (1 / 2)) = .posInf := by
  refine ⟨by simp [buildRatioSeries], ?_, ?_, ?_⟩
  · intro i hi
    simp only [buildRatioSeries] at hi ⊢
    generalize hN : toMap B (numJson.bind (fun j => j.points)) (some (numKey.getD "close"))
      = numMap at hi ⊢
    generalize hD : toMap B (denJson.bind (fun j => j.points)) (some (denKey.getD "close"))
      = denMap at hi ⊢
    have hd : (intersectDates B numMap denMap).getD i .undefined ∈
        intersectDates B numMap denMap := by
      rw [List.getD_eq_getElem?_getD, List.getElem?_eq_getElem hi]
      exact List.getElem_mem hi
    obtain ⟨hdA, hdB⟩ := (mem_intersectDates B numMap denMap _).1 hd
    obtain ⟨a, ha⟩ := mapGet_finite_of_mem B _ _ _ (hN ▸ hdA)
    obtain ⟨b, hb⟩ := mapGet_finite_of_mem B _ _ _ (hD ▸ hdB)
    rw [hN] at ha
    rw [hD] at hb
    refine ⟨a, b, ha, hb, ?_⟩
    rw [List.getD_eq_getElem?_getD, List.getElem?_map, List.getElem?_eq_getElem hi]
    simp only [Option.map_some', Option.getD_some]
    have ha' := ha
    have hb' := hb
    rw [List.getD_eq_getElem?_getD, List.getElem?_eq_getElem hi] at ha' hb'
    simp only [Option.getD_some] at ha' hb'
    simp only [ratioAt, ha', hb']
    by_cases hpos : 0 < b
    · simp [hpos, not_le.2 hpos]
    · simp [hpos, not_lt.1 hpos]
  · simp [buildRatioSeries, toMap, toMapStep, getProp, List.lookup, toNumber, JSVal.truthy,
      JSVal.isFinite, mapSet, intersectDates, defaultSort, mapKeys, mapHas, sortLe, jsToString,
      codeUnits, utf16Units, lexLe, ratioAt, mapGet, jsDiv]
    norm_num
    have := isDouble_natCast 2 (by norm_num)
    simpa using this
  · have hq : (2 : ℚ) ^ 1023 / (1 / 2) = 2 ^ 1023 + 2 ^ 1023 := by norm_num
    have hne : ((1 : ℚ) / 2) ≠ 0 := by norm_num
    simp only [jsDiv, hne, if_false]
    rw [hq]
    exact roundToDouble_overflow

theorem lexLe_total (a b : List Nat) : lexLe a b = true ∨ lexLe b a = true := by
  induction a generalizing b with
  | nil => simp [lexLe]
  | cons x xs ih =>
    cases b with
    | nil => simp [lexLe]
    | cons y ys =>
      rcases Nat.lt_trichotomy x y with h | h | h
      · left; simp [lexLe, h]
      · subst h; simpa [lexLe] using ih ys
      · right; simp [lexLe, h]

theorem lexLe_trans (a b c : List Nat) (h1 : lexLe a b = true) (h2 : lexLe b c = true) :
    lexLe a c = true := by
  induction a generalizing b c with
  | nil => simp [lexLe]
  | cons x xs ih =>
    cases b with
    | nil => simp [lexLe] at h1
    | cons y ys =>
      cases c with
      | nil => simp [lexLe] at h2
      | cons z zs =>
        simp only [lexLe] at h1 h2 ⊢
        by_cases hxy : x < y
        · by_cases hyz : y < z
          · simp [lt_trans hxy hyz]
          · by_cases hzy : z < y
            · simp [hyz, hzy] at h2
            · have : y = z := by omega
              subst this; simp [hxy]
        · by_cases hyx : y < x
          · simp [hxy, hyx] at h1
          · have hxy' : x = y := by omega
            subst hxy'
            by_cases hxz : x < z
            · simp [hxz]
            · by_cases hzx : z < x
              · simp [hxz, hzx] at h2
              · simp only [hxy, hxz, hzx, if_false] at h1 h2 ⊢
                exact ih ys zs h1 h2

theorem lexLe_antisymm (a b : List Nat) (h1 : lexLe a b = true) (h2 : lexLe b a = true) :
    a = b := by
  induction a generalizing b with
  | nil =>
    cases b with
    | nil => rfl
    | cons y ys => simp [lexLe] at h2
  | cons x xs ih =>
    cases b with
    | nil => simp [lexLe] at h1
    | cons y ys =>
      simp only [lexLe] at h1 h2
      by_cases hxy : x < y
      · have : ¬ y < x := by omega
        simp [hxy, this] at h2
      · by_cases hyx : y < x
        · simp [hxy, hyx] at h1
        · have hxy' : x = y := by omega
          subst hxy'
          simp only [hxy, if_false] at h1 h2
          rw [ih ys h1 h2]

theorem utf16Units_append_inj (c d : Char) (r1 r2 : List Nat)
    (h : utf16Units c ++ r1 = utf16Units d ++ r2) : c = d ∧ r1 = r2 := by
  have hc := c.valid
  have hd := d.valid
  have hcn : c.toNat = c.val.toNat := rfl
  have hdn : d.toNat = d.val.toNat := rfl
  simp only [UInt32.isValidChar, Nat.isValidChar] at hc hd
  have key : c.toNat = d.toNat ∧ r1 = r2 := by
    unfold utf16Units at h
    by_cases h1 : c.toNat < 0x10000
    · by_cases h2 : d.toNat < 0x10000
      · simp only [h1, h2, if_true, List.cons_append, List.nil_append, List.cons.injEq] at h
        exact h
      · simp only [h1, h2, if_true, if_false, List.cons_append, List.nil_append,
          List.cons.injEq] at h
        omega
    · by_cases h2 : d.toNat < 0x10000
      · simp only [h1, h2, if_true, if_false, List.cons_append, List.nil_append,
          List.cons.injEq] at h
        omega
      · simp only [h1, h2, if_false, List.cons_append, List.nil_append, List.cons.injEq] at h
        refine ⟨by omega, h.2.2⟩
  refine ⟨?_, key.2⟩
  apply Char.ext
  apply UInt32.ext
  have := key.1
  rw [hcn, hdn] at this
  exact this

theorem codeUnits_injective (s t : String) (h : codeUnits s = codeUnits t) : s = t := by
  have gen : ∀ l1 l2 : List Char, l1.flatMap utf16Units = l2.flatMap utf16Units → l1 = l2 := by
    intro l1
    induction l1 with
    | nil =>
      intro l2 h
      cases l2 with
      | nil => rfl
      | cons d ds =>
        exfalso
        simp only [List.flatMap_nil, List.flatMap_cons] at h
        unfold utf16Units at h
        by_cases h2 : d.toNat < 0x10000 <;> simp [h2] at h
    | cons c cs ih =>
      intro l2 h
      cases l2 with
      | nil =>
        exfalso
        simp only [List.flatMap_nil, List.flatMap_cons] at h
        unfold utf16Units at h
        by_cases h2 : c.toNat < 0x10000 <;> simp [h2] at h
      | cons d ds =>
        simp only [List.flatMap_cons] at h
        obtain ⟨hcd, hrest⟩ := utf16Units_append_inj c d _ _ h
        rw [hcd, ih ds hrest]
  unfold codeUnits at h
  have := gen _ _ h
  exact String.ext this

theorem sortLe_eq (B : Builtins) (a b : JSVal) :
    sortLe B a b =
      if b = .undefined then true
      else if a = .undefined then false
      else lexLe (codeUnits (jsToString B a)) (codeUnits (jsToString B b)) := by
  cases a <;> cases b <;> simp [sortLe]

theorem defaultSort_sorted (B : Builtins) (l : List JSVal) :
    (defaultSort B l).Sorted (fun a b => sortLe B a b = true) := by
  haveI : IsTotal JSVal (fun a b => sortLe B a b = true) := ⟨by
    intro a b
    simp only [sortLe_eq]
    by_cases ha : a = .undefined
    · simp [ha]
    · by_cases hb : b = .undefined
      · simp [hb]
      · simpa [ha, hb] using lexLe_total _ _⟩
  haveI : IsTrans JSVal (fun a b => sortLe B a b = true) := ⟨by
    intro a b c
    simp only [sortLe_eq]
    by_cases hc : c = .undefined
    · simp [hc]
    · by_cases hb : b = .undefined
      · simp [hb, hc]
      · by_cases ha : a = .undefined
        · simp [ha, hb]
        · simpa [ha, hb, hc] using lexLe_trans _ _ _⟩
  exact List.sorted_insertionSort _ _

theorem mapKeys_mapSet (m : JSMap) (k v : JSVal) :
    mapKeys (mapSet m k v) = if k ∈ mapKeys m then mapKeys m else mapKeys m ++ [k] := by
  induction m with
  | nil => simp [mapSet, mapKeys]
  | cons e rest ih =>
    obtain ⟨k0, v0⟩ := e
    simp only [mapKeys] at ih
    by_cases hk : k0 = k
    · simp [mapSet, mapKeys, hk]
    · have hk' : ¬ k = k0 := fun h => hk h.symm
      by_cases hin : k ∈ List.map (fun e => e.1) rest
      · simp [mapSet, mapKeys, hk, hk', ih, hin]
      · simp only [mapSet, mapKeys, hk, if_false, List.map_cons, ih, hin, List.mem_cons, hk',
          or_self, List.cons_append]

theorem mapKeys_mapSet_nodup (m : JSMap) (k v : JSVal) (h : (mapKeys m).Nodup) :
    (mapKeys (mapSet m k v)).Nodup := by
  rw [mapKeys_mapSet]
  by_cases hin : k ∈ mapKeys m
  · simpa [hin] using h
  · simp only [hin, if_false]
    exact List.Nodup.append h (List.nodup_singleton k) (by
      intro x hx hx2
      simp at hx2
      exact hin (hx2 ▸ hx))

theorem toMap_keys_nodup (B : Builtins) (points : Option (List (Option JSObj)))
    (key : Option String) : (mapKeys (toMap B points key)).Nodup := by
  unfold toMap
  generalize (points.getD []) = pts
  have gen : ∀ (m : JSMap), (mapKeys m).Nodup →
      (mapKeys (pts.foldl (toMapStep B (key.getD "close")) m)).Nodup := by
    induction pts with
    | nil => intro m hm; simpa using hm
    | cons p rest ih =>
      intro m hm
      simp only [List.foldl_cons]
      apply ih
      unfold toMapStep
      by_cases hc : (!(getProp p "date").truthy ||
          !(toNumber B (getProp p (key.getD "close"))).isFinite) = true
      · simp only [hc, if_true]
        exact hm
      · simp only [hc, if_false]
        exact mapKeys_mapSet_nodup _ _ _ hm
  exact gen [] (by simp [mapKeys])

/-- C6: for maps with string date keys (a `Map` holds each key once, as
every result of `toMap` does), `intersectDates(A, B)` is strictly ascending
in the string order and contains a date exactly when it is a key of both
maps. -/
theorem intersectDates_spec (B : Builtins) (mapA mapB : JSMap)
    (hstr : ∀ k ∈ mapKeys mapA, ∃ s, k = JSVal.str s) (hnd : (mapKeys mapA).Nodup) :
    (intersectDates B mapA mapB).Pairwise
      (fun x y => ∃ s t, x = JSVal.str s ∧ y = JSVal.str t ∧ jsStrLt s t = true) ∧
    ∀ d, d ∈ intersectDates B mapA mapB ↔ (d ∈ mapKeys mapA ∧ d ∈ mapKeys mapB) := by
  refine ⟨?_, mem_intersectDates B mapA mapB⟩
  have hsorted : (intersectDates B mapA mapB).Pairwise (fun a b => sortLe B a b = true) :=
    defaultSort_sorted B _
  have hnodup : (intersectDates B mapA mapB).Pairwise (· ≠ ·) := by
    have : (intersectDates B mapA mapB).Nodup :=
      (List.perm_insertionSort _ _).nodup_iff.2 (hnd.filter _)
    exact this
  refine (hsorted.and hnodup).imp_of_mem ?_
  intro x y hx hy hxy
  obtain ⟨s, rfl⟩ := hstr x ((mem_intersectDates B mapA mapB x).1 hx).1
  obtain ⟨t, rfl⟩ := hstr y ((mem_intersectDates B mapA mapB y).1 hy).1
  refine ⟨s, t, rfl, rfl, ?_⟩
  obtain ⟨hle, hne⟩ := hxy
  have hle' : lexLe (codeUnits s) (codeUnits t) = true := by
    simpa [sortLe, jsToString] using hle
  unfold jsStrLt
  cases hback : lexLe (codeUnits t) (codeUnits s) with
  | false => rfl
  | true =>
    exfalso
    apply hne
    rw [codeUnits_injective s t (lexLe_antisymm _ _ hle' hback)]

/-- Witness for C6 on the maps `b, a, c` and `c, b` (insertion order). -/
theorem intersectDates_spec_witness :
    (intersectDates ⟨fun _ => .nan, fun _ => "", fun _ _ => ""⟩
        [(.str "b", .num 1), (.str "a", .num 2), (.str "c", .num 3)]
        [(.str "c", .num 4), (.str "b", .num 5)]).Pairwise
      (fun x y => ∃ s t, x = JSVal.str s ∧ y = JSVal.str t ∧ jsStrLt s t = true) ∧
    ∀ d, d ∈ intersectDates ⟨fun _ => .nan, fun _ => "", fun _ _ => ""⟩
        [(.str "b", .num 1), (.str "a", .num 2), (.str "c", .num 3)]
        [(.str "c", .num 4), (.str "b", .num 5)] ↔
      (d ∈ mapKeys [(.str "b", .num 1), (.str "a", .num 2), (.str "c", .num 3)] ∧
        d ∈ mapKeys [(.str "c", .num 4), (.str "b", .num 5)]) :=
  intersectDates_spec ⟨fun _ => .nan, fun _ => "", fun _ _ => ""⟩
    [(.str "b", .num 1), (.str "a", .num 2), (.str "c", .num 3)]
    [(.str "c", .num 4), (.str "b", .num 5)]
    (by simp [mapKeys]) (by simp [mapKeys])

/-- C7 (failing input): a point whose value is `null` is not dropped by
`toMap`: `Number(null)` is `0`, which is finite, so the date is entered
with the value `0`, and an earlier entry of that date is overwritten. -/
theorem toMap_null_value_kept (B : Builtins) :
    toMap B (some [some [("date", .str "2024-01-01"), ("close", .null)]]) none =
      [(.str "2024-01-01", .num 0)] ∧
    toMap B (some [some [("date", .str "2024-01-01"), ("close", .num 5)],
                   some [("date", .str "2024-01-01"), ("close", .null)]]) none =
      [(.str "2024-01-01", .num 0)] := by
  constructor <;>
    simp [toMap, toMapStep, getProp, List.lookup, toNumber, JSVal.truthy, JSVal.isFinite, mapSet]

/-! ## Properties of the narrative classifier -/

theorem takeawayState_num (B : Builtins) (ind : IndicatorRecord) (profile : Profile)
    (lo hi : ℚ) (hlo : profile.lowExtreme = .num lo) (hhi : profile.highExtreme = .num hi) :
    takeawayState B ind profile =
      match ind.percentile with
      | .num p => if p ≤ lo then .low else if hi ≤ p then .high else .normal
      | _ => .normal := by
  unfold takeawayState
  rw [hlo, hhi]
  cases hp : ind.percentile <;>
    simp [nullishOr, JSVal.isNullish, JSVal.isFinite, toNumber, numLe, numGe]

/-- C8: without template overrides and with numeric thresholds, the regime
is `low` iff the percentile is finite and `<= lowExtreme`, `high` iff it is
finite, not low and `>= highExtreme`, `normal` otherwise (also for a `null`
percentile); the headline is the low, the high or one of the normal
headlines accordingly; both boundaries are inclusive; the regime depends on
the record through its percentile only. -/
theorem generateTakeaway_regime (B : Builtins) (ind : IndicatorRecord) (profile : Profile)
    (lo hi : ℚ) (hlo : profile.lowExtreme = .num lo) (hhi : profile.highExtreme = .num hi)
    (htpl : ∀ s, templateFor (profile.templates.getD ⟨none, none, none⟩) s = none) :
    (takeawayState B ind profile = .low ↔ ∃ p, ind.percentile = .num p ∧ p ≤ lo) ∧
    (takeawayState B ind profile = .high ↔
      ∃ p, ind.percentile = .num p ∧ ¬ p ≤ lo ∧ hi ≤ p) ∧
    (takeawayState B ind profile = .normal ↔
      ¬ ∃ p, ind.percentile = .num p ∧ (p ≤ lo ∨ hi ≤ p)) ∧
    (ind.percentile = .null → takeawayState B ind profile = .normal) ∧
    (ind.percentile = .num lo → takeawayState B ind profile = .low) ∧
    (ind.percentile = .num hi → ¬ hi ≤ lo → takeawayState B ind profile = .high) ∧
    (∃ t, generateTakeaway B (some ind) (.obj profile) = .ok t ∧
      (takeawayState B ind profile = .low →
        t.headline = profile.lowHeadline.getD "Historically low reading") ∧
      (takeawayState B ind profile = .high →
        t.headline = profile.highHeadline.getD "Historically high reading") ∧
      (takeawayState B ind profile = .normal →
        t.headline = profile.normalHeadlineAbove.getD "Above median regime" ∨
        t.headline = profile.normalHeadlineBelow.getD "Below median regime" ∨
        t.headline = profile.normalHeadlineUnknown.getD "Within typical range")) ∧
    (∀ ind2 : IndicatorRecord, ind2.percentile = ind.percentile →
      takeawayState B ind2 profile = takeawayState B ind profile) := by
  have hst := takeawayState_num B ind profile lo hi hlo hhi
  refine ⟨?_, ?_, ?_, ?_, ?_, ?_, ?_, ?_⟩
  · rw [hst]
    cases hp : ind.percentile <;> simp
    rename_i p
    by_cases h1 : p ≤ lo
    · simp [h1]
    · by_cases h2 : hi ≤ p <;> simp [h1, h2]
  · rw [hst]
    cases hp : ind.percentile <;> simp
    rename_i p
    by_cases h1 : p ≤ lo
    · simp [h1]
    · by_cases h2 : hi ≤ p <;> simp [h1, h2]
      exact not_le.1 h1
  · rw [hst]
    cases hp : ind.percentile <;> simp
    rename_i p
    by_cases h1 : p ≤ lo
    · simp [h1]
    · by_cases h2 : hi ≤ p
      · simp [h1, h2]
      · simp [h1, h2]
        exact ⟨not_le.1 h1, not_le.1 h2⟩
  · intro hp; rw [hst, hp]
  · intro hp; rw [hst, hp]; simp
  · intro hp hne; rw [hst, hp]; simp [hne]
  · refine ⟨_, by simp only [generateTakeaway, ProfileArg.resolve, htpl]; rfl, ?_, ?_, ?_⟩
    · intro h; simp [h, takeawayHeadline]
    · intro h; simp [h, takeawayHeadline]
    · intro h
      simp only [h, takeawayHeadline]
      cases takeawayIsAbove ind with
      | none => simp
      | some b => cases b <;> simp
  · intro ind2 h2
    rw [hst, takeawayState_num B ind2 profile lo hi hlo hhi, h2]

/-- Witness for C8: percentile `15` with thresholds `15` and `85`. -/
theorem generateTakeaway_regime_witness :
    takeawayState ⟨fun _ => .nan, fun _ => "", fun _ _ => ""⟩
      ⟨.num 1, .str "2024-01-02", .num 2020, .num 2, .num 15, none, ⟨none, none⟩⟩
      { Profile.empty with lowExtreme := .num 15, highExtreme := .num 85 } = .low :=
  (generateTakeaway_regime ⟨fun _ => .nan, fun _ => "", fun _ _ => ""⟩
    ⟨.num 1, .str "2024-01-02", .num 2020, .num 2, .num 15, none, ⟨none, none⟩⟩
    { Profile.empty with lowExtreme := .num 15, highExtreme := .num 85 } 15 85 rfl rfl
    (by intro s; cases s <;> rfl)).2.2.2.2.1 rfl

theorem string_append_ne_empty_left (a b : String) (h : a ≠ "") : a ++ b ≠ "" := by
  intro hab
  have hlen : (a ++ b).length = 0 := by rw [hab]; rfl
  rw [String.length_append] at hlen
  have ha : a.length = 0 := by omega
  apply h
  apply String.ext
  have := List.length_eq_zero.1 (show a.data.length = 0 from ha)
  rw [this]

theorem latestSentence_ne_empty (B : Builtins) (ind : IndicatorRecord) (profile : Profile) :
    latestSentence B ind profile ≠ "" := by
  unfold latestSentence
  simp only [String.append_assoc]
  exact string_append_ne_empty_left _ _ (by decide)

theorem medianSentence_ne_empty (B : Builtins) (ind : IndicatorRecord)
    (h : ind.median.isFinite = true) : medianSentence B ind ≠ "" := by
  unfold medianSentence
  simp only [h, if_true, String.append_assoc]
  exact string_append_ne_empty_left _ _ (by decide)

theorem bottomSentence_ne_empty (B : Builtins) (ind : IndicatorRecord) :
    bottomSentence B ind ≠ "" := by
  unfold bottomSentence
  simp only [String.append_assoc]
  exact string_append_ne_empty_left _ _ (by decide)

/-- C9: when the profile has no template for the resolved regime, the body
is the latest-value sentence, then the median sentence iff the median is
finite, then the bottom-percentile sentence iff the regime is `low` (never
for `high` or `normal`), joined by single spaces. -/
theorem generateTakeaway_body (B : Builtins) (ind : IndicatorRecord) (profile : Profile)
    (htpl : templateFor (profile.templates.getD ⟨none, none, none⟩)
      (takeawayState B ind profile) = none) :
    ∃ headline, generateTakeaway B (some ind) (.obj profile) =
      .ok { headline := headline
            body := " ".intercalate
              ([latestSentence B ind profile] ++
                (if ind.median.isFinite = true then [medianSentence B ind] else []) ++
                (if takeawayState B ind profile = .low then [bottomSentence B ind] else [])) } := by
  refine ⟨takeawayHeadline ind profile (takeawayState B ind profile), ?_⟩
  simp only [generateTakeaway, ProfileArg.resolve, htpl]
  have hparts : (bodyParts B ind profile (takeawayState B ind profile)).filter (· ≠ "") =
      [latestSentence B ind profile] ++
        (if ind.median.isFinite = true then [medianSentence B ind] else []) ++
        (if takeawayState B ind profile = .low then [bottomSentence B ind] else []) := by
    have h1 := latestSentence_ne_empty B ind profile
    have h3 := bottomSentence_ne_empty B ind
    unfold bodyParts
    by_cases hm : ind.median.isFinite = true
    · have h2 := medianSentence_ne_empty B ind hm
      by_cases hs : takeawayState B ind profile = .low
      · simp [List.filter, hm, hs, h1, h2, h3]
      · simp [List.filter, hm, hs, h1, h2]
    · have h2 : medianSentence B ind = "" := by simp [medianSentence, hm]
      by_cases hs : takeawayState B ind profile = .low
      · simp [List.filter, hm, hs, h1, h2, h3]
      · simp [List.filter, hm, hs, h1, h2]
  rw [hparts]

/-- Witness for C9: a record in the `high` regime with the empty profile. -/
theorem generateTakeaway_body_witness :
    ∃ headline, generateTakeaway ⟨fun _ => .nan, fun _ => "n", fun _ _ => "x"⟩
        (some ⟨.num 3, .str "2024-01-02", .num 2020, .num 2, .num 90, none, ⟨none, none⟩⟩)
        (.obj Profile.empty) =
      .ok { headline := headline
            body := " ".intercalate
              ([latestSentence ⟨fun _ => .nan, fun _ => "n", fun _ _ => "x"⟩
                  ⟨.num 3, .str "2024-01-02", .num 2020, .num 2, .num 90, none, ⟨none, none⟩⟩
                  Profile.empty] ++
                (if (JSVal.num 2).isFinite = true then
                  [medianSentence ⟨fun _ => .nan, fun _ => "n", fun _ _ => "x"⟩
                    ⟨.num 3, .str "2024-01-02", .num 2020, .num 2, .num 90, none,
                      ⟨none, none⟩⟩]
                 else []) ++
                (if takeawayState ⟨fun _ => .nan, fun _ => "n", fun _ _ => "x"⟩
                    ⟨.num 3, .str "2024-01-02", .num 2020, .num 2, .num 90, none, ⟨none, none⟩⟩
                    Profile.empty = .low then
                  [bottomSentence ⟨fun _ => .nan, fun _ => "n", fun _ _ => "x"⟩
                    ⟨.num 3, .str "2024-01-02", .num 2020, .num 2, .num 90, none,
                      ⟨none, none⟩⟩]
                 else [])) } :=
  generateTakeaway_body ⟨fun _ => .nan, fun _ => "n", fun _ _ => "x"⟩
    ⟨.num 3, .str "2024-01-02", .num 2020, .num 2, .num 90, none, ⟨none, none⟩⟩
    Profile.empty (by cases h : takeawayState _ _ Profile.empty <;> rfl)

/-- C10: when the profile has a template for the resolved regime the result
is exactly that template applied to the record; otherwise the result is the
default assembly, whatever templates exist for other regimes; the regime
itself is resolved without looking at the templates. -/
theorem generateTakeaway_template (B : Builtins) (ind : IndicatorRecord) (profile : Profile) :
    (∀ f, templateFor (profile.templates.getD ⟨none, none, none⟩)
        (takeawayState B ind profile) = some f →
      generateTakeaway B (some ind) (.obj profile) = .ok (f ind)) ∧
    (templateFor (profile.templates.getD ⟨none, none, none⟩)
        (takeawayState B ind profile) = none →
      generateTakeaway B (some ind) (.obj profile) =
        .ok { headline := takeawayHeadline ind profile (takeawayState B ind profile)
              body := " ".intercalate
                ((bodyParts B ind profile (takeawayState B ind profile)).filter (· ≠ "")) } ∧
      generateTakeaway B (some ind) (.obj profile) =
        generateTakeaway B (some ind) (.obj { profile with templates := none })) ∧
    (∀ t : Option Templates,
      takeawayState B ind { profile with templates := t } = takeawayState B ind profile) := by
  refine ⟨?_, ?_, ?_⟩
  · intro f hf
    simp only [generateTakeaway, ProfileArg.resolve, hf]
  · intro hnone
    constructor
    · simp only [generateTakeaway, ProfileArg.resolve, hnone]
    · have hst : takeawayState B ind { profile with templates := none } =
          takeawayState B ind profile := rfl
      have hnone2 : templateFor ((({ profile with templates := none } : Profile).templates).getD
          ⟨none, none, none⟩) (takeawayState B ind profile) = none := by
        cases takeawayState B ind profile <;> rfl
      simp only [generateTakeaway, ProfileArg.resolve, hnone, hst, hnone2]
      rfl
  · intro t; rfl

/-! ## Properties of the indicator record -/

theorem startYearOf_str (B : Builtins) (s : String) :
    ∃ sy, startYearOf B (.str s) = .ok sy := by
  simp [startYearOf]

theorem getD_zero_str (ds : List JSVal) (hne : ds ≠ [])
    (hstr : ∀ d ∈ ds, ∃ s, d = JSVal.str s) : ∃ s, ds.getD 0 .undefined = JSVal.str s := by
  cases ds with
  | nil => exact absurd rfl hne
  | cons d rest =>
    obtain ⟨s, hs⟩ := hstr d (List.mem_cons_self _ _)
    exact ⟨s, by simp [hs]⟩

theorem computeRatioIndicators_ok (B : Builtins) (ds rs : List JSVal) (last : Nat)
    (sy : JSVal) (hlen : ds.length = rs.length) (hne : rs ≠ [])
    (hl : lastFinite rs rs.length = some last)
    (hsy : startYearOf B (ds.getD 0 .undefined) = .ok sy) :
    computeRatioIndicators B (some ds) (some rs) =
      .ok (some { latestValue := rs.getD last .undefined
                  latestDate := ds.getD last .undefined
                  startYear := sy
                  median := median (some (rs.filter JSVal.isFinite))
                  percentile := percentile (some (rs.filter JSVal.isFinite))
                    (rs.getD last .undefined)
                  timeInRegime := timeInRegime (some ds) (some rs)
                    (median (some (rs.filter JSVal.isFinite)))
                  historical := findMinMax ds rs }) := by
  have hlen0 : rs.length ≠ 0 := by simpa [List.length_eq_zero] using hne
  simp only [computeRatioIndicators, hlen, hl, hsy]
  simp [hlen0]

theorem computeRatioIndicators_some (B : Builtins) (dates ratio : Option (List JSVal))
    (r : IndicatorRecord) (h : computeRatioIndicators B dates ratio = .ok (some r)) :
    ∃ ds rs last sy, dates = some ds ∧ ratio = some rs ∧ ds.length = rs.length ∧ rs ≠ [] ∧
      lastFinite rs rs.length = some last ∧
      startYearOf B (ds.getD 0 .undefined) = .ok sy ∧
      r = { latestValue := rs.getD last .undefined
            latestDate := ds.getD last .undefined
            startYear := sy
            median := median (some (rs.filter JSVal.isFinite))
            percentile := percentile (some (rs.filter JSVal.isFinite))
              (rs.getD last .undefined)
            timeInRegime := timeInRegime (some ds) (some rs)
              (median (some (rs.filter JSVal.isFinite)))
            historical := findMinMax ds rs } := by
  cases dates with
  | none => simp [computeRatioIndicators] at h
  | some ds =>
    cases ratio with
    | none => simp [computeRatioIndicators] at h
    | some rs =>
      by_cases hc : (decide (ds.length = 0) || decide (rs.length = 0) ||
          decide (ds.length ≠ rs.length)) = true
      · simp only [computeRatioIndicators, hc, if_true] at h
        cases h
      · have hc' : ¬ ds.length = 0 ∧ ¬ rs.length = 0 ∧ ds.length = rs.length := by
          simpa [and_assoc] using hc
        cases hl : lastFinite rs rs.length with
        | none =>
          simp only [computeRatioIndicators, hc, hl] at h
          cases h
        | some last =>
          cases hsy : startYearOf B (ds.getD 0 .undefined) with
          | error e =>
            simp only [computeRatioIndicators, hc, hl, hsy] at h
            cases h
          | ok sy =>
            have hne : rs ≠ [] := by
              intro h0; exact hc'.2.1 (by simp [h0])
            have := computeRatioIndicators_ok B ds rs last sy hc'.2.2 hne hl hsy
            rw [this] at h
            refine ⟨ds, rs, last, sy, rfl, rfl, hc'.2.2, hne, hl, hsy, ?_⟩
            injection h with h
            injection h with h
            exact h.symm

theorem lastFinite_of_finite (rs : List JSVal) (h : ∃ v ∈ rs, v.isFinite = true) :
    ∃ last cur, lastFinite rs rs.length = some last ∧ rs[last]? = some (.num cur) ∧
      ∀ j, last < j → (rs.getD j .undefined).isFinite = false := by
  obtain ⟨v, hv, hvfin⟩ := h
  obtain ⟨i, hi⟩ := List.mem_iff_getElem?.1 hv
  have hilt : i < rs.length := (List.getElem?_eq_some.1 hi).1
  have hifin : (rs.getD i .undefined).isFinite = true := by
    rw [List.getD_eq_getElem?_getD, hi]; exact hvfin
  have hlast := lastFinite_spec rs rs.length
  cases hl : lastFinite rs rs.length with
  | none =>
    rw [hl] at hlast
    have := hlast i hilt
    rw [hifin] at this
    exact absurd this (by simp)
  | some L =>
    rw [hl] at hlast
    obtain ⟨hLlt, hLfin, hLafter⟩ := hlast
    obtain ⟨cur, hcur⟩ := (getD_isFinite_iff rs L).1 hLfin
    refine ⟨L, cur, rfl, hcur, ?_⟩
    intro j hj
    by_cases hjl : j < rs.length
    · exact hLafter j hj hjl
    · rw [List.getD_eq_getElem?_getD, List.getElem?_eq_none (by omega)]; rfl

/-- C11: for equal-length non-empty `dates`/`ratio` (dates being strings)
with a finite ratio entry, `computeRatioIndicators` returns a record whose
`latestValue` is `ratio[L]` and whose `latestDate` is `dates[L]`, `L` being
the greatest index of a finite entry. -/
theorem computeRatioIndicators_latest (B : Builtins) (dates ratio : List JSVal)
    (hlen : dates.length = ratio.length) (hne : ratio ≠ [])
    (hfin : ∃ v ∈ ratio, v.isFinite = true)
    (hstr : ∀ d ∈ dates, ∃ s, d = JSVal.str s) :
    ∃ (L : Nat) (cur : ℚ) (r : IndicatorRecord),
      ratio[L]? = some (.num cur) ∧
      (∀ j, L < j → (ratio.getD j .undefined).isFinite = false) ∧
      computeRatioIndicators B (some dates) (some ratio) = .ok (some r) ∧
      r.latestValue = .num cur ∧ r.latestDate = dates.getD L .undefined := by
  obtain ⟨L, cur, hl, hcur, hafter⟩ := lastFinite_of_finite ratio hfin
  have hdne : dates ≠ [] := by
    intro h0; rw [h0] at hlen
    exact hne (List.length_eq_zero.1 hlen.symm)
  obtain ⟨s, hs⟩ := getD_zero_str dates hdne hstr
  obtain ⟨sy, hsy⟩ := startYearOf_str B s
  rw [← hs] at hsy
  refine ⟨L, cur, _, hcur, hafter, computeRatioIndicators_ok B dates ratio L sy hlen hne hl hsy,
    ?_, rfl⟩
  show ratio.getD L .undefined = .num cur
  rw [List.getD_eq_getElem?_getD, hcur]; rfl

/-- Witness for C11 on the series `[1, 3, null]`. -/
theorem computeRatioIndicators_latest_witness :
    ∃ (L : Nat) (cur : ℚ) (r : IndicatorRecord),
      [JSVal.num 1, .num 3, .null][L]? = some (.num cur) ∧
      (∀ j, L < j → ([JSVal.num 1, .num 3, .null].getD j .undefined).isFinite = false) ∧
      computeRatioIndicators ⟨fun _ => .nan, fun _ => "", fun _ _ => ""⟩
        (some [.str "2024-01-01", .str "2024-01-02", .str "2024-01-03"])
        (some [.num 1, .num 3, .null]) = .ok (some r) ∧
      r.latestValue = .num cur ∧
      r.latestDate =
        [JSVal.str "2024-01-01", .str "2024-01-02", .str "2024-01-03"].getD L .undefined :=
  computeRatioIndicators_latest ⟨fun _ => .nan, fun _ => "", fun _ _ => ""⟩
    [.str "2024-01-01", .str "2024-01-02", .str "2024-01-03"] [.num 1, .num 3, .null]
    rfl (by simp) ⟨.num 1, by simp, rfl⟩ (by simp)

theorem lastFinite_none_of_all (rs : List JSVal) (h : ∀ v ∈ rs, v.isFinite = false) (k : Nat) :
    lastFinite rs k = none := by
  induction k with
  | zero => rfl
  | succ k ih =>
    have hk : (rs.getD k .undefined).isFinite = false := by
      rw [List.getD_eq_getElem?_getD]
      cases hget : rs[k]? with
      | none => rfl
      | some v => exact h v (List.getElem?_mem hget)
    simp only [lastFinite, hk, ih]
    rfl

/-- C12: when no ratio entry is finite (also for empty or absent arrays),
`computeRatioIndicators` returns `null` without throwing, and
`generateTakeaway` on that result returns the fixed fallback for every
profile argument, the `null` profile included. -/
theorem computeRatioIndicators_unavailable (B : Builtins) (dates ratio : Option (List JSVal))
    (profile : ProfileArg)
    (hnone : ∀ rs, ratio = some rs → ∀ v ∈ rs, v.isFinite = false) :
    computeRatioIndicators B dates ratio = .ok none ∧
    (computeRatioIndicators B dates ratio).bind (fun ind => generateTakeaway B ind profile) =
      .ok { headline := "No takeaway available"
            body := "Indicator data was not available for this series." } := by
  have h1 : computeRatioIndicators B dates ratio = .ok none := by
    cases dates with
    | none => simp [computeRatioIndicators]
    | some ds =>
      cases ratio with
      | none => simp [computeRatioIndicators]
      | some rs =>
        have := lastFinite_none_of_all rs (hnone rs rfl) rs.length
        simp only [computeRatioIndicators, this]
        split <;> rfl
  refine ⟨h1, ?_⟩
  rw [h1]
  rfl

/-- Witness for C12 on the series `[null, NaN]` with the `null` profile. -/
theorem computeRatioIndicators_unavailable_witness :
    computeRatioIndicators ⟨fun _ => .nan, fun _ => "", fun _ _ => ""⟩
        (some [.str "2024-01-01", .str "2024-01-02"]) (some [.null, .nan]) = .ok none ∧
    (computeRatioIndicators ⟨fun _ => .nan, fun _ => "", fun _ _ => ""⟩
        (some [.str "2024-01-01", .str "2024-01-02"]) (some [.null, .nan])).bind
        (fun ind => generateTakeaway ⟨fun _ => .nan, fun _ => "", fun _ _ => ""⟩ ind .null) =
      .ok { headline := "No takeaway available"
            body := "Indicator data was not available for this series." } :=
  computeRatioIndicators_unavailable ⟨fun _ => .nan, fun _ => "", fun _ _ => ""⟩
    (some [.str "2024-01-01", .str "2024-01-02"]) (some [.null, .nan]) .null
    (by intro rs h v hv; cases h; simp at hv; rcases hv with rfl | rfl <;> rfl)

theorem countP_lt_add_countP_eq_le (l : List ℚ) (x : ℚ) :
    l.countP (fun v => decide (v < x)) + l.countP (fun v => decide (v = x)) ≤ l.length := by
  induction l with
  | nil => simp
  | cons a rest ih =>
    simp only [List.countP_cons, List.length_cons]
    by_cases h1 : a < x
    · have h2 : ¬ a = x := ne_of_lt h1
      simp [h1, h2]; omega
    · by_cases h2 : a = x
      · simp [h1, h2]; omega
      · simp [h1, h2]; omega

theorem percentile_num_eq (values : List JSVal) (x : ℚ) :
    percentile (some values) (.num x) =
      (if values.any JSVal.isFinite = false then .null
       else jsMul (jsDiv
          (.num (((finiteEntries values).countP (fun v => decide (v < x)) : ℚ)
                + ((finiteEntries values).countP (fun v => decide (v = x)) : ℚ) / 2))
          (.num ((finiteEntries values).length : ℚ))) (.num 100)) := by
  by_cases h : values.any JSVal.isFinite = false
  · have hn : finiteEntries values = [] :=
      (finiteEntries_eq_nil_iff values).2 (by simpa using h)
    simp [percentile, percentile_foldl, hn, h]
  · have hne : finiteEntries values ≠ [] := by
      intro hn
      exact h (by simpa using (finiteEntries_eq_nil_iff values).1 hn)
    rw [if_neg h]
    exact percentile_formula values x hne

theorem percentile_num_value (values : List JSVal) (x : ℚ) (hne : finiteEntries values ≠ []) :
    ∃ p : ℚ, percentile (some values) (.num x) = .num p ∧
      p = roundNearest (roundNearest
        ((((finiteEntries values).countP (fun v => decide (v < x)) : ℚ)
          + ((finiteEntries values).countP (fun v => decide (v = x)) : ℚ) / 2)
          / ((finiteEntries values).length : ℚ)) * 100) ∧
      0 ≤ p ∧ p ≤ 100 := by
  have hle := countP_lt_add_countP_eq_le (finiteEntries values) x
  have hn : 0 < (finiteEntries values).length := List.length_pos.2 hne
  have hnpos : (0 : ℚ) < ((finiteEntries values).length : ℚ) := by exact_mod_cast hn
  have hleq : (((finiteEntries values).countP (fun v => decide (v < x)) : ℚ)
      + ((finiteEntries values).countP (fun v => decide (v = x)) : ℚ))
      ≤ ((finiteEntries values).length : ℚ) := by
    exact_mod_cast hle
  have hlt0 : (0 : ℚ) ≤ ((finiteEntries values).countP (fun v => decide (v < x)) : ℚ) :=
    Nat.cast_nonneg _
  have heq0 : (0 : ℚ) ≤ ((finiteEntries values).countP (fun v => decide (v = x)) : ℚ) :=
    Nat.cast_nonneg _
  obtain ⟨r, p, -, hr, -, -, hp, hpr, hp0, hp1⟩ := percentile_value
    (((finiteEntries values).countP (fun v => decide (v < x)) : ℚ)
      + ((finiteEntries values).countP (fun v => decide (v = x)) : ℚ) / 2)
    ((finiteEntries values).length : ℚ) (by linarith) (by linarith) hnpos
  refine ⟨p, ?_, ?_, hp0, hp1⟩
  · rw [percentile_formula values x hne]
    exact hp
  · rw [hpr, hr]

theorem percentile_range (values : Option (List JSVal)) (x : JSVal) :
    percentile values x = .null ∨
      ∃ q : ℚ, percentile values x = .num q ∧ 0 ≤ q ∧ q ≤ 100 := by
  cases values with
  | none => left; rfl
  | some vs =>
    by_cases hx : x.isFinite = true
    · obtain ⟨xq, rfl⟩ : ∃ xq, x = JSVal.num xq := by
        cases x <;> simp [JSVal.isFinite] at hx
        exact ⟨_, rfl⟩
      by_cases hn : finiteEntries vs = []
      · left
        simp [percentile, percentile_foldl, hn]
      · right
        obtain ⟨p, hp, -, hp0, hp1⟩ := percentile_num_value vs xq hn
        exact ⟨p, hp, hp0, hp1⟩
    · left
      have hx' : x.isFinite = false := by simpa using hx
      simp [percentile, hx']

theorem finiteEntries_filter (rs : List JSVal) :
    finiteEntries (rs.filter JSVal.isFinite) = finiteEntries rs := by
  induction rs with
  | nil => rfl
  | cons v rest ih =>
    cases v <;> simp [List.filter, JSVal.isFinite, finiteEntries, ih]

theorem lastFinite_getD (rs : List JSVal) (k last : Nat) (h : lastFinite rs k = some last) :
    ∃ cur, rs.getD last .undefined = .num cur ∧ JSVal.num cur ∈ rs := by
  have hs := lastFinite_spec rs k
  rw [h] at hs
  obtain ⟨cur, hcur⟩ := (getD_isFinite_iff rs last).1 hs.2.1
  refine ⟨cur, ?_, List.getElem?_mem hcur⟩
  rw [List.getD_eq_getElem?_getD, hcur]; rfl

/-- C17: whenever `percentile(values, x)` is not `null` it lies in
`[0, 100]`; the percentile of every record returned by
`computeRatioIndicators` is a number in `[0, 100]`. -/
theorem percentile_bounds :
    (∀ (values : Option (List JSVal)) (x : JSVal),
      percentile values x = .null ∨
        ∃ q : ℚ, percentile values x = .num q ∧ 0 ≤ q ∧ q ≤ 100) ∧
    (∀ (B : Builtins) (dates ratio : Option (List JSVal)) (r : IndicatorRecord),
      computeRatioIndicators B dates ratio = .ok (some r) →
        ∃ q : ℚ, r.percentile = .num q ∧ 0 ≤ q ∧ q ≤ 100) := by
  refine ⟨percentile_range, ?_⟩
  intro B dates ratio r h
  obtain ⟨ds, rs, last, sy, -, -, -, -, hl, -, hr⟩ := computeRatioIndicators_some B dates ratio r h
  obtain ⟨cur, hcur, hmem⟩ := lastFinite_getD rs _ last hl
  have hpct : r.percentile = percentile (some (rs.filter JSVal.isFinite)) (.num cur) := by
    rw [hr, hcur]
  have hne : finiteEntries (rs.filter JSVal.isFinite) ≠ [] := by
    rw [finiteEntries_filter]
    exact List.ne_nil_of_mem ((mem_finiteEntries_iff rs cur).2 hmem)
  obtain ⟨p, hp, -, hp0, hp1⟩ := percentile_num_value (rs.filter JSVal.isFinite) cur hne
  exact ⟨p, by rw [hpct, hp], hp0, hp1⟩

theorem findMinMax_cases (dates series : List JSVal) :
    ((∀ v ∈ series, v.isFinite = false) ∧
      findMinMax dates series = { min := none, max := none }) ∨
    ((∃ v ∈ series, v.isFinite = true) ∧
      ∃ (a b : ℚ) (da db : JSVal),
        findMinMax dates series = { min := some ⟨.num a, da⟩, max := some ⟨.num b, db⟩ } ∧
        a ≤ b) := by
  have inv := findMinMaxLoop_inv dates series [] ⟨.posInf, .null⟩ ⟨.negInf, .null⟩
    (Or.inl ⟨by simp, rfl⟩) (Or.inl ⟨by simp, rfl⟩)
  simp only [List.nil_append, List.length_nil] at inv
  obtain ⟨hmin, hmax⟩ := inv
  rcases hmin with ⟨hnone, hr⟩ | ⟨imin, vmin, hi, hr, hle, -⟩
  · left
    rcases hmax with ⟨-, hr2⟩ | ⟨imax, vmax, hi2, -, -, -⟩
    · refine ⟨?_, by simp [findMinMax, hr, hr2, JSVal.isFinite]⟩
      intro v hv
      cases v <;> first | rfl | exact absurd hv (hnone _)
    · exact absurd (List.getElem?_mem hi2) (hnone vmax)
  · right
    rcases hmax with ⟨hnone, -⟩ | ⟨imax, vmax, hi2, hr2, hle2, -⟩
    · exact absurd (List.getElem?_mem hi) (hnone vmin)
    · refine ⟨⟨.num vmin, List.getElem?_mem hi, rfl⟩, vmin, vmax,
        dates.getD imin .undefined, dates.getD imax .undefined,
        by simp [findMinMax, hr, hr2, JSVal.isFinite], ?_⟩
      exact hle2 vmin (List.getElem?_mem hi)

/-- C18: `findMinMax` returns `min` and `max` both `null`, exactly when the
series has no finite entry, or both non-null with `min.value <= max.value`;
in every record returned by `computeRatioIndicators` both are non-null and
`historical.min.value <= historical.max.value`. -/
theorem findMinMax_ordered :
    (∀ dates series : List JSVal,
      ((∀ v ∈ series, v.isFinite = false) ∧
        findMinMax dates series = { min := none, max := none }) ∨
      ((∃ v ∈ series, v.isFinite = true) ∧
        ∃ (a b : ℚ) (da db : JSVal),
          findMinMax dates series =
            { min := some ⟨.num a, da⟩, max := some ⟨.num b, db⟩ } ∧ a ≤ b)) ∧
    (∀ (B : Builtins) (dates ratio : Option (List JSVal)) (r : IndicatorRecord),
      computeRatioIndicators B dates ratio = .ok (some r) →
        ∃ (a b : ℚ) (da db : JSVal),
          r.historical = { min := some ⟨.num a, da⟩, max := some ⟨.num b, db⟩ } ∧ a ≤ b) := by
  refine ⟨findMinMax_cases, ?_⟩
  intro B dates ratio r h
  obtain ⟨ds, rs, last, sy, -, -, -, -, hl, -, hr⟩ := computeRatioIndicators_some B dates ratio r h
  obtain ⟨cur, -, hmem⟩ := lastFinite_getD rs _ last hl
  rcases findMinMax_cases ds rs with ⟨hnone, -⟩ | ⟨-, a, b, da, db, hres, hab⟩
  · have := hnone _ hmem
    simp [JSVal.isFinite] at this
  · exact ⟨a, b, da, db, by rw [hr]; exact hres, hab⟩

/-! ## Properties of the page cycle and of the premium series -/

theorem intersectDates_length (B : Builtins) (mapA mapB : JSMap) :
    (intersectDates B mapA mapB).length =
      (mapKeys mapA).countP (fun d => decide (d ∈ mapKeys mapB)) := by
  unfold intersectDates defaultSort
  rw [(List.perm_insertionSort _ _).length_eq, List.countP_eq_length_filter]
  congr 1
  apply List.filter_congr
  intro d _
  by_cases h : d ∈ mapKeys mapB
  · simp [h, (mapHas_iff mapB d).2 h]
  · have : mapHas mapB d = false := by
      cases hh : mapHas mapB d with
      | false => rfl
      | true => exact absurd ((mapHas_iff mapB d).1 hh) h
    simp [h, this]

theorem buildRatioSeries_dates (B : Builtins) (numJson denJson : SeriesJson) :
    (buildRatioSeries B (some numJson) (some denJson) none none).dates =
      intersectDates B (toMap B numJson.points (some "close"))
        (toMap B denJson.points (some "close")) := by
  simp [buildRatioSeries]

/-- C13: in the compute cycle of `renderRatioPage`, fewer than 2 dates common
to the two normalized series make the cycle throw "Not enough overlapping
dates to render chart." before `computeRatioIndicators` is called, so no
result is returned; with 2 or more common dates this error is not raised. -/
theorem renderRatioPageCompute_insufficient (B : Builtins) (numJson denJson : SeriesJson) :
    ((mapKeys (toMap B numJson.points (some "close"))).countP
        (fun d => decide (d ∈ mapKeys (toMap B denJson.points (some "close")))) < 2 →
      renderRatioPageCompute B numJson denJson =
        .error "Not enough overlapping dates to render chart.") ∧
    (2 ≤ (mapKeys (toMap B numJson.points (some "close"))).countP
        (fun d => decide (d ∈ mapKeys (toMap B denJson.points (some "close")))) →
      renderRatioPageCompute B numJson denJson ≠
        .error "Not enough overlapping dates to render chart." ∧
      renderRatioPageCompute B numJson denJson =
        (match computeRatioIndicators B
            (some (buildRatioSeries B (some numJson) (some denJson) none none).dates)
            (some (buildRatioSeries B (some numJson) (some denJson) none none).ratio) with
          | .error e => .error e
          | .ok ind => .ok (buildRatioSeries B (some numJson) (some denJson) none none, ind))) ∧
    (∀ r ind, renderRatioPageCompute B numJson denJson = .ok (r, ind) → 2 ≤ r.dates.length) := by
  have hlen := intersectDates_length B (toMap B numJson.points (some "close"))
    (toMap B denJson.points (some "close"))
  rw [← buildRatioSeries_dates] at hlen
  refine ⟨?_, ?_, ?_⟩
  · intro h
    rw [← hlen] at h
    simp only [renderRatioPageCompute, h, if_true]
  · intro h
    rw [← hlen] at h
    have hn : ¬ (buildRatioSeries B (some numJson) (some denJson) none none).dates.length < 2 := by
      omega
    have heq : renderRatioPageCompute B numJson denJson =
        (match computeRatioIndicators B
            (some (buildRatioSeries B (some numJson) (some denJson) none none).dates)
            (some (buildRatioSeries B (some numJson) (some denJson) none none).ratio) with
          | .error e => .error e
          | .ok ind => .ok (buildRatioSeries B (some numJson) (some denJson) none none, ind)) := by
      simp only [renderRatioPageCompute, hn, if_false]
    refine ⟨?_, heq⟩
    rw [heq]
    cases hc : computeRatioIndicators B
        (some (buildRatioSeries B (some numJson) (some denJson) none none).dates)
        (some (buildRatioSeries B (some numJson) (some denJson) none none).ratio) with
    | ok ind => simp
    | error e =>
      have he : e = "TypeError" := by
        cases hd : (buildRatioSeries B (some numJson) (some denJson) none none).dates.getD 0
            .undefined <;>
          simp [computeRatioIndicators, hd, startYearOf] at hc <;>
          (try split at hc) <;> (try split at hc) <;> simp_all
      subst he
      simp
  · intro r ind h
    by_cases hlt : (buildRatioSeries B (some numJson) (some denJson) none none).dates.length < 2
    · simp [renderRatioPageCompute, hlt] at h
    · simp only [renderRatioPageCompute, hlt, if_false] at h
      cases hc : computeRatioIndicators B
          (some (buildRatioSeries B (some numJson) (some denJson) none none).dates)
          (some (buildRatioSeries B (some numJson) (some denJson) none none).ratio) with
      | error e => rw [hc] at h; cases h
      | ok i =>
        rw [hc] at h
        injection h with h
        injection h with h1 h2
        rw [← h1]; omega

theorem premiumAt_eq_some (tokenMap goldMap : JSMap) (d : JSVal) (p : PremiumPoint) :
    premiumAt tokenMap goldMap d = some p ↔
      (p.date = d ∧ ∃ a b : ℚ, mapGet tokenMap d = .num a ∧ mapGet goldMap d = .num b ∧
        b ≠ 0 ∧ p.close = jsSub (jsDiv (.num a) (.num b)) (.num 1)) := by
  unfold premiumAt
  cases ht : mapGet tokenMap d <;> cases hg : mapGet goldMap d <;>
    simp only [false_iff, not_and, not_exists, reduceCtorEq, false_and, exists_false,
      imp_false, not_false_eq_true, implies_true, exists_const, and_false]
  rename_i a b
  by_cases hb : b = 0
  · simp [hb]
  · simp only [hb, if_false, Option.some.injEq, JSVal.num.injEq]
    constructor
    · intro h
      subst h
      exact ⟨rfl, a, b, rfl, rfl, hb, rfl⟩
    · rintro ⟨h1, a', b', ha, hb', -, hc⟩
      subst ha; subst hb'
      cases p
      simp_all

theorem premium_value_cases (a b : ℚ) (hb : b ≠ 0) :
    (jsSub (jsDiv (.num a) (.num b)) (.num 1)).isFinite = true ∨
      jsSub (jsDiv (.num a) (.num b)) (.num 1) = .posInf ∨
      jsSub (jsDiv (.num a) (.num b)) (.num 1) = .negInf := by
  have hdiv : jsDiv (.num a) (.num b) = roundToDouble (a / b) := by
    simp only [jsDiv, hb, if_false]
  rw [hdiv]
  rcases roundToDouble_cases (a / b) with ⟨r, hr, -, -, -⟩ | ⟨hr, -⟩ | ⟨hr, -⟩
  · rw [hr]
    have hsub : jsSub (.num r) (.num 1) = roundToDouble (r - 1) := rfl
    rw [hsub]
    rcases roundToDouble_cases (r - 1) with ⟨s, hs, -, -, -⟩ | ⟨hs, -⟩ | ⟨hs, -⟩
    · left; rw [hs]; rfl
    · right; left; exact hs
    · right; right; exact hs
  · right; left; rw [hr]; rfl
  · right; right; rw [hr]; rfl

theorem mapGet_num_mem (m : JSMap) (d : JSVal) (a : ℚ) (h : mapGet m d = .num a) :
    d ∈ mapKeys m := by
  induction m with
  | nil => simp [mapGet] at h
  | cons e rest ih =>
    obtain ⟨k0, v0⟩ := e
    by_cases hk : k0 = d
    · simp [mapKeys, hk]
    · simp only [mapGet, hk, if_false] at h
      have := ih h
      simp only [mapKeys] at this ⊢
      exact List.mem_cons_of_mem _ this

theorem mem_buildPremiumSeries (B : Builtins)
    (tokenPricePoints goldSpotPoints : Option (List (Option JSObj))) (p : PremiumPoint) :
    p ∈ buildPremiumSeries B tokenPricePoints goldSpotPoints ↔
      (p.date ∈ mapKeys (mapPointsToMap B tokenPricePoints) ∧
        p.date ∈ mapKeys (mapPointsToMap B goldSpotPoints) ∧
        ∃ a b : ℚ, mapGet (mapPointsToMap B tokenPricePoints) p.date = .num a ∧
          mapGet (mapPointsToMap B goldSpotPoints) p.date = .num b ∧
          b ≠ 0 ∧ p.close = jsSub (jsDiv (.num a) (.num b)) (.num 1)) := by
  unfold buildPremiumSeries
  simp only [List.mem_filterMap, List.mem_map, id]
  constructor
  · rintro ⟨o, ⟨d, _, hd⟩, ho⟩
    subst ho
    obtain ⟨hdate, a, b, ha, hb, hb0, hc⟩ := (premiumAt_eq_some _ _ d p).1 hd
    subst hdate
    exact ⟨mapGet_num_mem _ _ a ha, mapGet_num_mem _ _ b hb, a, b, ha, hb, hb0, hc⟩
  · rintro ⟨h1, h2, a, b, ha, hb, hb0, hc⟩
    refine ⟨some p, ⟨p.date, ?_, ?_⟩, rfl⟩
    · exact (mem_intersectDates B _ _ _).2 ⟨h1, h2⟩
    · exact (premiumAt_eq_some _ _ p.date p).2 ⟨rfl, a, b, ha, hb, hb0, hc⟩

theorem roundToDouble_intCast (n : ℤ) (h : |n| < 2 ^ 53) : roundToDouble (n : ℚ) = .num n := by
  have hq : |(n : ℚ)| < 2 ^ 53 := by exact_mod_cast h
  apply isDouble_of_form (n : ℚ) n 0 (by simp) (by norm_num)
  · have : ((0 : ℤ) + 53) = 53 := by norm_num
    rw [this]
    exact_mod_cast h
  · calc |(n : ℚ)| < 2 ^ 53 := hq
      _ ≤ 2 ^ 1024 := by norm_num

/-- C14 (counterexample): with token price `4` and the negative gold price
`-2` on a common date, `buildPremiumSeries` yields the numeric value
`4 / (-2) - 1 = -3`: its guard is `gold === 0`, not `gold > 0`. -/
theorem buildPremiumSeries_negative_gold :
    buildPremiumSeries ⟨fun _ => .nan, fun _ => "", fun _ _ => ""⟩
        (some [some [("date", .str "2024-01-01"), ("close", .num 4)]])
        (some [some [("date", .str "2024-01-01"), ("close", .num (-2))]]) =
      [{ date := .str "2024-01-01", close := .num (-3) }] := by
  simp [buildPremiumSeries, mapPointsToMap, mapPointsToMapStep, getProp, List.lookup, toNumber,
    JSVal.truthy, JSVal.isNullish, mapSet, defaultSort, mapKeys, mapHas, premiumAt, mapGet]
  have e1 : roundToDouble (-2) = .num (-2) := by
    have := roundToDouble_intCast (-2) (by norm_num)
    simpa using this
  have e2 : roundToDouble (-3) = .num (-3) := by
    have := roundToDouble_intCast (-3) (by norm_num)
    simpa using this
  norm_num [jsDiv, jsSub, e1, e2]

/-- C14 (amended): the series holds a point for a date exactly when the date
is common to both maps, both values are finite and the gold value is not
zero, and the value of that point is `token / gold - 1` as the code
evaluates it in double arithmetic, a finite number or an infinity (token
`2^1023` over gold `0.5` gives `Infinity`); a date that fails this guard, in
particular one with a zero gold value, has no point. -/
theorem buildPremiumSeries_value (B : Builtins)
    (tokenPricePoints goldSpotPoints : Option (List (Option JSObj))) :
    (∀ p : PremiumPoint, p ∈ buildPremiumSeries B tokenPricePoints goldSpotPoints ↔
      (p.date ∈ mapKeys (mapPointsToMap B tokenPricePoints) ∧
        p.date ∈ mapKeys (mapPointsToMap B goldSpotPoints) ∧
        ∃ a b : ℚ, mapGet (mapPointsToMap B tokenPricePoints) p.date = .num a ∧
          mapGet (mapPointsToMap B goldSpotPoints) p.date = .num b ∧
          b ≠ 0 ∧ p.close = jsSub (jsDiv (.num a) (.num b)) (.num 1))) ∧
    (∀ d, mapGet (mapPointsToMap B goldSpotPoints) d = .num 0 →
      ∀ p ∈ buildPremiumSeries B tokenPricePoints goldSpotPoints, p.date ≠ d) ∧
    (∀ a b : ℚ, b ≠ 0 →
      (jsSub (jsDiv (.num a) (.num b)) (.num 1)).isFinite = true ∨
        jsSub (jsDiv (.num a) (.num b)) (.num 1) = .posInf ∨
        jsSub (jsDiv (.num a) (.num b)) (.num 1) = .negInf) ∧
    jsSub (jsDiv (.num (2 ^ 1023)) (.num (1 / 2))) (.num 1) = .posInf := by
  refine ⟨mem_buildPremiumSeries B tokenPricePoints goldSpotPoints, ?_, premium_value_cases, ?_⟩
  · intro d hd p hp hpd
    obtain ⟨-, -, a, b, -, hb, hb0, -⟩ := (mem_buildPremiumSeries B _ _ p).1 hp
    rw [hpd, hd] at hb
    injection hb with hb
    exact hb0 hb.symm
  · have hq : (2 : ℚ) ^ 1023 / (1 / 2) = 2 ^ 1023 + 2 ^ 1023 := by norm_num
    have hne : ((1 : ℚ) / 2) ≠ 0 := by norm_num
    have hdiv : jsDiv (.num (2 ^ 1023)) (.num (1 / 2)) = .posInf := by
      simp only [jsDiv, hne, if_false]
      rw [hq]
      exact roundToDouble_overflow
    rw [hdiv]
    rfl

theorem intersectDates_strictlyAscending (B : Builtins) (mapA mapB : JSMap)
    (hstr : ∀ k ∈ mapKeys mapA, ∃ s, k = JSVal.str s) (hnd : (mapKeys mapA).Nodup) :
    StrictlyAscending (intersectDates B mapA mapB) := by
  unfold StrictlyAscending
  have hsorted : (intersectDates B mapA mapB).Pairwise (fun a b => sortLe B a b = true) :=
    defaultSort_sorted B _
  have hnodup : (intersectDates B mapA mapB).Pairwise (· ≠ ·) := by
    have : (intersectDates B mapA mapB).Nodup :=
      (List.perm_insertionSort _ _).nodup_iff.2 (hnd.filter _)
    exact this
  refine (hsorted.and hnodup).imp_of_mem ?_
  intro x y hx hy hxy
  obtain ⟨s, rfl⟩ := hstr x ((mem_intersectDates B mapA mapB x).1 hx).1
  obtain ⟨t, rfl⟩ := hstr y ((mem_intersectDates B mapA mapB y).1 hy).1
  refine ⟨s, t, rfl, rfl, ?_⟩
  obtain ⟨hle, hne⟩ := hxy
  have hle' : lexLe (codeUnits s) (codeUnits t) = true := by
    simpa [sortLe, jsToString] using hle
  unfold jsStrLt
  cases hback : lexLe (codeUnits t) (codeUnits s) with
  | false => rfl
  | true =>
    exfalso
    apply hne
    rw [codeUnits_injective s t (lexLe_antisymm _ _ hle' hback)]

theorem mapPointsToMap_keys_nodup (B : Builtins) (points : Option (List (Option JSObj))) :
    (mapKeys (mapPointsToMap B points)).Nodup := by
  unfold mapPointsToMap
  generalize (points.getD []) = pts
  have gen : ∀ (m : JSMap), (mapKeys m).Nodup →
      (mapKeys (pts.foldl (mapPointsToMapStep B) m)).Nodup := by
    induction pts with
    | nil => intro m hm; simpa using hm
    | cons p rest ih =>
      intro m hm
      simp only [List.foldl_cons]
      apply ih
      unfold mapPointsToMapStep
      by_cases hc : ((getProp p "date").truthy && !(getProp p "close").isNullish) = true
      · simp only [hc, if_true]
        exact mapKeys_mapSet_nodup _ _ _ hm
      · simp only [hc, if_false]
        exact hm
  exact gen [] (by simp [mapKeys])

theorem premium_dates_eq_filter (tokenMap goldMap : JSMap) (dates : List JSVal) :
    ((dates.map (premiumAt tokenMap goldMap)).filterMap id).map (fun p => p.date) =
      dates.filter (fun d => (premiumAt tokenMap goldMap d).isSome) := by
  induction dates with
  | nil => rfl
  | cons d rest ih =>
    cases hp : premiumAt tokenMap goldMap d with
    | none =>
      simp [List.filter, hp]
      simpa using ih
    | some p =>
      have hd : p.date = d := ((premiumAt_eq_some _ _ d p).1 hp).1
      simp [List.filter, hp, hd]
      simpa using ih

/-- C15 (counterexample): with a zero gold price on the only common date,
`buildPremiumSeries` returns the empty series: the failing position is
dropped by `filter(Boolean)`, not kept as a `null` gap. -/
theorem buildPremiumSeries_drops_gap :
    buildPremiumSeries ⟨fun _ => .nan, fun _ => "", fun _ _ => ""⟩
        (some [some [("date", .str "2024-01-01"), ("close", .num 1)]])
        (some [some [("date", .str "2024-01-01"), ("close", .num 0)]]) = [] ∧
    (intersectDates ⟨fun _ => .nan, fun _ => "", fun _ _ => ""⟩
        (mapPointsToMap ⟨fun _ => .nan, fun _ => "", fun _ _ => ""⟩
          (some [some [("date", .str "2024-01-01"), ("close", .num 1)]]))
        (mapPointsToMap ⟨fun _ => .nan, fun _ => "", fun _ _ => ""⟩
          (some [some [("date", .str "2024-01-01"), ("close", .num 0)]]))).length = 1 := by
  constructor <;>
    simp [buildPremiumSeries, intersectDates, mapPointsToMap, mapPointsToMapStep, getProp,
      List.lookup, toNumber, JSVal.truthy, JSVal.isNullish, mapSet, defaultSort, mapKeys, mapHas,
      premiumAt, mapGet]

/-- C15 (amended): the premium series has exactly one position per common
date that passes the guard (both values finite, gold not zero), in the
ascending order of the common dates; a date failing the guard is dropped, so
the length is at most the number of common dates and every position holds a
number, finite or an infinity when the quotient overflows, never `null`. -/
theorem buildPremiumSeries_positions (B : Builtins)
    (tokenPricePoints goldSpotPoints : Option (List (Option JSObj))) :
    (buildPremiumSeries B tokenPricePoints goldSpotPoints).map (fun p => p.date) =
      (intersectDates B (mapPointsToMap B tokenPricePoints)
          (mapPointsToMap B goldSpotPoints)).filter
        (fun d => (premiumAt (mapPointsToMap B tokenPricePoints)
          (mapPointsToMap B goldSpotPoints) d).isSome) ∧
    (buildPremiumSeries B tokenPricePoints goldSpotPoints).length ≤
      (mapKeys (mapPointsToMap B tokenPricePoints)).countP
        (fun d => decide (d ∈ mapKeys (mapPointsToMap B goldSpotPoints))) ∧
    (∀ p ∈ buildPremiumSeries B tokenPricePoints goldSpotPoints,
      p.close.isFinite = true ∨ p.close = .posInf ∨ p.close = .negInf) ∧
    ((∀ k ∈ mapKeys (mapPointsToMap B tokenPricePoints), ∃ s, k = JSVal.str s) →
      StrictlyAscending
        ((buildPremiumSeries B tokenPricePoints goldSpotPoints).map (fun p => p.date))) := by
  have hdates : (buildPremiumSeries B tokenPricePoints goldSpotPoints).map (fun p => p.date) =
      (intersectDates B (mapPointsToMap B tokenPricePoints)
          (mapPointsToMap B goldSpotPoints)).filter
        (fun d => (premiumAt (mapPointsToMap B tokenPricePoints)
          (mapPointsToMap B goldSpotPoints) d).isSome) :=
    premium_dates_eq_filter _ _ _
  refine ⟨hdates, ?_, ?_, ?_⟩
  · rw [← intersectDates_length B, ← List.length_map _ (fun p : PremiumPoint => p.date), hdates]
    exact List.length_filter_le _ _
  · intro p hp
    obtain ⟨-, -, a, b, -, -, hb0, hc⟩ := (mem_buildPremiumSeries B _ _ p).1 hp
    rw [hc]
    exact premium_value_cases a b hb0
  · intro hstr
    rw [hdates]
    exact List.Pairwise.filter _
      (intersectDates_strictlyAscending B _ _ hstr (mapPointsToMap_keys_nodup B _))

/-! ## Properties of the normalizer: idempotence and key order -/

theorem mapSet_of_not_mem (m : JSMap) (k v : JSVal) (h : k ∉ mapKeys m) :
    mapSet m k v = m ++ [(k, v)] := by
  induction m with
  | nil => rfl
  | cons e rest ih =>
    obtain ⟨k0, v0⟩ := e
    have hk : ¬ k0 = k := by
      intro hk; apply h; simp [mapKeys, hk]
    have hrest : k ∉ mapKeys rest := by
      intro hr; apply h
      simp only [mapKeys, List.map_cons, List.mem_cons] at hr ⊢
      exact Or.inr hr
    simp [mapSet, hk, ih hrest]

theorem toMapStep_entries_valid (B : Builtins) (key : String) (m : JSMap) (p : Option JSObj)
    (hm : ∀ e ∈ m, e.1.truthy = true ∧ e.2.isFinite = true) :
    ∀ e ∈ toMapStep B key m p, e.1.truthy = true ∧ e.2.isFinite = true := by
  intro e he
  unfold toMapStep at he
  by_cases hc : (!(getProp p "date").truthy || !(toNumber B (getProp p key)).isFinite) = true
  · simp only [hc, if_true] at he
    exact hm e he
  · simp only [hc] at he
    rcases mem_mapSet _ _ _ _ he with h | h
    · exact hm e h
    · rw [h]
      have : (getProp p "date").truthy = true ∧
          (toNumber B (getProp p key)).isFinite = true := by simpa using hc
      exact this

theorem toMap_entries_valid (B : Builtins) (points : Option (List (Option JSObj)))
    (key : Option String) :
    ∀ e ∈ toMap B points key, e.1.truthy = true ∧ e.2.isFinite = true := by
  unfold toMap
  generalize (points.getD []) = pts
  have gen : ∀ (m : JSMap), (∀ e ∈ m, e.1.truthy = true ∧ e.2.isFinite = true) →
      ∀ e ∈ pts.foldl (toMapStep B (key.getD "close")) m,
        e.1.truthy = true ∧ e.2.isFinite = true := by
    induction pts with
    | nil => intro m hm; simpa using hm
    | cons p rest ih =>
      intro m hm
      simp only [List.foldl_cons]
      exact ih _ (toMapStep_entries_valid B _ m p hm)
  exact gen [] (by simp)

theorem toMap_mapToPoints_foldl (B : Builtins) (m acc : JSMap)
    (hvalid : ∀ e ∈ m, e.1.truthy = true ∧ e.2.isFinite = true)
    (hnd : (mapKeys m).Nodup) (hdisj : ∀ k ∈ mapKeys m, k ∉ mapKeys acc) :
    (mapToPoints m "value").foldl (toMapStep B "value") acc = acc ++ m := by
  induction m generalizing acc with
  | nil => simp [mapToPoints]
  | cons e rest ih =>
    obtain ⟨k, v⟩ := e
    obtain ⟨hk, hv⟩ := hvalid (k, v) (List.mem_cons_self _ _)
    simp only at hk hv
    obtain ⟨q, rfl⟩ : ∃ q, v = JSVal.num q := by
      cases v <;> simp [JSVal.isFinite] at hv
      exact ⟨_, rfl⟩
    have hknot : k ∉ mapKeys acc := hdisj k (by simp [mapKeys])
    have hstep : toMapStep B "value" acc (some [("date", k), ("value", .num q)]) =
        acc ++ [(k, .num q)] := by
      have h1 : getProp (some [("date", k), ("value", JSVal.num q)]) "date" = k := by
        simp [getProp, List.lookup]
      have h2 : getProp (some [("date", k), ("value", JSVal.num q)]) "value" = .num q := by
        simp [getProp, List.lookup]
      unfold toMapStep
      rw [h1, h2]
      simp [toNumber, hk, JSVal.isFinite, mapSet_of_not_mem acc k _ hknot]
    have hnd' : (mapKeys rest).Nodup ∧ k ∉ mapKeys rest := by
      simp only [mapKeys, List.map_cons, List.nodup_cons] at hnd ⊢
      exact ⟨hnd.2, hnd.1⟩
    simp only [mapToPoints, List.map_cons, List.foldl_cons, hstep]
    have := ih (acc ++ [(k, .num q)])
      (fun e he => hvalid e (List.mem_cons_of_mem _ he)) hnd'.1 (by
        intro k' hk' hin
        simp only [mapKeys, List.map_append, List.mem_append, List.map_cons, List.map_nil,
          List.mem_singleton] at hin
        rcases hin with hin | hin
        · exact hdisj k' (by
            simp only [mapKeys, List.map_cons, List.mem_cons]
            exact Or.inr hk') hin
        · exact hnd'.2 (hin ▸ hk'))
    simp only [mapToPoints] at this
    rw [this]
    simp

/-- C19: normalization is idempotent: the entries of `toMap(x)`, read in
iteration order as points `{ date, value }` and normalized again, give a map
equal to `toMap(x)`: same keys, same values, same order (for every input
`x`, so in particular for well-formed arrays with unique dates). -/
theorem toMap_idempotent (B : Builtins) (points : Option (List (Option JSObj)))
    (key : Option String) :
    toMap B (some (mapToPoints (toMap B points key) "value")) (some "value") =
      toMap B points key := by
  have h := toMap_mapToPoints_foldl B (toMap B points key) []
    (toMap_entries_valid B points key) (toMap_keys_nodup B points key) (by simp [mapKeys])
  simpa [toMap] using h

theorem toMap_keys_foldl (B : Builtins) (key : String) (pts : List (Option JSObj))
    (acc : JSMap)
    (hvalid : ∀ p ∈ pts, (getProp p "date").truthy = true ∧
      (toNumber B (getProp p key)).isFinite = true)
    (hnd : (pts.map (fun p => getProp p "date")).Nodup)
    (hdisj : ∀ p ∈ pts, getProp p "date" ∉ mapKeys acc) :
    mapKeys (pts.foldl (toMapStep B key) acc) =
      mapKeys acc ++ pts.map (fun p => getProp p "date") := by
  induction pts generalizing acc with
  | nil => simp
  | cons p rest ih =>
    obtain ⟨hd, hv⟩ := hvalid p (List.mem_cons_self _ _)
    have hknot := hdisj p (List.mem_cons_self _ _)
    have hstep : toMapStep B key acc p =
        acc ++ [(getProp p "date", toNumber B (getProp p key))] := by
      unfold toMapStep
      simp [hd, hv, mapSet_of_not_mem acc _ _ hknot]
    have hnd' : getProp p "date" ∉ rest.map (fun p => getProp p "date") ∧
        (rest.map (fun p => getProp p "date")).Nodup := by
      rw [List.map_cons] at hnd
      exact List.nodup_cons.1 hnd
    simp only [List.foldl_cons, hstep]
    rw [ih (acc ++ [(getProp p "date", toNumber B (getProp p key))])
      (fun q hq => hvalid q (List.mem_cons_of_mem _ hq)) hnd'.2 (by
        intro q hq hin
        simp only [mapKeys, List.map_append, List.mem_append, List.map_cons, List.map_nil,
          List.mem_singleton] at hin
        rcases hin with hin | hin
        · exact hdisj q (List.mem_cons_of_mem _ hq) hin
        · exact hnd'.1 (List.mem_map.2 ⟨q, hq, hin⟩))]
    simp [mapKeys]

/-- C20 (counterexample): for the two well-formed points dated `2024-01-02`
then `2024-01-01`, the keys of `toMap` come out in input order, which is not
ascending: `toMap` does not sort. -/
theorem toMap_keys_not_sorted :
    mapKeys (toMap ⟨fun _ => .nan, fun _ => "", fun _ _ => ""⟩
        (some [some [("date", .str "2024-01-02"), ("close", .num 1)],
               some [("date", .str "2024-01-01"), ("close", .num 2)]]) none) =
      [.str "2024-01-02", .str "2024-01-01"] ∧
    ¬ StrictlyAscending (mapKeys (toMap ⟨fun _ => .nan, fun _ => "", fun _ _ => ""⟩
        (some [some [("date", .str "2024-01-02"), ("close", .num 1)],
               some [("date", .str "2024-01-01"), ("close", .num 2)]]) none)) := by
  have hk : mapKeys (toMap ⟨fun _ => .nan, fun _ => "", fun _ _ => ""⟩
        (some [some [("date", .str "2024-01-02"), ("close", .num 1)],
               some [("date", .str "2024-01-01"), ("close", .num 2)]]) none) =
      [.str "2024-01-02", .str "2024-01-01"] := by
    simp [toMap, toMapStep, getProp, List.lookup, toNumber, JSVal.truthy, JSVal.isFinite,
      mapSet, mapKeys]
  refine ⟨hk, ?_⟩
  rw [hk]
  unfold StrictlyAscending
  intro h
  have h2 := List.rel_of_pairwise_cons h (List.mem_singleton_self _)
  obtain ⟨s, t, hs, ht, hlt⟩ := h2
  injection hs with hs
  injection ht with ht
  subst hs; subst ht
  revert hlt
  decide

/-- C20 (amended): for a well-formed point array with unique dates the keys
of `toMap(points)`, in iteration order, are the input dates in input order;
they are strictly ascending exactly when the input is given in strictly
ascending date order. -/
theorem toMap_keys_input_order (B : Builtins) (points : List (Option JSObj))
    (key : Option String)
    (hvalid : ∀ p ∈ points, (getProp p "date").truthy = true ∧
      (toNumber B (getProp p (key.getD "close"))).isFinite = true)
    (hnd : (points.map (fun p => getProp p "date")).Nodup) :
    mapKeys (toMap B (some points) key) = points.map (fun p => getProp p "date") ∧
    (StrictlyAscending (mapKeys (toMap B (some points) key)) ↔
      StrictlyAscending (points.map (fun p => getProp p "date"))) := by
  have h : mapKeys (toMap B (some points) key) = points.map (fun p => getProp p "date") := by
    have := toMap_keys_foldl B (key.getD "close") points [] hvalid hnd (by simp [mapKeys])
    simpa [toMap, mapKeys] using this
  exact ⟨h, by rw [h]⟩

/-- Witness for C20 (amended) on two points given in descending order. -/
theorem toMap_keys_input_order_witness :
    mapKeys (toMap ⟨fun _ => .nan, fun _ => "", fun _ _ => ""⟩
        (some [some [("date", .str "2024-01-02"), ("close", .num 1)],
               some [("date", .str "2024-01-01"), ("close", .num 2)]]) none) =
      [some [("date", JSVal.str "2024-01-02"), ("close", JSVal.num 1)],
        some [("date", JSVal.str "2024-01-01"), ("close", JSVal.num 2)]].map
        (fun p => getProp p "date") :=
  (toMap_keys_input_order ⟨fun _ => .nan, fun _ => "", fun _ _ => ""⟩
    [some [("date", .str "2024-01-02"), ("close", .num 1)],
     some [("date", .str "2024-01-01"), ("close", .num 2)]] none
    (by simp [getProp, List.lookup, toNumber, JSVal.truthy, JSVal.isFinite])
    (by simp [getProp, List.lookup])).1

/-! ## Insertion of a gap -/

theorem getD_insert_lt (pre post : List JSVal) (w : JSVal) (j : Nat) (h : j < pre.length) :
    (pre ++ w :: post).getD j .undefined = (pre ++ post).getD j .undefined := by
  rw [List.getD_eq_getElem?_getD, List.getD_eq_getElem?_getD,
    List.getElem?_append_left h, List.getElem?_append_left h]

theorem getD_insert_eq (pre post : List JSVal) (w : JSVal) :
    (pre ++ w :: post).getD pre.length .undefined = w := by
  rw [List.getD_eq_getElem?_getD, List.getElem?_append_right (le_refl _)]
  simp

theorem getD_insert_gt (pre post : List JSVal) (w : JSVal) (j : Nat) (h : pre.length ≤ j) :
    (pre ++ w :: post).getD (j + 1) .undefined = (pre ++ post).getD j .undefined := by
  rw [List.getD_eq_getElem?_getD, List.getD_eq_getElem?_getD,
    List.getElem?_append_right (by omega), List.getElem?_append_right h]
  have : j + 1 - pre.length = (j - pre.length) + 1 := by omega
  rw [this]
  simp

theorem getD_insert_shift (pre post : List JSVal) (w : JSVal) (j : Nat) :
    (pre ++ w :: post).getD (if j < pre.length then j else j + 1) .undefined =
      (pre ++ post).getD j .undefined := by
  by_cases h : j < pre.length
  · simp only [h, if_true]; exact getD_insert_lt pre post w j h
  · simp only [h, if_false]; exact getD_insert_gt pre post w j (by omega)

theorem lastFinite_lt (rs : List JSVal) (k last : Nat) (h : lastFinite rs k = some last) :
    last < k := by
  have hs := lastFinite_spec rs k
  rw [h] at hs
  exact hs.1

theorem lastFinite_insert_below (pre post : List JSVal) (w : JSVal) (k : Nat)
    (hk : k ≤ pre.length) :
    lastFinite (pre ++ w :: post) k = lastFinite (pre ++ post) k := by
  induction k with
  | zero => rfl
  | succ k ih =>
    simp only [lastFinite, getD_insert_lt pre post w k (by omega), ih (by omega)]

theorem lastFinite_insert_above (pre post : List JSVal) (w : JSVal)
    (hw : w.isFinite = false) (k : Nat) (hk : pre.length ≤ k) :
    lastFinite (pre ++ w :: post) (k + 1) =
      (lastFinite (pre ++ post) k).map (fun j => if j < pre.length then j else j + 1) := by
  induction k, hk using Nat.le_induction with
  | base =>
    simp only [lastFinite, getD_insert_eq, hw, Bool.not_false, if_true]
    rw [lastFinite_insert_below pre post w pre.length (le_refl _)]
    cases hl : lastFinite (pre ++ post) pre.length with
    | none => rfl
    | some last =>
      have := lastFinite_lt _ _ _ hl
      simp [this]
  | succ k hk ih =>
    by_cases hfin : ((pre ++ post).getD k .undefined).isFinite = true
    · have h1 : lastFinite (pre ++ w :: post) (k + 1 + 1) = some (k + 1) := by
        simp only [lastFinite, getD_insert_gt pre post w k hk, hfin]
        rfl
      have h2 : lastFinite (pre ++ post) (k + 1) = some k := by
        simp only [lastFinite, hfin]
        rfl
      rw [h1, h2]
      have : ¬ k < pre.length := by omega
      simp [this]
    · have hfin' : ((pre ++ post).getD k .undefined).isFinite = false := by simpa using hfin
      have h1 : lastFinite (pre ++ w :: post) (k + 1 + 1) =
          lastFinite (pre ++ w :: post) (k + 1) := by
        simp only [lastFinite, getD_insert_gt pre post w k hk, hfin']
        rfl
      have h2 : lastFinite (pre ++ post) (k + 1) = lastFinite (pre ++ post) k := by
        simp only [lastFinite, hfin']
        rfl
      rw [h1, h2, ih]

theorem regimeLoop_insert_below (pre post : List JSVal) (w threshold : JSVal) (isAbove : Bool)
    (k : Nat) (hk : k ≤ pre.length) (st : Nat × Nat) :
    regimeLoop (pre ++ w :: post) threshold isAbove k st =
      regimeLoop (pre ++ post) threshold isAbove k st := by
  induction k generalizing st with
  | zero => rfl
  | succ k ih =>
    simp only [regimeLoop, getD_insert_lt pre post w k (by omega), ih (by omega)]

theorem regimeLoop_start (series : List JSVal) (threshold : JSVal) (isAbove : Bool)
    (k c : Nat) :
    (∀ s, regimeLoop series threshold isAbove k (c, s) = (c, s)) ∨
    (∃ n m, m < k ∧ ∀ s, regimeLoop series threshold isAbove k (c, s) = (n, m)) := by
  induction k generalizing c with
  | zero => left; intro s; rfl
  | succ k ih =>
    by_cases hfin : (series.getD k .undefined).isFinite = true
    · by_cases hok : regimeOk threshold isAbove (series.getD k .undefined) = true
      · right
        have hloop : ∀ s, regimeLoop series threshold isAbove (k + 1) (c, s) =
            regimeLoop series threshold isAbove k (c + 1, k) := by
          intro s
          simp [regimeLoop, hfin, hok, -List.getD_eq_getElem?_getD]
        rcases ih (c + 1) with h | ⟨n, m, hm, h⟩
        · exact ⟨c + 1, k, by omega, fun s => by rw [hloop, h]⟩
        · exact ⟨n, m, by omega, fun s => by rw [hloop, h]⟩
      · left
        intro s
        have hok' : regimeOk threshold isAbove (series.getD k .undefined) = false := by
          simpa using hok
        simp [regimeLoop, hfin, hok', -List.getD_eq_getElem?_getD]
    · have hfin' : (series.getD k .undefined).isFinite = false := by simpa using hfin
      have hloop : ∀ s, regimeLoop series threshold isAbove (k + 1) (c, s) =
          regimeLoop series threshold isAbove k (c, s) := by
        intro s
        simp [regimeLoop, hfin', -List.getD_eq_getElem?_getD]
      rcases ih c with h | ⟨n, m, hm, h⟩
      · left; intro s; rw [hloop, h]
      · right; exact ⟨n, m, by omega, fun s => by rw [hloop, h]⟩

theorem regimeLoop_insert_above (pre post : List JSVal) (w threshold : JSVal)
    (isAbove : Bool) (hw : w.isFinite = false) (k : Nat) (hk : pre.length ≤ k) (c s : Nat) :
    regimeLoop (pre ++ w :: post) threshold isAbove (k + 1)
        (c, if s < pre.length then s else s + 1) =
      ((regimeLoop (pre ++ post) threshold isAbove k (c, s)).1,
        if (regimeLoop (pre ++ post) threshold isAbove k (c, s)).2 < pre.length
        then (regimeLoop (pre ++ post) threshold isAbove k (c, s)).2
        else (regimeLoop (pre ++ post) threshold isAbove k (c, s)).2 + 1) := by
  induction k, hk using Nat.le_induction generalizing c s with
  | base =>
    have h1 : regimeLoop (pre ++ w :: post) threshold isAbove (pre.length + 1)
        (c, if s < pre.length then s else s + 1) =
        regimeLoop (pre ++ post) threshold isAbove pre.length
          (c, if s < pre.length then s else s + 1) := by
      rw [← regimeLoop_insert_below pre post w threshold isAbove pre.length (le_refl _)]
      simp [regimeLoop, getD_insert_eq, hw, -List.getD_eq_getElem?_getD]
    rw [h1]
    rcases regimeLoop_start (pre ++ post) threshold isAbove pre.length c with h | ⟨n, m, hm, h⟩
    · rw [h, h]
    · rw [h, h]; simp [hm]
  | succ k hk ih =>
    have hget := getD_insert_gt pre post w k hk
    by_cases hfin : ((pre ++ post).getD k .undefined).isFinite = true
    · by_cases hok : regimeOk threshold isAbove ((pre ++ post).getD k .undefined) = true
      · have h1 : regimeLoop (pre ++ w :: post) threshold isAbove (k + 1 + 1)
            (c, if s < pre.length then s else s + 1) =
            regimeLoop (pre ++ w :: post) threshold isAbove (k + 1) (c + 1, k + 1) := by
          simp [regimeLoop, hget, hfin, hok, -List.getD_eq_getElem?_getD]
        have h2 : regimeLoop (pre ++ post) threshold isAbove (k + 1) (c, s) =
            regimeLoop (pre ++ post) threshold isAbove k (c + 1, k) := by
          simp [regimeLoop, hfin, hok, -List.getD_eq_getElem?_getD]
        have hk' : ¬ k < pre.length := by omega
        have := ih (c + 1) k
        simp only [hk', if_false] at this
        rw [h1, h2, this]
      · have hok' : regimeOk threshold isAbove ((pre ++ post).getD k .undefined) = false := by
          simpa using hok
        have h1 : regimeLoop (pre ++ w :: post) threshold isAbove (k + 1 + 1)
            (c, if s < pre.length then s else s + 1) =
            (c, if s < pre.length then s else s + 1) := by
          simp [regimeLoop, hget, hfin, hok', -List.getD_eq_getElem?_getD]
        have h2 : regimeLoop (pre ++ post) threshold isAbove (k + 1) (c, s) = (c, s) := by
          simp [regimeLoop, hfin, hok', -List.getD_eq_getElem?_getD]
        rw [h1, h2]
    · have hfin' : ((pre ++ post).getD k .undefined).isFinite = false := by simpa using hfin
      have h1 : regimeLoop (pre ++ w :: post) threshold isAbove (k + 1 + 1)
          (c, if s < pre.length then s else s + 1) =
          regimeLoop (pre ++ w :: post) threshold isAbove (k + 1)
            (c, if s < pre.length then s else s + 1) := by
        simp [regimeLoop, hget, hfin', -List.getD_eq_getElem?_getD]
      have h2 : regimeLoop (pre ++ post) threshold isAbove (k + 1) (c, s) =
          regimeLoop (pre ++ post) threshold isAbove k (c, s) := by
        simp [regimeLoop, hfin', -List.getD_eq_getElem?_getD]
      rw [h1, h2, ih]

theorem regimeLoop_insert_state (pre post : List JSVal) (w threshold : JSVal)
    (isAbove : Bool) (hw : w.isFinite = false) (last : Nat) :
    regimeLoop (pre ++ w :: post) threshold isAbove
        ((if last < pre.length then last else last + 1) + 1)
        (0, if last < pre.length then last else last + 1) =
      ((regimeLoop (pre ++ post) threshold isAbove (last + 1) (0, last)).1,
        if (regimeLoop (pre ++ post) threshold isAbove (last + 1) (0, last)).2 < pre.length
        then (regimeLoop (pre ++ post) threshold isAbove (last + 1) (0, last)).2
        else (regimeLoop (pre ++ post) threshold isAbove (last + 1) (0, last)).2 + 1) := by
  by_cases h : last < pre.length
  · simp only [h, if_true]
    rw [regimeLoop_insert_below pre post w threshold isAbove (last + 1) (by omega)]
    rcases regimeLoop_start (pre ++ post) threshold isAbove (last + 1) 0 with hs | ⟨n, m, hm, hs⟩
    · rw [hs]; simp [h]
    · rw [hs]
      have : m < pre.length := by omega
      simp [this]
  · have := regimeLoop_insert_above pre post w threshold isAbove hw (last + 1) (by omega) 0 last
    simp only [h, if_false] at this ⊢
    exact this

theorem timeInRegime_of_last (ds ss : List JSVal) (threshold : JSVal) (last : Nat)
    (hlen : ds.length = ss.length) (hthr : threshold.isFinite = true)
    (hl : lastFinite ss ss.length = some last) :
    timeInRegime (some ds) (some ss) threshold =
      some { startDate := ds.getD (regimeLoop ss threshold
                 (numGe (ss.getD last .undefined) threshold) (last + 1) (0, last)).2 .undefined
             days := (regimeLoop ss threshold
                 (numGe (ss.getD last .undefined) threshold) (last + 1) (0, last)).1
             direction := if numGe (ss.getD last .undefined) threshold = true
               then "above" else "below" } := by
  have hlt := lastFinite_lt _ _ _ hl
  have hne : ss.length ≠ 0 := by omega
  simp only [timeInRegime, hlen, hl, hthr]
  simp [hne]

theorem timeInRegime_none_of (ds ss : List JSVal) (threshold : JSVal)
    (h : ds.length ≠ ss.length ∨ threshold.isFinite = false ∨
      lastFinite ss ss.length = none) :
    timeInRegime (some ds) (some ss) threshold = none := by
  rcases h with h | h | h
  · simp [timeInRegime, h]
  · simp [timeInRegime, h]
  · simp only [timeInRegime, h]
    split_ifs <;> rfl

theorem timeInRegime_insert (dpre dpost pre post : List JSVal) (e w threshold : JSVal)
    (hpos : dpre.length = pre.length) (hw : w.isFinite = false) :
    timeInRegime (some (dpre ++ e :: dpost)) (some (pre ++ w :: post)) threshold =
      timeInRegime (some (dpre ++ dpost)) (some (pre ++ post)) threshold := by
  have hS : (pre ++ w :: post).length = (pre ++ post).length + 1 := by
    simp only [List.length_append, List.length_cons]; omega
  have hD : (dpre ++ e :: dpost).length = (dpre ++ dpost).length + 1 := by
    simp only [List.length_append, List.length_cons]; omega
  have hlast := lastFinite_insert_above pre post w hw (pre ++ post).length
    (by simp only [List.length_append]; omega)
  rw [← hS] at hlast
  by_cases hlen : (dpre ++ dpost).length = (pre ++ post).length
  · have hlen' : (dpre ++ e :: dpost).length = (pre ++ w :: post).length := by
      rw [hD, hS, hlen]
    by_cases hthr : threshold.isFinite = true
    · cases hl : lastFinite (pre ++ post) (pre ++ post).length with
      | none =>
        rw [hl] at hlast
        rw [timeInRegime_none_of _ _ _ (Or.inr (Or.inr hl)),
          timeInRegime_none_of _ _ _ (Or.inr (Or.inr hlast))]
      | some last =>
        rw [hl] at hlast
        have hstate := regimeLoop_insert_state pre post w threshold
          (numGe ((pre ++ post).getD last .undefined) threshold) hw last
        have hcur := getD_insert_shift pre post w last
        have hdate := getD_insert_shift dpre dpost e
          (regimeLoop (pre ++ post) threshold
            (numGe ((pre ++ post).getD last .undefined) threshold) (last + 1) (0, last)).2
        rw [hpos] at hdate
        rw [timeInRegime_of_last _ _ _ _ hlen hthr hl,
          timeInRegime_of_last _ _ _ _ hlen' hthr hlast, hcur, hstate, hdate]
    · have hthr' : threshold.isFinite = false := by simpa using hthr
      rw [timeInRegime_none_of _ _ _ (Or.inr (Or.inl hthr')),
        timeInRegime_none_of _ _ _ (Or.inr (Or.inl hthr'))]
  · have hlen' : (dpre ++ e :: dpost).length ≠ (pre ++ w :: post).length := by
      rw [hD, hS]; omega
    rw [timeInRegime_none_of _ _ _ (Or.inl hlen), timeInRegime_none_of _ _ _ (Or.inl hlen')]

theorem findMinMaxLoop_congr (dts dts2 : List JSVal) (series : List JSVal) (j j2 : Nat)
    (mn mx : Extreme)
    (h : ∀ n, n < series.length → dts.getD (j + n) .undefined = dts2.getD (j2 + n) .undefined) :
    findMinMaxLoop dts series j mn mx = findMinMaxLoop dts2 series j2 mn mx := by
  induction series generalizing j j2 mn mx with
  | nil => rfl
  | cons v rest ih =>
    have h0 : dts.getD j .undefined = dts2.getD j2 .undefined := by
      simpa using h 0 (by simp)
    have hrest : ∀ n, n < rest.length →
        dts.getD (j + 1 + n) .undefined = dts2.getD (j2 + 1 + n) .undefined := by
      intro n hn
      have := h (n + 1) (by simp; omega)
      rw [show j + (n + 1) = j + 1 + n by omega, show j2 + (n + 1) = j2 + 1 + n by omega] at this
      exact this
    simp only [findMinMaxLoop, h0]
    split
    · exact ih _ _ _ _ hrest
    · exact ih _ _ _ _ hrest

theorem findMinMaxLoop_append (dts a b : List JSVal) (j : Nat) (mn mx : Extreme) :
    findMinMaxLoop dts (a ++ b) j mn mx =
      findMinMaxLoop dts b (j + a.length) (findMinMaxLoop dts a j mn mx).1
        (findMinMaxLoop dts a j mn mx).2 := by
  induction a generalizing j mn mx with
  | nil => simp [findMinMaxLoop]
  | cons v rest ih =>
    simp only [List.cons_append, findMinMaxLoop, List.length_cons]
    split
    · rw [List.append_eq, ih]; congr 1; omega
    · rw [List.append_eq, ih]; congr 1; omega

theorem findMinMax_insert (dpre dpost pre post : List JSVal) (e w : JSVal)
    (hpos : dpre.length = pre.length) (hw : w.isFinite = false) :
    findMinMax (dpre ++ e :: dpost) (pre ++ w :: post) =
      findMinMax (dpre ++ dpost) (pre ++ post) := by
  have hloop : ∀ mn mx, findMinMaxLoop (dpre ++ e :: dpost) (pre ++ w :: post) 0 mn mx =
      findMinMaxLoop (dpre ++ dpost) (pre ++ post) 0 mn mx := by
    intro mn mx
    rw [findMinMaxLoop_append, findMinMaxLoop_append]
    have h1 : findMinMaxLoop (dpre ++ e :: dpost) pre 0 mn mx =
        findMinMaxLoop (dpre ++ dpost) pre 0 mn mx := by
      apply findMinMaxLoop_congr
      intro n hn
      simp only [Nat.zero_add]
      exact getD_insert_lt dpre dpost e n (by omega)
    rw [h1]
    simp only [findMinMaxLoop, hw, Bool.not_false, if_true, Nat.zero_add]
    apply findMinMaxLoop_congr
    intro n hn
    rw [show pre.length + 1 + n = (pre.length + n) + 1 by omega]
    exact getD_insert_gt dpre dpost e (pre.length + n) (by omega)
  simp only [findMinMax, hloop]

theorem filter_isFinite_insert (pre post : List JSVal) (w : JSVal) (hw : w.isFinite = false) :
    (pre ++ w :: post).filter JSVal.isFinite = (pre ++ post).filter JSVal.isFinite := by
  simp [List.filter_append, List.filter, hw]

theorem computeRatioIndicators_none (B : Builtins) (ds rs : List JSVal)
    (h : ds.length ≠ rs.length ∨ lastFinite rs rs.length = none) :
    computeRatioIndicators B (some ds) (some rs) = .ok none := by
  rcases h with h | h
  · simp [computeRatioIndicators, h]
  · simp only [computeRatioIndicators, h]
    split <;> rfl

/-- C16: inserting one position with a non-finite value (and any string date)
at the same index of both arrays leaves the result of
`computeRatioIndicators` unchanged in latestValue, latestDate, median,
percentile, timeInRegime and historical min/max with their dates (startYear
apart), and leaves a `null` result `null`. -/
theorem computeRatioIndicators_gap_insensitive (B : Builtins)
    (dpre dpost pre post : List JSVal) (e w : JSVal)
    (hpos : dpre.length = pre.length) (hw : w.isFinite = false)
    (hstr : ∀ d ∈ dpre ++ e :: dpost, ∃ s, d = JSVal.str s) :
    (computeRatioIndicators B (some (dpre ++ dpost)) (some (pre ++ post)) = .ok none ∧
      computeRatioIndicators B (some (dpre ++ e :: dpost)) (some (pre ++ w :: post)) =
        .ok none) ∨
    (∃ r r2 : IndicatorRecord,
      computeRatioIndicators B (some (dpre ++ dpost)) (some (pre ++ post)) = .ok (some r) ∧
      computeRatioIndicators B (some (dpre ++ e :: dpost)) (some (pre ++ w :: post)) =
        .ok (some r2) ∧
      r2.latestValue = r.latestValue ∧ r2.latestDate = r.latestDate ∧
      r2.median = r.median ∧ r2.percentile = r.percentile ∧
      r2.timeInRegime = r.timeInRegime ∧ r2.historical = r.historical) := by
  have hS : (pre ++ w :: post).length = (pre ++ post).length + 1 := by
    simp only [List.length_append, List.length_cons]; omega
  have hD : (dpre ++ e :: dpost).length = (dpre ++ dpost).length + 1 := by
    simp only [List.length_append, List.length_cons]; omega
  have hlast := lastFinite_insert_above pre post w hw (pre ++ post).length
    (by simp only [List.length_append]; omega)
  rw [← hS] at hlast
  by_cases hlen : (dpre ++ dpost).length = (pre ++ post).length
  · have hlen2 : (dpre ++ e :: dpost).length = (pre ++ w :: post).length := by
      rw [hD, hS, hlen]
    cases hl : lastFinite (pre ++ post) (pre ++ post).length with
    | none =>
      rw [hl] at hlast
      exact Or.inl ⟨computeRatioIndicators_none B _ _ (Or.inr hl),
        computeRatioIndicators_none B _ _ (Or.inr hlast)⟩
    | some last =>
      rw [hl] at hlast
      simp only [Option.map_some'] at hlast
      right
      have hlt := lastFinite_lt _ _ _ hl
      have hne : pre ++ post ≠ [] := by
        intro h0; rw [h0] at hlt; simp at hlt
      have hne2 : pre ++ w :: post ≠ [] := by simp
      have hdne : dpre ++ dpost ≠ [] := by
        intro h0; rw [h0] at hlen
        exact hne (List.length_eq_zero.1 hlen.symm)
      have hdne2 : dpre ++ e :: dpost ≠ [] := by simp
      have hstr1 : ∀ d ∈ dpre ++ dpost, ∃ s, d = JSVal.str s := by
        intro d hd
        apply hstr d
        rcases List.mem_append.1 hd with h | h
        · exact List.mem_append_left _ h
        · exact List.mem_append_right _ (List.mem_cons_of_mem _ h)
      obtain ⟨s1, hs1⟩ := getD_zero_str _ hdne hstr1
      obtain ⟨sy1, hsy1⟩ := startYearOf_str B s1
      rw [← hs1] at hsy1
      obtain ⟨s2, hs2⟩ := getD_zero_str _ hdne2 hstr
      obtain ⟨sy2, hsy2⟩ := startYearOf_str B s2
      rw [← hs2] at hsy2
      have hcur := getD_insert_shift pre post w last
      have hdate := getD_insert_shift dpre dpost e last
      rw [hpos] at hdate
      have hfil := filter_isFinite_insert pre post w hw
      refine ⟨_, _, computeRatioIndicators_ok B _ _ last sy1 hlen hne hl hsy1,
        computeRatioIndicators_ok B _ _ _ sy2 hlen2 hne2 hlast hsy2, ?_, ?_, ?_, ?_, ?_, ?_⟩
      · exact hcur
      · exact hdate
      · dsimp only
        rw [hfil]
      · dsimp only
        rw [hfil, hcur]
      · dsimp only
        rw [hfil]
        exact timeInRegime_insert dpre dpost pre post e w _ hpos hw
      · exact findMinMax_insert dpre dpost pre post e w hpos hw
  · have hlen2 : (dpre ++ e :: dpost).length ≠ (pre ++ w :: post).length := by
      rw [hD, hS]; omega
    exact Or.inl ⟨computeRatioIndicators_none B _ _ (Or.inl hlen),
      computeRatioIndicators_none B _ _ (Or.inl hlen2)⟩

/-- Witness for C16: a `null` gap inserted at index 1 of `[1, 3]`. -/
theorem computeRatioIndicators_gap_insensitive_witness :
    (computeRatioIndicators ⟨fun _ => .nan, fun _ => "", fun _ _ => ""⟩
        (some ([.str "2024-01-01"] ++ [.str "2024-01-03"]))
        (some ([.num 1] ++ [.num 3])) = .ok none ∧
      computeRatioIndicators ⟨fun _ => .nan, fun _ => "", fun _ _ => ""⟩
        (some ([.str "2024-01-01"] ++ .str "2024-01-02" :: [.str "2024-01-03"]))
        (some ([.num 1] ++ .null :: [.num 3])) = .ok none) ∨
    (∃ r r2 : IndicatorRecord,
      computeRatioIndicators ⟨fun _ => .nan, fun _ => "", fun _ _ => ""⟩
        (some ([.str "2024-01-01"] ++ [.str "2024-01-03"]))
        (some ([.num 1] ++ [.num 3])) = .ok (some r) ∧
      computeRatioIndicators ⟨fun _ => .nan, fun _ => "", fun _ _ => ""⟩
        (some ([.str "2024-01-01"] ++ .str "2024-01-02" :: [.str "2024-01-03"]))
        (some ([.num 1] ++ .null :: [.num 3])) = .ok (some r2) ∧
      r2.latestValue = r.latestValue ∧ r2.latestDate = r.latestDate ∧
      r2.median = r.median ∧ r2.percentile = r.percentile ∧
      r2.timeInRegime = r.timeInRegime ∧ r2.historical = r.historical) :=
  computeRatioIndicators_gap_insensitive ⟨fun _ => .nan, fun _ => "", fun _ _ => ""⟩
    [.str "2024-01-01"] [.str "2024-01-03"] [.num 1] [.num 3] (.str "2024-01-02") .null
    rfl rfl (by simp)

/-! ## Further properties of the percentile and of the record -/

theorem countP_lt_mono (l : List ℚ) (x y : ℚ) (hxy : x < y) :
    l.countP (fun v => decide (v < x)) + l.countP (fun v => decide (v = x)) ≤
      l.countP (fun v => decide (v < y)) := by
  induction l with
  | nil => simp
  | cons a rest ih =>
    simp only [List.countP_cons]
    by_cases h1 : a < x
    · have h2 : ¬ a = x := ne_of_lt h1
      have h3 : a < y := lt_trans h1 hxy
      simp [h1, h2, h3]; omega
    · by_cases h2 : a = x
      · have h3 : a < y := by rw [h2]; exact hxy
        simp [h1, h2, h3, hxy]; omega
      · by_cases h3 : a < y
        · simp [h1, h2, h3]; omega
        · simp [h1, h2, h3]; omega

theorem percentile_num_of_finite (values : List JSVal) (x : ℚ)
    (hfin : ∃ v ∈ values, v.isFinite = true) :
    percentile (some values) (.num x) =
      .num (roundNearest (roundNearest
        ((((finiteEntries values).countP (fun v => decide (v < x)) : ℚ)
          + ((finiteEntries values).countP (fun v => decide (v = x)) : ℚ) / 2)
          / ((finiteEntries values).length : ℚ)) * 100)) ∧
    0 < (finiteEntries values).length := by
  obtain ⟨v, hv, hvfin⟩ := hfin
  obtain ⟨q, rfl⟩ : ∃ q, v = JSVal.num q := by
    cases v <;> simp [JSVal.isFinite] at hvfin
    exact ⟨_, rfl⟩
  have hmem := (mem_finiteEntries_iff values q).2 hv
  obtain ⟨p, hp, hpe, -, -⟩ := percentile_num_value values x (List.ne_nil_of_mem hmem)
  exact ⟨by rw [hp, hpe], List.length_pos_of_mem hmem⟩

/-- C26: `percentile` is monotone in its query value: for a list with a
finite entry and finite `x <= y`, both percentiles are numbers and
`percentile(values, x) <= percentile(values, y)`. -/
theorem percentile_monotone (values : List JSVal) (x y : ℚ)
    (hfin : ∃ v ∈ values, v.isFinite = true) (hxy : x ≤ y) :
    ∃ p q : ℚ, percentile (some values) (.num x) = .num p ∧
      percentile (some values) (.num y) = .num q ∧ p ≤ q := by
  obtain ⟨hx, hn⟩ := percentile_num_of_finite values x hfin
  obtain ⟨hy, -⟩ := percentile_num_of_finite values y hfin
  refine ⟨_, _, hx, hy, ?_⟩
  have hnpos : (0 : ℚ) < ((finiteEntries values).length : ℚ) := by exact_mod_cast hn
  rcases eq_or_lt_of_le hxy with heq | hlt
  · subst heq; exact le_refl _
  · have hc := countP_lt_mono (finiteEntries values) x y hlt
    have hcq : (((finiteEntries values).countP (fun v => decide (v < x)) : ℚ)
        + ((finiteEntries values).countP (fun v => decide (v = x)) : ℚ))
        ≤ ((finiteEntries values).countP (fun v => decide (v < y)) : ℚ) := by
      exact_mod_cast hc
    have h1 : (0 : ℚ) ≤ ((finiteEntries values).countP (fun v => decide (v = x)) : ℚ) :=
      Nat.cast_nonneg _
    have h2 : (0 : ℚ) ≤ ((finiteEntries values).countP (fun v => decide (v = y)) : ℚ) :=
      Nat.cast_nonneg _
    apply roundNearest_mono
    apply mul_le_mul_of_nonneg_right _ (by norm_num)
    apply roundNearest_mono
    apply div_le_div_of_nonneg_right _ hnpos.le
    linarith

/-- Witness for C26 on `[1, 2, 2, 3]` with `x = 2` and `y = 3`. -/
theorem percentile_monotone_witness :
    ∃ p q : ℚ, percentile (some [.num 1, .num 2, .num 2, .num 3]) (.num 2) = .num p ∧
      percentile (some [.num 1, .num 2, .num 2, .num 3]) (.num 3) = .num q ∧ p ≤ q :=
  percentile_monotone [.num 1, .num 2, .num 2, .num 3] 2 3 ⟨.num 1, by simp, rfl⟩ (by norm_num)

theorem finiteEntries_length_le (rs : List JSVal) : (finiteEntries rs).length ≤ rs.length := by
  induction rs with
  | nil => simp [finiteEntries]
  | cons v rest ih =>
    cases v <;> simp only [finiteEntries, List.length_cons] <;> omega

theorem percentile_interior_bounds (n : ℚ) (hn1 : 1 ≤ n) (hn2 : n ≤ 2 ^ 32) :
    0 < roundNearest (roundNearest (1 / 2 / n) * 100) ∧
      roundNearest (roundNearest ((n - 1 / 2) / n) * 100) < 100 := by
  have hnpos : 0 < n := by linarith
  have d1 : roundNearest (2 ^ (-33 : ℤ)) = 2 ^ (-33 : ℤ) :=
    roundNearest_exact _ 1 (-33) (by norm_num) (by norm_num) (by norm_num [abs_of_pos])
  have d2 : roundNearest (2 ^ (-27 : ℤ)) = 2 ^ (-27 : ℤ) :=
    roundNearest_exact _ 1 (-27) (by norm_num) (by norm_num) (by norm_num [abs_of_pos])
  have d3 : roundNearest (1 - 2 ^ (-33 : ℤ)) = 1 - 2 ^ (-33 : ℤ) :=
    roundNearest_exact _ (2 ^ 33 - 1) (-33) (by norm_num) (by norm_num)
      (by norm_num [abs_of_pos])
  have d4 : roundNearest (100 - 2 ^ (-30 : ℤ)) = 100 - 2 ^ (-30 : ℤ) :=
    roundNearest_exact _ (100 * 2 ^ 30 - 1) (-30) (by norm_num) (by norm_num)
      (by norm_num [abs_of_pos])
  have hinv : (2 : ℚ) ^ (-33 : ℤ) ≤ 1 / 2 / n := by
    rw [le_div_iff₀ hnpos]
    have : (2 : ℚ) ^ (-33 : ℤ) * 2 ^ 32 = 1 / 2 := by norm_num
    have h33 : (0 : ℚ) < 2 ^ (-33 : ℤ) := two_zpow_pos _
    nlinarith
  constructor
  · have h1 := roundNearest_mono _ _ hinv
    rw [d1] at h1
    have h2 : (2 : ℚ) ^ (-27 : ℤ) ≤ roundNearest (1 / 2 / n) * 100 := by
      have : (2 : ℚ) ^ (-27 : ℤ) = 2 ^ (-33 : ℤ) * 64 := by norm_num
      have h33 : (0 : ℚ) < 2 ^ (-33 : ℤ) := two_zpow_pos _
      nlinarith
    have h3 := roundNearest_mono _ _ h2
    rw [d2] at h3
    have : (0 : ℚ) < 2 ^ (-27 : ℤ) := two_zpow_pos _
    linarith
  · have hle : (n - 1 / 2) / n ≤ 1 - 2 ^ (-33 : ℤ) := by
      have : (n - 1 / 2) / n = 1 - 1 / 2 / n := by
        field_simp
        ring
      rw [this]
      linarith
    have h1 := roundNearest_mono _ _ hle
    rw [d3] at h1
    have h2 : roundNearest ((n - 1 / 2) / n) * 100 ≤ 100 - 2 ^ (-30 : ℤ) := by
      have : (2 : ℚ) ^ (-30 : ℤ) = 2 ^ (-33 : ℤ) * 8 := by norm_num
      have h33 : (0 : ℚ) < 2 ^ (-33 : ℤ) := two_zpow_pos _
      nlinarith
    have h3 := roundNearest_mono _ _ h2
    rw [d4] at h3
    have : (0 : ℚ) < 2 ^ (-30 : ℤ) := two_zpow_pos _
    linarith

theorem percentile_half : roundNearest (roundNearest (1 / 2) * 100) = 50 := by
  have d1 : roundNearest (1 / 2) = 1 / 2 :=
    roundNearest_exact _ 1 (-1) (by norm_num) (by norm_num) (by norm_num [abs_of_pos])
  have d2 : roundNearest 50 = 50 :=
    roundNearest_exact _ 50 0 (by norm_num) (by norm_num) (by norm_num [abs_of_pos])
  rw [d1]
  norm_num
  exact d2

/-- C25 (counterexample): on the series `[3, 2, 1]` the record holds the
percentile `16.666666666666664`, the double `2345624805922133 / 2^47` that
the code computes as `0.5 / 3 * 100`, and this is below `50 / 3`. -/
theorem percentile_record_below_bound :
    ∃ r : IndicatorRecord,
      computeRatioIndicators ⟨fun _ => .nan, fun _ => "", fun _ _ => ""⟩
        (some [.str "2024-01-01", .str "2024-01-02", .str "2024-01-03"])
        (some [.num 3, .num 2, .num 1]) = .ok (some r) ∧
      r.percentile = .num (2345624805922133 / 2 ^ 47) ∧
      (2345624805922133 / 2 ^ 47 : ℚ) <
        50 / ((finiteEntries [JSVal.num 3, .num 2, .num 1]).length : ℚ) := by
  refine ⟨_, computeRatioIndicators_ok _ _ _ 2 .null rfl (by simp) rfl (by
      simp [startYearOf, takeUnits, toNumber, JSVal.truthy]), ?_, ?_⟩
  · have e1 : roundToDouble (1 / 6) = .num (6004799503160661 / 2 ^ 55) := by
      have := roundToDouble_eval (1 / 6) (-3) 6004799503160661 (by norm_num) (by norm_num)
        (by norm_num) (by norm_num) (by norm_num) (by norm_num)
      rw [this]
      norm_num
    have e2 : roundToDouble (6004799503160661 / 2 ^ 55 * 100) =
        .num (2345624805922133 / 2 ^ 47) := by
      have := roundToDouble_eval (6004799503160661 / 2 ^ 55 * 100) 4 4691249611844266
        (by norm_num) (by norm_num) (by norm_num) (by norm_num) (by norm_num) (by norm_num)
      rw [this]
      norm_num
    have hdiv : jsDiv (.num (1 / 2)) (.num 3) = .num (6004799503160661 / 2 ^ 55) := by
      simp only [jsDiv]
      norm_num
      exact e1
    have hmul : jsMul (.num (6004799503160661 / 2 ^ 55)) (.num 100) =
        .num (2345624805922133 / 2 ^ 47) := by
      simp only [jsMul]
      exact e2
    have hfold : percentile (some ([JSVal.num 3, .num 2, .num 1].filter JSVal.isFinite))
        ([JSVal.num 3, .num 2, .num 1].getD 2 .undefined) =
        jsMul (jsDiv (.num (1 / 2)) (.num 3)) (.num 100) := by
      norm_num [percentile, percentileStep, numLt, strictEq, JSVal.isFinite]
    dsimp only
    rw [hfold, hdiv, hmul]
  · norm_num [finiteEntries]

/-- C25 (amended): in every record returned by `computeRatioIndicators` for
a series of fewer than `2^32` entries (the bound on the length of an array),
the percentile is a number strictly between 0 and 100, and it is exactly 50
when there is a single finite entry; with `n` the number of finite entries
it lies between the values `lo` and `hi` that the code's own formula gives
for `0.5 / n * 100` and `(n - 0.5) / n * 100` in double arithmetic. -/
theorem percentile_record_interior (B : Builtins) (dates ratio : List JSVal)
    (r : IndicatorRecord)
    (h : computeRatioIndicators B (some dates) (some ratio) = .ok (some r))
    (hlen : ratio.length < 2 ^ 32) :
    ∃ q lo hi : ℚ, r.percentile = .num q ∧
      jsMul (jsDiv (.num (1 / 2)) (.num ((finiteEntries ratio).length : ℚ))) (.num 100) =
        .num lo ∧
      jsMul (jsDiv (.num (((finiteEntries ratio).length : ℚ) - 1 / 2))
        (.num ((finiteEntries ratio).length : ℚ))) (.num 100) = .num hi ∧
      lo ≤ q ∧ q ≤ hi ∧ 0 < lo ∧ hi < 100 ∧ 0 < q ∧ q < 100 ∧
      ((finiteEntries ratio).length = 1 → q = 50) := by
  obtain ⟨ds, rs, last, sy, hd, hr0, -, -, hl, -, hr⟩ :=
    computeRatioIndicators_some B _ _ r h
  injection hd with hd
  injection hr0 with hr0
  subst hd; subst hr0
  obtain ⟨cur, hcur, hmem⟩ := lastFinite_getD ratio _ last hl
  have hfin : ∃ v ∈ ratio.filter JSVal.isFinite, v.isFinite = true :=
    ⟨.num cur, List.mem_filter.2 ⟨hmem, rfl⟩, rfl⟩
  obtain ⟨hp, hn⟩ := percentile_num_of_finite (ratio.filter JSVal.isFinite) cur hfin
  rw [finiteEntries_filter] at hp hn
  have hpct : r.percentile = percentile (some (ratio.filter JSVal.isFinite)) (.num cur) := by
    rw [hr, hcur]
  have hle := countP_lt_add_countP_eq_le (finiteEntries ratio) cur
  have heq1 : 1 ≤ (finiteEntries ratio).countP (fun v => decide (v = cur)) := by
    apply List.countP_pos_iff.2
    exact ⟨cur, (mem_finiteEntries_iff ratio cur).2 hmem, by simp⟩
  have hnpos : (0 : ℚ) < ((finiteEntries ratio).length : ℚ) := by exact_mod_cast hn
  have hleq : (((finiteEntries ratio).countP (fun v => decide (v < cur)) : ℚ)
      + ((finiteEntries ratio).countP (fun v => decide (v = cur)) : ℚ))
      ≤ ((finiteEntries ratio).length : ℚ) := by exact_mod_cast hle
  have heq1q : (1 : ℚ) ≤ ((finiteEntries ratio).countP (fun v => decide (v = cur)) : ℚ) := by
    exact_mod_cast heq1
  have hlt0 : (0 : ℚ) ≤ ((finiteEntries ratio).countP (fun v => decide (v < cur)) : ℚ) :=
    Nat.cast_nonneg _
  have hn1 : (1 : ℚ) ≤ ((finiteEntries ratio).length : ℚ) := by exact_mod_cast hn
  have hn2 : ((finiteEntries ratio).length : ℚ) ≤ 2 ^ 32 := by
    have := finiteEntries_length_le ratio
    have h3 : (finiteEntries ratio).length ≤ 2 ^ 32 := by omega
    exact_mod_cast h3
  generalize ((finiteEntries ratio).countP (fun v => decide (v < cur)) : ℚ) = L at *
  generalize ((finiteEntries ratio).countP (fun v => decide (v = cur)) : ℚ) = E at *
  generalize hN : ((finiteEntries ratio).length : ℚ) = n at *
  obtain ⟨rlo, lo, -, hrlo, -, -, hlo, hlor, -, -⟩ :=
    percentile_value (1 / 2) n (by norm_num) (by linarith) hnpos
  obtain ⟨rhi, hi, -, hrhi, -, -, hhi, hhir, -, -⟩ :=
    percentile_value (n - 1 / 2) n (by linarith) (by linarith) hnpos
  obtain ⟨b1, b2⟩ := percentile_interior_bounds n hn1 hn2
  have hqlo : lo ≤ roundNearest (roundNearest ((L + E / 2) / n) * 100) := by
    rw [hlor, hrlo]
    apply roundNearest_mono
    apply mul_le_mul_of_nonneg_right _ (by norm_num)
    apply roundNearest_mono
    apply div_le_div_of_nonneg_right _ hnpos.le
    linarith
  have hqhi : roundNearest (roundNearest ((L + E / 2) / n) * 100) ≤ hi := by
    rw [hhir, hrhi]
    apply roundNearest_mono
    apply mul_le_mul_of_nonneg_right _ (by norm_num)
    apply roundNearest_mono
    apply div_le_div_of_nonneg_right _ hnpos.le
    linarith
  rw [← hrlo, ← hlor] at b1
  rw [← hrhi, ← hhir] at b2
  refine ⟨_, lo, hi, by rw [hpct, hp], hlo, hhi, hqlo, hqhi, b1, b2, by linarith,
    by linarith, ?_⟩
  intro hone
  have hN1 : n = 1 := by
    rw [← hN]
    exact_mod_cast hone
  have hE : E = 1 := by linarith
  have hL : L = 0 := by linarith
  rw [hN1, hE, hL]
  norm_num
  exact percentile_half

/-- Witness for C25 (amended) on the series `[1, 3, null]`. -/
theorem percentile_record_interior_witness :
    ∃ q lo hi : ℚ,
      (percentile (some ([JSVal.num 1, .num 3, .null].filter JSVal.isFinite))
        ([JSVal.num 1, .num 3, .null].getD 1 .undefined)) = .num q ∧
      jsMul (jsDiv (.num (1 / 2))
        (.num ((finiteEntries [JSVal.num 1, .num 3, .null]).length : ℚ))) (.num 100) =
        .num lo ∧
      jsMul (jsDiv (.num (((finiteEntries [JSVal.num 1, .num 3, .null]).length : ℚ) - 1 / 2))
        (.num ((finiteEntries [JSVal.num 1, .num 3, .null]).length : ℚ))) (.num 100) =
        .num hi ∧
      lo ≤ q ∧ q ≤ hi ∧ 0 < lo ∧ hi < 100 ∧ 0 < q ∧ q < 100 ∧
      ((finiteEntries [JSVal.num 1, .num 3, .null]).length = 1 → q = 50) :=
  percentile_record_interior ⟨fun _ => .nan, fun _ => "", fun _ _ => ""⟩
    [.str "2024-01-01", .str "2024-01-02", .str "2024-01-03"] [.num 1, .num 3, .null]
    _ (computeRatioIndicators_ok _ _ _ 1 .null rfl (by simp) rfl (by
      simp [startYearOf, takeUnits, toNumber, JSVal.truthy])) (by simp)

theorem findMinMax_bounds (dates series : List JSVal)
    (h : ∃ v ∈ series, v.isFinite = true) :
    ∃ (a b : ℚ) (da db : JSVal),
      findMinMax dates series = { min := some ⟨.num a, da⟩, max := some ⟨.num b, db⟩ } ∧
      ∀ q, JSVal.num q ∈ series → a ≤ q ∧ q ≤ b := by
  obtain ⟨v, hv, hfin⟩ := h
  obtain ⟨x, rfl⟩ : ∃ x, v = JSVal.num x := by
    cases v <;> simp [JSVal.isFinite] at hfin
    exact ⟨_, rfl⟩
  have inv := findMinMaxLoop_inv dates series [] ⟨.posInf, .null⟩ ⟨.negInf, .null⟩
    (Or.inl ⟨by simp, rfl⟩) (Or.inl ⟨by simp, rfl⟩)
  simp only [List.nil_append, List.length_nil] at inv
  obtain ⟨hmin, hmax⟩ := inv
  rcases hmin with ⟨hnone, _⟩ | ⟨imin, vmin, hi, hr, hle, -⟩
  · exact absurd hv (hnone x)
  rcases hmax with ⟨hnone, _⟩ | ⟨imax, vmax, hi2, hr2, hle2, -⟩
  · exact absurd hv (hnone x)
  refine ⟨vmin, vmax, dates.getD imin .undefined, dates.getD imax .undefined,
    by simp [findMinMax, hr, hr2, JSVal.isFinite], fun q hq => ⟨hle q hq, hle2 q hq⟩⟩

theorem mean_between (x y : ℚ) (hx : roundNearest x = x) (hy : roundNearest y = y)
    (hxy : x ≤ y) :
    x ≤ roundNearest (roundNearest (x + y) / 2) ∧
      roundNearest (roundNearest (x + y) / 2) ≤ y := by
  have h2x := roundNearest_double x hx
  have h2y := roundNearest_double y hy
  have hlo := roundNearest_mono (2 * x) (x + y) (by linarith)
  have hhi := roundNearest_mono (x + y) (2 * y) (by linarith)
  rw [h2x] at hlo
  rw [h2y] at hhi
  constructor
  · have := roundNearest_mono x (roundNearest (x + y) / 2) (by linarith)
    rwa [hx] at this
  · have := roundNearest_mono (roundNearest (x + y) / 2) y (by linarith)
    rwa [hy] at this

theorem mean_finite_of_bounded (x y : ℚ) (hx : |x| ≤ 2 ^ 1022) (hy : |y| ≤ 2 ^ 1022) :
    jsDiv (jsAdd (.num x) (.num y)) (.num 2) =
      .num (roundNearest (roundNearest (x + y) / 2)) := by
  have hd := isDouble_two_pow_1023
  have hp : (2 : ℚ) ^ 1023 = 2 * 2 ^ 1022 := by norm_num
  rw [abs_le] at hx hy
  obtain ⟨s, hs, hs1, hs2⟩ := roundToDouble_between (-2 ^ 1023) (2 ^ 1023) (x + y)
    (isDouble_neg _ hd) hd (by linarith) (by linarith)
  have hadd : jsAdd (.num x) (.num y) = .num s := hs
  have hsr := (roundToDouble_num _ _ hs).1
  have h1024 : (2 : ℚ) ^ 1024 = 2 * 2 ^ 1023 := by norm_num
  have hpos : (0 : ℚ) < 2 ^ 1023 := by positivity
  rw [hadd]
  simp only [jsDiv, (by norm_num : (2 : ℚ) ≠ 0), if_false]
  rw [roundToDouble_half_of_num s (by linarith) (by linarith), hsr]

theorem median_finite_or_inf (vs : List JSVal) (hne : finiteEntries vs ≠ []) :
    ((median (some vs)).isFinite = true ∨ median (some vs) = .posInf ∨
        median (some vs) = .negInf) ∧
      ((finiteEntries vs).length % 2 = 1 → (median (some vs)).isFinite = true) ∧
      ((∀ q ∈ finiteEntries vs, |q| ≤ 2 ^ 1022) → (median (some vs)).isFinite = true) := by
  have hp := List.perm_insertionSort (· ≤ ·) (finiteEntries vs)
  have hlen : ((finiteEntries vs).insertionSort (· ≤ ·)).length ≠ 0 := by
    rw [hp.length_eq]
    simpa [List.length_eq_zero] using hne
  have hmemiff : ∀ q, q ∈ (finiteEntries vs).insertionSort (· ≤ ·) → q ∈ finiteEntries vs :=
    fun q hq => hp.mem_iff.1 hq
  rw [← hp.length_eq]
  unfold median
  simp only [Option.getD_some]
  generalize (finiteEntries vs).insertionSort (· ≤ ·) = s at hlen hmemiff ⊢
  rcases Nat.mod_two_eq_zero_or_one s.length with heven | hodd
  · have hlt : s.length / 2 < s.length := by omega
    have hlt1 : s.length / 2 - 1 < s.length := by omega
    have hval : (if s.length = 0 then JSVal.null
        else if s.length % 2 ≠ 0 then numAt s (s.length / 2)
        else match s[s.length / 2 - 1]?, s[s.length / 2]? with
          | some a, some b => jsDiv (jsAdd (.num a) (.num b)) (.num 2)
          | _, _ => .nan) =
        jsDiv (jsAdd (.num s[s.length / 2 - 1]) (.num s[s.length / 2])) (.num 2) := by
      simp [hlen, heven, List.getElem?_eq_getElem hlt, List.getElem?_eq_getElem hlt1]
    rw [hval]
    refine ⟨?_, ?_, ?_⟩
    · rcases mean_cases s[s.length / 2 - 1] s[s.length / 2] with
        ⟨t, _, _, _, _, h⟩ | ⟨h, _⟩ | ⟨h, _⟩
      · left; rw [h]; rfl
      · right; left; exact h
      · right; right; exact h
    · intro hodd
      omega
    · intro hbd
      rw [mean_finite_of_bounded _ _ (hbd _ (hmemiff _ (List.getElem_mem hlt1)))
        (hbd _ (hmemiff _ (List.getElem_mem hlt)))]
      rfl
  · have hlt : s.length / 2 < s.length := by omega
    have hval : (if s.length = 0 then JSVal.null
        else if s.length % 2 ≠ 0 then numAt s (s.length / 2)
        else match s[s.length / 2 - 1]?, s[s.length / 2]? with
          | some a, some b => jsDiv (jsAdd (.num a) (.num b)) (.num 2)
          | _, _ => .nan) = .num s[s.length / 2] := by
      simp [hlen, hodd, numAt, List.getElem?_eq_getElem hlt]
    rw [hval]
    exact ⟨Or.inl rfl, fun _ => rfl, fun _ => rfl⟩

theorem median_in_range (vs : List JSVal) (a b m : ℚ) (hne : finiteEntries vs ≠ [])
    (hb : ∀ q ∈ finiteEntries vs, a ≤ q ∧ q ≤ b)
    (hd : ∀ q ∈ finiteEntries vs, isDouble q)
    (hm : median (some vs) = .num m) : a ≤ m ∧ m ≤ b := by
  have hp := List.perm_insertionSort (· ≤ ·) (finiteEntries vs)
  have hmem : ∀ q ∈ (finiteEntries vs).insertionSort (· ≤ ·), a ≤ q ∧ q ≤ b :=
    fun q hq => hb q (hp.mem_iff.1 hq)
  have hdbl : ∀ q ∈ (finiteEntries vs).insertionSort (· ≤ ·), roundNearest q = q :=
    fun q hq => ((isDouble_iff q).1 (hd q (hp.mem_iff.1 hq))).1
  have hlen : ((finiteEntries vs).insertionSort (· ≤ ·)).length ≠ 0 := by
    rw [hp.length_eq]
    simpa [List.length_eq_zero] using hne
  unfold median at hm
  simp only [Option.getD_some] at hm
  generalize (finiteEntries vs).insertionSort (· ≤ ·) = s at hmem hdbl hlen hm
  rcases Nat.mod_two_eq_zero_or_one s.length with heven | hodd
  · have hlt : s.length / 2 < s.length := by omega
    have hlt1 : s.length / 2 - 1 < s.length := by omega
    have h1 := hmem _ (List.getElem_mem hlt1)
    have h2 := hmem _ (List.getElem_mem hlt)
    have d1 := hdbl _ (List.getElem_mem hlt1)
    have d2 := hdbl _ (List.getElem_mem hlt)
    simp [hlen, heven, List.getElem?_eq_getElem hlt, List.getElem?_eq_getElem hlt1] at hm
    rcases mean_cases s[s.length / 2 - 1] s[s.length / 2] with
      ⟨t, _, ht, _, _, h⟩ | ⟨h, _⟩ | ⟨h, _⟩
    · rw [h] at hm
      injection hm with hm
      subst hm
      rw [ht]
      rcases le_total s[s.length / 2 - 1] s[s.length / 2] with hle | hle
      · have := mean_between _ _ d1 d2 hle
        exact ⟨by linarith [this.1, h1.1], by linarith [this.2, h2.2]⟩
      · have := mean_between _ _ d2 d1 hle
        rw [add_comm] at this
        exact ⟨by linarith [this.1, h2.1], by linarith [this.2, h1.2]⟩
    · rw [h] at hm
      exact JSVal.noConfusion hm
    · rw [h] at hm
      exact JSVal.noConfusion hm
  · have hlt : s.length / 2 < s.length := by omega
    have h1 := hmem _ (List.getElem_mem hlt)
    simp [hlen, hodd, numAt, List.getElem?_eq_getElem hlt] at hm
    subst hm
    exact h1

theorem findMinMax_pair (d1 d2 : JSVal) (a : ℚ) :
    findMinMax [d1, d2] [.num a, .num a] =
      { min := some ⟨.num a, d1⟩, max := some ⟨.num a, d1⟩ } := by
  simp [findMinMax, findMinMaxLoop, numLt, numGt, JSVal.isFinite]

theorem record_pair (a : ℚ) :
    computeRatioIndicators ⟨fun _ => .nan, fun _ => "", fun _ _ => ""⟩
        (some [.str "2024-01-01", .str "2024-01-02"]) (some [.num a, .num a]) =
      .ok (some { latestValue := .num a
                  latestDate := .str "2024-01-02"
                  startYear := .null
                  median := median (some [.num a, .num a])
                  percentile := percentile (some [.num a, .num a]) (.num a)
                  timeInRegime := timeInRegime (some [.str "2024-01-01", .str "2024-01-02"])
                    (some [.num a, .num a]) (median (some [.num a, .num a]))
                  historical := { min := some ⟨.num a, .str "2024-01-01"⟩,
                                  max := some ⟨.num a, .str "2024-01-01"⟩ } }) := by
  have hl : lastFinite [JSVal.num a, .num a] [JSVal.num a, .num a].length = some 1 := rfl
  rw [computeRatioIndicators_ok ⟨fun _ => .nan, fun _ => "", fun _ _ => ""⟩
    [.str "2024-01-01", .str "2024-01-02"] [.num a, .num a] 1 .null rfl (by simp) hl (by
      simp [startYearOf, takeUnits, toNumber, JSVal.truthy]), findMinMax_pair]
  rfl

theorem numLe_posInf_num (q : ℚ) : numLe .posInf (.num q) = false := rfl

theorem record_pair_overflow (a : ℚ) (hm : median (some [.num a, .num a]) = .posInf) :
    computeRatioIndicators ⟨fun _ => .nan, fun _ => "", fun _ _ => ""⟩
        (some [.str "2024-01-01", .str "2024-01-02"]) (some [.num a, .num a]) =
      .ok (some { latestValue := .num a
                  latestDate := .str "2024-01-02"
                  startYear := .null
                  median := .posInf
                  percentile := percentile (some [.num a, .num a]) (.num a)
                  timeInRegime := none
                  historical := { min := some ⟨.num a, .str "2024-01-01"⟩,
                                  max := some ⟨.num a, .str "2024-01-01"⟩ } }) := by
  rw [record_pair, hm, timeInRegime_none_of [.str "2024-01-01", .str "2024-01-02"]
    [.num a, .num a] .posInf (Or.inr (Or.inl rfl))]

/-- C24 (counterexample): on the series `[2^1023, 2^1023]` of two doubles the
sum of the two middle values overflows, the record holds the median
`Infinity`, and this is above the historical maximum `2^1023`. -/
theorem record_median_above_max :
    computeRatioIndicators ⟨fun _ => .nan, fun _ => "", fun _ _ => ""⟩
        (some [.str "2024-01-01", .str "2024-01-02"])
        (some [.num (2 ^ 1023), .num (2 ^ 1023)]) =
      .ok (some { latestValue := .num (2 ^ 1023)
                  latestDate := .str "2024-01-02"
                  startYear := .null
                  median := .posInf
                  percentile := percentile (some [.num (2 ^ 1023), .num (2 ^ 1023)])
                    (.num (2 ^ 1023))
                  timeInRegime := none
                  historical := { min := some ⟨.num (2 ^ 1023), .str "2024-01-01"⟩,
                                  max := some ⟨.num (2 ^ 1023), .str "2024-01-01"⟩ } }) ∧
      numLe .posInf (.num (2 ^ 1023)) = false ∧
      isDouble (2 ^ 1023) :=
  ⟨record_pair_overflow (2 ^ 1023) median_overflow, numLe_posInf_num _, isDouble_two_pow_1023⟩

/-- C24 (amended): in every record returned by `computeRatioIndicators` the
latest value lies inside the historical range, `min.value <= latestValue <=
max.value`. When the finite entries of the series are doubles, the median
lies inside the range as well whenever it is finite; it is `Infinity` or
`-Infinity` only when the sum of the two middle values overflows, which
happens neither for an odd number of finite entries nor when every finite
entry has magnitude at most `2^1022`. -/
theorem record_within_range (B : Builtins) (dates ratio : List JSVal)
    (r : IndicatorRecord)
    (h : computeRatioIndicators B (some dates) (some ratio) = .ok (some r))
    (hd : ∀ q, JSVal.num q ∈ ratio → isDouble q) :
    ∃ (a b v : ℚ) (da db : JSVal),
      r.historical = { min := some ⟨.num a, da⟩, max := some ⟨.num b, db⟩ } ∧
      r.latestValue = .num v ∧ a ≤ v ∧ v ≤ b ∧
      ((∃ m : ℚ, r.median = .num m ∧ a ≤ m ∧ m ≤ b) ∨ r.median = .posInf ∨
        r.median = .negInf) ∧
      ((finiteEntries ratio).length % 2 = 1 → ∃ m : ℚ, r.median = .num m ∧ a ≤ m ∧ m ≤ b) ∧
      ((∀ q, JSVal.num q ∈ ratio → |q| ≤ 2 ^ 1022) →
        ∃ m : ℚ, r.median = .num m ∧ a ≤ m ∧ m ≤ b) := by
  obtain ⟨ds, rs, last, sy, hd0, hr0, -, -, hl, -, hr⟩ :=
    computeRatioIndicators_some B _ _ r h
  injection hd0 with hd0
  injection hr0 with hr0
  subst hd0; subst hr0
  obtain ⟨cur, hcur, hmem⟩ := lastFinite_getD ratio _ last hl
  obtain ⟨a, b, da, db, hres, hbounds⟩ := findMinMax_bounds dates ratio ⟨.num cur, hmem, rfl⟩
  have hne : finiteEntries (ratio.filter JSVal.isFinite) ≠ [] := by
    rw [finiteEntries_filter]
    exact List.ne_nil_of_mem ((mem_finiteEntries_iff ratio cur).2 hmem)
  have hb : ∀ q ∈ finiteEntries (ratio.filter JSVal.isFinite), a ≤ q ∧ q ≤ b := by
    intro q hq
    rw [finiteEntries_filter] at hq
    exact hbounds q ((mem_finiteEntries_iff ratio q).1 hq)
  have hdbl : ∀ q ∈ finiteEntries (ratio.filter JSVal.isFinite), isDouble q := by
    intro q hq
    rw [finiteEntries_filter] at hq
    exact hd q ((mem_finiteEntries_iff ratio q).1 hq)
  have hmed : r.median = median (some (ratio.filter JSVal.isFinite)) := by rw [hr]
  have hfin : ∀ (hf : (median (some (ratio.filter JSVal.isFinite))).isFinite = true),
      ∃ m : ℚ, r.median = .num m ∧ a ≤ m ∧ m ≤ b := by
    intro hf
    obtain ⟨m, hm⟩ : ∃ m, median (some (ratio.filter JSVal.isFinite)) = .num m := by
      cases hmd : median (some (ratio.filter JSVal.isFinite)) <;>
        simp [hmd, JSVal.isFinite] at hf
      exact ⟨_, rfl⟩
    obtain ⟨h1, h2⟩ := median_in_range _ a b m hne hb hdbl hm
    exact ⟨m, by rw [hmed, hm], h1, h2⟩
  obtain ⟨hcases, hodd, hbd⟩ := median_finite_or_inf (ratio.filter JSVal.isFinite) hne
  rw [finiteEntries_filter] at hodd hbd
  refine ⟨a, b, cur, da, db, by rw [hr]; exact hres, by rw [hr]; exact hcur,
    (hbounds cur hmem).1, (hbounds cur hmem).2, ?_, ?_, ?_⟩
  · rcases hcases with hf | hinf | hinf
    · exact Or.inl (hfin hf)
    · exact Or.inr (Or.inl (by rw [hmed, hinf]))
    · exact Or.inr (Or.inr (by rw [hmed, hinf]))
  · intro ho
    exact hfin (hodd ho)
  · intro hq
    exact hfin (hbd (fun q hqm => hq q ((mem_finiteEntries_iff ratio q).1 hqm)))

/-- Witness for C24 (amended) on the series `[1, 3, null]`. -/
theorem record_within_range_witness :
    ∃ (a b v : ℚ) (da db : JSVal),
      findMinMax [.str "2024-01-01", .str "2024-01-02", .str "2024-01-03"]
          [.num 1, .num 3, .null] =
        { min := some ⟨.num a, da⟩, max := some ⟨.num b, db⟩ } ∧
      [JSVal.num 1, .num 3, .null].getD 1 .undefined = .num v ∧ a ≤ v ∧ v ≤ b ∧
      ((∃ m : ℚ, median (some ([JSVal.num 1, .num 3, .null].filter JSVal.isFinite)) = .num m ∧
          a ≤ m ∧ m ≤ b) ∨
        median (some ([JSVal.num 1, .num 3, .null].filter JSVal.isFinite)) = .posInf ∨
        median (some ([JSVal.num 1, .num 3, .null].filter JSVal.isFinite)) = .negInf) ∧
      ((finiteEntries [JSVal.num 1, .num 3, .null]).length % 2 = 1 →
        ∃ m : ℚ, median (some ([JSVal.num 1, .num 3, .null].filter JSVal.isFinite)) = .num m ∧
          a ≤ m ∧ m ≤ b) ∧
      ((∀ q, JSVal.num q ∈ [JSVal.num 1, .num 3, .null] → |q| ≤ 2 ^ 1022) →
        ∃ m : ℚ, median (some ([JSVal.num 1, .num 3, .null].filter JSVal.isFinite)) = .num m ∧
          a ≤ m ∧ m ≤ b) :=
  record_within_range ⟨fun _ => .nan, fun _ => "", fun _ _ => ""⟩
    [.str "2024-01-01", .str "2024-01-02", .str "2024-01-03"]
    [.num 1, .num 3, .null]
    _ (computeRatioIndicators_ok _ _ _ 1 .null rfl (by simp) rfl (by
      simp [startYearOf, takeUnits, toNumber, JSVal.truthy])) (by
      intro q hq
      simp only [List.mem_cons, JSVal.num.injEq, reduceCtorEq, List.mem_singleton,
        List.not_mem_nil, or_false] at hq
      rcases hq with rfl | rfl
      · exact isDouble_one
      · have := isDouble_natCast 3 (by norm_num)
        simpa using this)

/-- C23 (counterexample): on the series `[2^1023, 2^1023]` the code returns
a record whose median is `Infinity`, the sum of the two middle values having
overflowed, and whose timeInRegime is `null`: a partially available record. -/
theorem computeRatioIndicators_partial_record :
    computeRatioIndicators ⟨fun _ => .nan, fun _ => "", fun _ _ => ""⟩
        (some [.str "2024-01-01", .str "2024-01-02"])
        (some [.num (2 ^ 1023), .num (2 ^ 1023)]) =
      .ok (some { latestValue := .num (2 ^ 1023)
                  latestDate := .str "2024-01-02"
                  startYear := .null
                  median := .posInf
                  percentile := percentile (some [.num (2 ^ 1023), .num (2 ^ 1023)])
                    (.num (2 ^ 1023))
                  timeInRegime := none
                  historical := { min := some ⟨.num (2 ^ 1023), .str "2024-01-01"⟩,
                                  max := some ⟨.num (2 ^ 1023), .str "2024-01-01"⟩ } }) ∧
      JSVal.isFinite .posInf = false ∧
      median (some [.num (2 ^ 1023), .num (2 ^ 1023)]) = .posInf ∧
      timeInRegime (some [.str "2024-01-01", .str "2024-01-02"])
        (some [.num (2 ^ 1023), .num (2 ^ 1023)]) .posInf = none :=
  ⟨record_pair_overflow (2 ^ 1023) median_overflow, rfl, median_overflow,
    timeInRegime_none_of _ _ .posInf (Or.inr (Or.inl rfl))⟩

/-- C23 (amended): `computeRatioIndicators` returns `null` exactly when
`dates` or `ratio` is empty, their lengths differ, or `ratio` has no finite
entry; in every record it returns, latestValue is finite, percentile is a
finite number and historical min and max are both not `null`; the median is
a number, finite unless the sum of the two middle values overflows (never
for an odd number of finite entries, nor when every finite entry has
magnitude at most `2^1022`), and timeInRegime is not `null` exactly when the
median is finite. -/
theorem computeRatioIndicators_all_or_nothing (B : Builtins) (dates ratio : List JSVal) :
    (computeRatioIndicators B (some dates) (some ratio) = .ok none ↔
      (dates = [] ∨ ratio = [] ∨ dates.length ≠ ratio.length ∨
        ∀ v ∈ ratio, v.isFinite = false)) ∧
    (∀ r, computeRatioIndicators B (some dates) (some ratio) = .ok (some r) →
      r.latestValue.isFinite = true ∧ r.percentile.isFinite = true ∧
      r.historical.min ≠ none ∧ r.historical.max ≠ none ∧
      (r.median.isFinite = true ∨ r.median = .posInf ∨ r.median = .negInf) ∧
      (r.timeInRegime ≠ none ↔ r.median.isFinite = true) ∧
      ((finiteEntries ratio).length % 2 = 1 → r.median.isFinite = true) ∧
      ((∀ q, JSVal.num q ∈ ratio → |q| ≤ 2 ^ 1022) → r.median.isFinite = true)) := by
  refine ⟨⟨?_, ?_⟩, ?_⟩
  · intro h
    by_contra hcon
    simp only [not_or, not_forall, ne_eq, not_not] at hcon
    obtain ⟨hd, hr, hlen, v, hv, hvf⟩ := hcon
    have hvf' : v.isFinite = true := by simpa using hvf
    obtain ⟨last, cur, hl, -, -⟩ := lastFinite_of_finite ratio ⟨v, hv, hvf'⟩
    cases hsy : startYearOf B (dates.getD 0 .undefined) with
    | ok sy =>
      rw [computeRatioIndicators_ok B dates ratio last sy hlen hr hl hsy] at h
      cases h
    | error e =>
      have hlen0 : ratio.length ≠ 0 := by simpa [List.length_eq_zero] using hr
      simp only [computeRatioIndicators, hlen, hl, hsy] at h
      simp [hlen0] at h
  · intro h
    by_cases hlen : dates.length = ratio.length
    · apply computeRatioIndicators_none B _ _ (Or.inr _)
      rcases h with h | h | h | h
      · have : ratio = [] := by
          rw [h] at hlen; exact List.length_eq_zero.1 hlen.symm
        rw [this]; rfl
      · rw [h]; rfl
      · exact absurd hlen h
      · exact lastFinite_none_of_all ratio h _
    · exact computeRatioIndicators_none B _ _ (Or.inl hlen)
  · intro r h
    obtain ⟨ds, rs, last, sy, hd, hr0, hlen, -, hl, -, hr⟩ :=
      computeRatioIndicators_some B _ _ r h
    injection hd with hd
    injection hr0 with hr0
    subst hd; subst hr0
    obtain ⟨cur, hcur, hmem⟩ := lastFinite_getD ratio _ last hl
    obtain ⟨a, b, da, db, hres, hbounds⟩ := findMinMax_bounds dates ratio ⟨.num cur, hmem, rfl⟩
    have hne : finiteEntries (ratio.filter JSVal.isFinite) ≠ [] := by
      rw [finiteEntries_filter]
      exact List.ne_nil_of_mem ((mem_finiteEntries_iff ratio cur).2 hmem)
    obtain ⟨hcases, hodd, hbd⟩ := median_finite_or_inf (ratio.filter JSVal.isFinite) hne
    rw [finiteEntries_filter] at hodd hbd
    obtain ⟨hp, -⟩ := percentile_num_of_finite (ratio.filter JSVal.isFinite) cur
      ⟨.num cur, List.mem_filter.2 ⟨hmem, rfl⟩, rfl⟩
    rw [hr]
    dsimp only
    refine ⟨?_, ?_, ?_, ?_, hcases, ?_, hodd, ?_⟩
    · rw [hcur]; rfl
    · rw [hcur, hp]; rfl
    · rw [hres]; simp
    · rw [hres]; simp
    · constructor
      · intro htir
        by_contra hnf
        have hnf2 : (median (some (ratio.filter JSVal.isFinite))).isFinite = false := by
          simpa using hnf
        exact htir (timeInRegime_none_of dates ratio _ (Or.inr (Or.inl hnf2)))
      · intro hf
        rw [timeInRegime_of_last dates ratio _ last hlen hf hl]
        simp
    · intro hq
      exact hbd (fun q hqm => hq q ((mem_finiteEntries_iff ratio q).1 hqm))

/-! ## Properties of the profile handling and of the state class -/

/-- C21 (failing input): with the `null` profile, which `renderRatioPage`
passes by default, `generateTakeaway` on a non-null record throws a
`TypeError` instead of falling back to the defaults; with the profile
omitted or empty it returns what the written-out default profile returns. -/
theorem generateTakeaway_null_profile_throws (B : Builtins) (ind : IndicatorRecord) :
    generateTakeaway B (some ind) .null = .error "TypeError" ∧
    generateTakeaway B (some ind) .omitted =
      generateTakeaway B (some ind) (.obj Profile.defaults) ∧
    generateTakeaway B (some ind) (.obj Profile.empty) =
      generateTakeaway B (some ind) (.obj Profile.defaults) ∧
    ∃ t, generateTakeaway B (some ind) (.obj Profile.defaults) = .ok t := by
  have hst : takeawayState B ind Profile.empty = takeawayState B ind Profile.defaults := by
    simp [takeawayState, Profile.empty, Profile.defaults, nullishOr, JSVal.isNullish]
  have hhead : ∀ s, takeawayHeadline ind Profile.empty s =
      takeawayHeadline ind Profile.defaults s := by
    intro s
    cases s <;> simp [takeawayHeadline, Profile.empty, Profile.defaults]
  have hbody : ∀ s, bodyParts B ind Profile.empty s = bodyParts B ind Profile.defaults s := by
    intro s
    simp [bodyParts, latestSentence, Profile.empty, Profile.defaults]
  have heq : generateTakeaway B (some ind) (.obj Profile.empty) =
      generateTakeaway B (some ind) (.obj Profile.defaults) := by
    have h1 : ∀ s, templateFor (Profile.empty.templates.getD ⟨none, none, none⟩) s = none := by
      intro s; cases s <;> rfl
    have h2 : ∀ s, templateFor (Profile.defaults.templates.getD ⟨none, none, none⟩) s = none := by
      intro s; cases s <;> rfl
    simp only [generateTakeaway, ProfileArg.resolve, h1, h2, hst, hhead, hbody]
  refine ⟨rfl, heq, heq, ?_⟩
  have h2 : ∀ s, templateFor (Profile.defaults.templates.getD ⟨none, none, none⟩) s = none := by
    intro s; cases s <;> rfl
  have hgenD : generateTakeaway B (some ind) (.obj Profile.defaults) =
      .ok { headline := takeawayHeadline ind Profile.defaults
              (takeawayState B ind Profile.defaults)
            body := " ".intercalate
              ((bodyParts B ind Profile.defaults
                (takeawayState B ind Profile.defaults)).filter (· ≠ "")) } := by
    simp only [generateTakeaway, ProfileArg.resolve, h2]
  exact ⟨_, hgenD⟩

/-- C22: for a non-null record and a non-null profile without template
overrides, `classifyIndicator` returns `is-extreme-low` exactly in the regime
`low`, where `generateTakeaway` takes the low headline, `is-extreme-high`
exactly in the regime `high`, and in the regime `normal` the classes
`is-above-median`, `is-below-median` and the empty class exactly where the
headline is the above-median, the below-median and the unknown one. -/
theorem classifyIndicator_agrees (B : Builtins) (ind : IndicatorRecord) (profile : Profile)
    (htpl : ∀ s, templateFor (profile.templates.getD ⟨none, none, none⟩) s = none) :
    ∃ (cls : String) (t : Takeaway),
      classifyIndicator B (some ind) (.obj profile) = .ok cls ∧
      generateTakeaway B (some ind) (.obj profile) = .ok t ∧
      ((cls = "is-extreme-low" ∧ takeawayState B ind profile = .low ∧
          t.headline = profile.lowHeadline.getD "Historically low reading") ∨
       (cls = "is-extreme-high" ∧ takeawayState B ind profile = .high ∧
          t.headline = profile.highHeadline.getD "Historically high reading") ∨
       (cls = "is-above-median" ∧ takeawayState B ind profile = .normal ∧
          takeawayIsAbove ind = some true ∧
          t.headline = profile.normalHeadlineAbove.getD "Above median regime") ∨
       (cls = "is-below-median" ∧ takeawayState B ind profile = .normal ∧
          takeawayIsAbove ind = some false ∧
          t.headline = profile.normalHeadlineBelow.getD "Below median regime") ∨
       (cls = "" ∧ takeawayState B ind profile = .normal ∧
          takeawayIsAbove ind = none ∧
          t.headline = profile.normalHeadlineUnknown.getD "Within typical range")) := by
  have hgen : generateTakeaway B (some ind) (.obj profile) =
      .ok { headline := takeawayHeadline ind profile (takeawayState B ind profile)
            body := " ".intercalate
              ((bodyParts B ind profile (takeawayState B ind profile)).filter (· ≠ "")) } := by
    simp only [generateTakeaway, ProfileArg.resolve, htpl]
  by_cases hlow : (!ind.percentile.isNullish && ind.percentile.isFinite &&
      numLe ind.percentile (toNumber B (nullishOr profile.lowExtreme (.num 15)))) = true
  · have hst : takeawayState B ind profile = .low := by
      simp only [takeawayState, hlow, if_true]
    refine ⟨"is-extreme-low", _, ?_, hgen, Or.inl ⟨rfl, hst, ?_⟩⟩
    · simp only [classifyIndicator, ProfileArg.resolve, hlow, if_true]
    · simp [hst, takeawayHeadline]
  · by_cases hhigh : (!ind.percentile.isNullish && ind.percentile.isFinite &&
        numGe ind.percentile (toNumber B (nullishOr profile.highExtreme (.num 85)))) = true
    · have hst : takeawayState B ind profile = .high := by
        simp only [takeawayState, hlow, hhigh, Bool.false_eq_true, if_true, if_false]
      refine ⟨"is-extreme-high", _, ?_, hgen, Or.inr (Or.inl ⟨rfl, hst, ?_⟩)⟩
      · simp only [classifyIndicator, ProfileArg.resolve, hlow, hhigh, Bool.false_eq_true, if_true, if_false]
      · simp [hst, takeawayHeadline]
    · have hst : takeawayState B ind profile = .normal := by
        simp only [takeawayState, hlow, hhigh, Bool.false_eq_true, if_false]
      have hcls : classifyIndicator B (some ind) (.obj profile) =
          (if takeawayIsAbove ind = some true then .ok "is-above-median"
           else if takeawayIsAbove ind = some false then .ok "is-below-median"
           else .ok "") := by
        simp only [classifyIndicator, ProfileArg.resolve, hlow, hhigh, Bool.false_eq_true,
          if_false, takeawayIsAbove]
      cases habove : takeawayIsAbove ind with
      | none =>
        refine ⟨"", _, by rw [hcls, habove]; simp, hgen,
          Or.inr (Or.inr (Or.inr (Or.inr ⟨rfl, hst, rfl, ?_⟩)))⟩
        simp [hst, takeawayHeadline, habove]
      | some b =>
        cases b with
        | true =>
          refine ⟨"is-above-median", _, by rw [hcls, habove]; simp, hgen,
            Or.inr (Or.inr (Or.inl ⟨rfl, hst, rfl, ?_⟩))⟩
          simp [hst, takeawayHeadline, habove]
        | false =>
          refine ⟨"is-below-median", _, by rw [hcls, habove]; simp, hgen,
            Or.inr (Or.inr (Or.inr (Or.inl ⟨rfl, hst, rfl, ?_⟩)))⟩
          simp [hst, takeawayHeadline, habove]

/-- Witness for C22 on a record in the normal regime above its median. -/
theorem classifyIndicator_agrees_witness :
    ∃ (cls : String) (t : Takeaway),
      classifyIndicator ⟨fun _ => .nan, fun _ => "", fun _ _ => ""⟩
        (some ⟨.num 3, .str "2024-01-02", .num 2020, .num 2, .num 50, none, ⟨none, none⟩⟩)
        (.obj Profile.empty) = .ok cls ∧
      generateTakeaway ⟨fun _ => .nan, fun _ => "", fun _ _ => ""⟩
        (some ⟨.num 3, .str "2024-01-02", .num 2020, .num 2, .num 50, none, ⟨none, none⟩⟩)
        (.obj Profile.empty) = .ok t ∧
      ((cls = "is-extreme-low" ∧
          takeawayState ⟨fun _ => .nan, fun _ => "", fun _ _ => ""⟩
            ⟨.num 3, .str "2024-01-02", .num 2020, .num 2, .num 50, none, ⟨none, none⟩⟩
            Profile.empty = .low ∧
          t.headline = Profile.empty.lowHeadline.getD "Historically low reading") ∨
       (cls = "is-extreme-high" ∧
          takeawayState ⟨fun _ => .nan, fun _ => "", fun _ _ => ""⟩
            ⟨.num 3, .str "2024-01-02", .num 2020, .num 2, .num 50, none, ⟨none, none⟩⟩
            Profile.empty = .high ∧
          t.headline = Profile.empty.highHeadline.getD "Historically high reading") ∨
       (cls = "is-above-median" ∧
          takeawayState ⟨fun _ => .nan, fun _ => "", fun _ _ => ""⟩
            ⟨.num 3, .str "2024-01-02", .num 2020, .num 2, .num 50, none, ⟨none, none⟩⟩
            Profile.empty = .normal ∧
          takeawayIsAbove
            ⟨.num 3, .str "2024-01-02", .num 2020, .num 2, .num 50, none, ⟨none, none⟩⟩
            = some true ∧
          t.headline = Profile.empty.normalHeadlineAbove.getD "Above median regime") ∨
       (cls = "is-below-median" ∧
          takeawayState ⟨fun _ => .nan, fun _ => "", fun _ _ => ""⟩
            ⟨.num 3, .str "2024-01-02", .num 2020, .num 2, .num 50, none, ⟨none, none⟩⟩
            Profile.empty = .normal ∧
          takeawayIsAbove
            ⟨.num 3, .str "2024-01-02", .num 2020, .num 2, .num 50, none, ⟨none, none⟩⟩
            = some false ∧
          t.headline = Profile.empty.normalHeadlineBelow.getD "Below median regime") ∨
       (cls = "" ∧
          takeawayState ⟨fun _ => .nan, fun _ => "", fun _ _ => ""⟩
            ⟨.num 3, .str "2024-01-02", .num 2020, .num 2, .num 50, none, ⟨none, none⟩⟩
            Profile.empty = .normal ∧
          takeawayIsAbove
            ⟨.num 3, .str "2024-01-02", .num 2020, .num 2, .num 50, none, ⟨none, none⟩⟩
            = none ∧
          t.headline = Profile.empty.normalHeadlineUnknown.getD "Within typical range")) :=
  classifyIndicator_agrees ⟨fun _ => .nan, fun _ => "", fun _ _ => ""⟩
    ⟨.num 3, .str "2024-01-02", .num 2020, .num 2, .num 50, none, ⟨none, none⟩⟩
    Profile.empty (by intro s; cases s <;> rfl)

/-! ## Properties of the return window -/

theorem digitChar_toNat (n : Nat) (h : n < 10) : (digitChar n).toNat = 48 + n := by
  interval_cases n <;> rfl

theorem digitVal_digitChar (n : Nat) (h : n < 10) : digitVal (digitChar n) = some n := by
  interval_cases n <;> rfl

theorem utf16Units_digitChar (n : Nat) (h : n < 10) : utf16Units (digitChar n) = [48 + n] := by
  interval_cases n <;> rfl

theorem natDigits_one (n : Nat) (h : n < 10) : natDigits (n + 1) n = [digitChar n] := by
  simp [natDigits, h]

theorem natDigits_two (n : Nat) (h1 : 10 ≤ n) (h2 : n < 100) :
    natDigits (n + 1) n = [digitChar (n / 10), digitChar (n % 10)] := by
  obtain ⟨k, rfl⟩ : ∃ k, n = k + 1 := ⟨n - 1, by omega⟩
  have h3 : ¬ (k + 1 < 10) := by omega
  have h4 : (k + 1) / 10 < 10 := by omega
  simp [natDigits, h3, h4]

theorem natDigits_four (n : Nat) (h1 : 1000 ≤ n) (h2 : n < 10000) :
    natDigits (n + 1) n =
      [digitChar (n / 1000), digitChar (n / 100 % 10), digitChar (n / 10 % 10),
        digitChar (n % 10)] := by
  obtain ⟨k, rfl⟩ : ∃ k, n = k + 3 := ⟨n - 3, by omega⟩
  have h3 : ¬ (k + 3 < 10) := by omega
  have h4 : ¬ ((k + 3) / 10 < 10) := by omega
  have h5 : ¬ ((k + 3) / 10 / 10 < 10) := by omega
  have h6 : (k + 3) / 10 / 10 / 10 < 10 := by omega
  have e1 : (k + 3) / 10 / 10 / 10 = (k + 3) / 1000 := by omega
  have e2 : (k + 3) / 10 / 10 % 10 = (k + 3) / 100 % 10 := by omega
  have h7 : (k + 3) / 1000 < 10 := by omega
  simp [natDigits, h3, h4, h5, h6, h7, e1, e2]

theorem intChars_natCast (n : Nat) : intChars (n : Int) = natDigits (n + 1) n := rfl

theorem padStart2_natDigits (n : Nat) (h : n < 100) :
    padStart2 (natDigits (n + 1) n) = [digitChar (n / 10), digitChar (n % 10)] := by
  by_cases h1 : n < 10
  · have e1 : n / 10 = 0 := by omega
    have e2 : n % 10 = n := by omega
    rw [natDigits_one n h1, e1, e2]
    rfl
  · rw [natDigits_two n (by omega) h]
    rfl

theorem valid_bounds (c : CivilDate) (h : c.valid = true) :
    1 ≤ c.month ∧ c.month ≤ 12 ∧ 1 ≤ c.day ∧ c.day ≤ 31 := by
  simp only [CivilDate.valid, Bool.and_eq_true, decide_eq_true_eq] at h
  obtain ⟨⟨⟨h1, h2⟩, h3⟩, h4⟩ := h
  refine ⟨h1, h2, h3, le_trans h4 ?_⟩
  unfold daysInMonth
  split_ifs <;> omega

theorem isoUTCDate_eq_isoDateString (c : CivilDate) (hv : c.valid = true)
    (hlo : 1000 ≤ c.year) (hhi : c.year ≤ 9999) :
    isoUTCDate (some c) = isoDateString c := by
  obtain ⟨hm1, hm2, hd1, hd2⟩ := valid_bounds c hv
  obtain ⟨n, hn⟩ : ∃ n : Nat, c.year = (n : Int) := ⟨c.year.toNat, by omega⟩
  have hn1 : 1000 ≤ n := by omega
  have hn2 : n < 10000 := by omega
  simp only [isoUTCDate, isoDateString, hn, Int.toNat_ofNat, intChars_natCast,
    natDigits_four n hn1 hn2, padStart2_natDigits c.month (by omega),
    padStart2_natDigits c.day (by omega)]
  rfl

theorem utcMidnight_isoDateString (c : CivilDate) (hv : c.valid = true)
    (hlo : 0 ≤ c.year) (hhi : c.year ≤ 9999) :
    utcMidnight (isoDateString c ++ "T00:00:00Z") = some c := by
  obtain ⟨hm1, hm2, hd1, hd2⟩ := valid_bounds c hv
  obtain ⟨n, hn⟩ : ∃ n : Nat, c.year = (n : Int) := ⟨c.year.toNat, by omega⟩
  have hn2 : n < 10000 := by omega
  have hdate : CivilDate.mk
      ((1000 * (n / 1000) + 100 * (n / 100 % 10) + 10 * (n / 10 % 10) + n % 10 : Nat) : Int)
      (10 * (c.month / 10) + c.month % 10) (10 * (c.day / 10) + c.day % 10) = c := by
    have e1 : 1000 * (n / 1000) + 100 * (n / 100 % 10) + 10 * (n / 10 % 10) + n % 10 = n := by
      omega
    have e2 : 10 * (c.month / 10) + c.month % 10 = c.month := by omega
    have e3 : 10 * (c.day / 10) + c.day % 10 = c.day := by omega
    rw [e1, e2, e3, ← hn]
  have hl : (isoDateString c ++ "T00:00:00Z").toList =
      [digitChar (n / 1000), digitChar (n / 100 % 10), digitChar (n / 10 % 10),
        digitChar (n % 10), '-', digitChar (c.month / 10), digitChar (c.month % 10), '-',
        digitChar (c.day / 10), digitChar (c.day % 10),
        'T', '0', '0', ':', '0', '0', ':', '0', '0', 'Z'] := by
    simp only [isoDateString, hn, Int.toNat_ofNat, String.toList, String.data_append]
    rfl
  unfold utcMidnight
  rw [hl]
  simp only [if_true, digitVal_digitChar (n / 1000) (by omega),
    digitVal_digitChar (n / 100 % 10) (by omega), digitVal_digitChar (n / 10 % 10) (by omega),
    digitVal_digitChar (n % 10) (by omega), digitVal_digitChar (c.month / 10) (by omega),
    digitVal_digitChar (c.month % 10) (by omega), digitVal_digitChar (c.day / 10) (by omega),
    digitVal_digitChar (c.day % 10) (by omega), hdate, hv]

theorem codeUnits_isoDateString (c : CivilDate) (hv : c.valid = true)
    (hlo : 0 ≤ c.year) (hhi : c.year ≤ 9999) :
    codeUnits (isoDateString c) =
      [48 + c.year.toNat / 1000, 48 + c.year.toNat / 100 % 10, 48 + c.year.toNat / 10 % 10,
        48 + c.year.toNat % 10, 45, 48 + c.month / 10, 48 + c.month % 10, 45,
        48 + c.day / 10, 48 + c.day % 10] := by
  obtain ⟨hm1, hm2, hd1, hd2⟩ := valid_bounds c hv
  have hn2 : c.year.toNat < 10000 := by omega
  have hdash : utf16Units '-' = [45] := rfl
  simp only [codeUnits, isoDateString, String.toList, List.flatMap_cons, List.flatMap_nil,
    utf16Units_digitChar (c.year.toNat / 1000) (by omega),
    utf16Units_digitChar (c.year.toNat / 100 % 10) (by omega),
    utf16Units_digitChar (c.year.toNat / 10 % 10) (by omega),
    utf16Units_digitChar (c.year.toNat % 10) (by omega),
    utf16Units_digitChar (c.month / 10) (by omega),
    utf16Units_digitChar (c.month % 10) (by omega),
    utf16Units_digitChar (c.day / 10) (by omega),
    utf16Units_digitChar (c.day % 10) (by omega), hdash, List.cons_append, List.nil_append,
    List.append_nil]

theorem lexLe_cons_cons (a b : Nat) (as bs : List Nat) :
    lexLe (a :: as) (b :: bs) = true ↔ a < b ∨ (a = b ∧ lexLe as bs = true) := by
  rw [lexLe]
  split_ifs with h1 h2
  · simp only [true_iff]
    exact Or.inl h1
  · simp only [Bool.false_eq_true, false_iff]
    omega
  · have : a = b := by omega
    simp [this]

theorem lexLe_nil_left (bs : List Nat) : lexLe [] bs = true := by
  rw [lexLe]

theorem pair_lex10 (x y : Nat) (R : Prop) :
    (x / 10 < y / 10 ∨ x / 10 = y / 10 ∧ (x % 10 < y % 10 ∨ x % 10 = y % 10 ∧ R)) ↔
      (x < y ∨ x = y ∧ R) := by
  constructor
  · rintro (h | ⟨h1, h | ⟨h2, hr⟩⟩)
    · left; omega
    · left; omega
    · right; exact ⟨by omega, hr⟩
  · rintro (h | ⟨h, hr⟩)
    · by_cases h1 : x / 10 < y / 10
      · left; exact h1
      · right; exact ⟨by omega, Or.inl (by omega)⟩
    · subst h; right; exact ⟨rfl, Or.inr ⟨rfl, hr⟩⟩

theorem pair_lex100 (x y : Nat) (R : Prop) :
    (x / 100 < y / 100 ∨ x / 100 = y / 100 ∧ (x % 100 < y % 100 ∨ x % 100 = y % 100 ∧ R)) ↔
      (x < y ∨ x = y ∧ R) := by
  constructor
  · rintro (h | ⟨h1, h | ⟨h2, hr⟩⟩)
    · left; omega
    · left; omega
    · right; exact ⟨by omega, hr⟩
  · rintro (h | ⟨h, hr⟩)
    · by_cases h1 : x / 100 < y / 100
      · left; exact h1
      · right; exact ⟨by omega, Or.inl (by omega)⟩
    · subst h; right; exact ⟨rfl, Or.inr ⟨rfl, hr⟩⟩

theorem jsStrGe_isoDateString (a b : CivilDate) (hva : a.valid = true) (hla : 0 ≤ a.year)
    (hha : a.year ≤ 9999) (hvb : b.valid = true) (hlb : 0 ≤ b.year) (hhb : b.year ≤ 9999) :
    jsStrGe (isoDateString b) (isoDateString a) = true ↔ CivilDate.le a b := by
  obtain ⟨n, hn⟩ : ∃ n : Nat, a.year = (n : Int) := ⟨a.year.toNat, by omega⟩
  obtain ⟨m, hm⟩ : ∃ m : Nat, b.year = (m : Int) := ⟨b.year.toNat, by omega⟩
  unfold jsStrGe jsStrLt CivilDate.le
  rw [Bool.not_not, codeUnits_isoDateString a hva hla hha,
    codeUnits_isoDateString b hvb hlb hhb, hn, hm]
  have en1 : n / 1000 = n / 100 / 10 := by omega
  have en2 : n / 10 % 10 = n % 100 / 10 := by omega
  have en3 : n % 10 = n % 100 % 10 := by omega
  have em1 : m / 1000 = m / 100 / 10 := by omega
  have em2 : m / 10 % 10 = m % 100 / 10 := by omega
  have em3 : m % 10 = m % 100 % 10 := by omega
  have hday : (a.day / 10 < b.day / 10 ∨ a.day / 10 = b.day / 10 ∧
      (a.day % 10 < b.day % 10 ∨ a.day % 10 = b.day % 10)) ↔ a.day ≤ b.day := by omega
  simp only [Int.toNat_ofNat, lexLe_cons_cons, lexLe_nil_left, and_true,
    Nat.add_lt_add_iff_left, Nat.add_left_cancel_iff, lt_irrefl, false_or, true_and,
    Nat.cast_lt, Nat.cast_inj]
  rw [en1, en2, en3, em1, em2, em3, hday, pair_lex10 a.month b.month,
    pair_lex10 (n % 100) (m % 100), pair_lex10 (n / 100) (m / 100), pair_lex100 n m]

theorem shiftYear_year (c : CivilDate) (y : Int) : (shiftYear c y).year = y := by
  unfold shiftYear
  split_ifs <;> rfl

theorem shiftYear_valid (c : CivilDate) (y : Int) (hv : c.valid = true) :
    (shiftYear c y).valid = true := by
  simp only [CivilDate.valid, Bool.and_eq_true, decide_eq_true_eq] at hv
  obtain ⟨⟨⟨h1, h2⟩, h3⟩, h4⟩ := hv
  unfold shiftYear
  by_cases hc : c.month = 2 ∧ c.day = 29 ∧ isLeapYear y = false
  · rw [if_pos hc]
    simp [CivilDate.valid, daysInMonth]
  · rw [if_neg hc]
    simp only [CivilDate.valid, Bool.and_eq_true, decide_eq_true_eq]
    refine ⟨⟨⟨h1, h2⟩, h3⟩, ?_⟩
    unfold daysInMonth at h4 ⊢
    by_cases hm : c.month = 2
    · simp only [hm, if_true] at h4 ⊢
      by_cases hl : isLeapYear y = true
      · simp only [hl, if_true]
        split_ifs at h4 <;> omega
      · have hl2 : isLeapYear y = false := by simpa using hl
        have hd : c.day ≠ 29 := fun hd => hc ⟨hm, hd, hl2⟩
        simp only [hl2, Bool.false_eq_true, if_false]
        split_ifs at h4 <;> omega
    · simp only [hm, if_false] at h4 ⊢
      exact h4

theorem shiftYear_inDateRange (c : CivilDate) (y : Int) (hv : c.valid = true)
    (hlo : 1000 ≤ y) (hhi : y ≤ 9999) : inDateRange (shiftYear c y) = true := by
  obtain ⟨h1, h2, h3, h4⟩ := valid_bounds (shiftYear c y) (shiftYear_valid c y hv)
  have hy := shiftYear_year c y
  generalize shiftYear c y = t at h1 h2 h3 h4 hy
  simp only [inDateRange, daysFromCivil, Bool.and_eq_true, decide_eq_true_eq, hy]
  split_ifs <;> constructor <;> omega

theorem shiftYear_le (c : CivilDate) (k : Int) (hv : c.valid = true) (hk : 0 ≤ k) :
    CivilDate.le (shiftYear c (c.year - k)) c := by
  by_cases hk0 : k = 0
  · subst hk0
    simp only [CivilDate.valid, Bool.and_eq_true, decide_eq_true_eq] at hv
    obtain ⟨⟨⟨h1, h2⟩, h3⟩, h4⟩ := hv
    have hnot : ¬ (c.month = 2 ∧ c.day = 29 ∧ isLeapYear (c.year - 0) = false) := by
      rintro ⟨hm, hd, hl⟩
      rw [sub_zero] at hl
      simp only [daysInMonth, hm, hl, if_true, Bool.false_eq_true, if_false] at h4
      omega
    unfold shiftYear
    rw [if_neg hnot]
    right
    exact ⟨by simp, Or.inr ⟨rfl, le_refl _⟩⟩
  · left
    rw [shiftYear_year]
    omega

/-- C27: a one-point list with a well-formed date and a lookback of 1100
years. The target date is the 1st of January 924, on or before the point's
date, so the point is the closest one on or after the target; but
`isoUTCDate` prints the year 924 with three digits, the string
"2024-01-01" is below "924-01-01" in code-unit order, `findIndex` finds
nothing and the result is `null` for a non-empty list. -/
theorem pickStartEndFor3Y_null_nonempty :
    setUTCFullYear (utcMidnight ("2024-01-01" ++ "T00:00:00Z")) (2024 - 1100) =
        some ⟨924, 1, 1⟩ ∧
      CivilDate.le ⟨924, 1, 1⟩ ⟨2024, 1, 1⟩ ∧
      isoUTCDate (some ⟨924, 1, 1⟩) = "924-01-01" ∧
      jsStrGe "2024-01-01" "924-01-01" = false ∧
      pickStartEndFor3Y [⟨"2024-01-01", .num 1⟩] (some 1100) = none :=
  ⟨by decide, Or.inl (by decide), by decide, by decide, by decide⟩

/-- The return window for target years of four digits: for a non-empty list
of points whose dates are well-formed ISO dates and a `lookbackYears >= 0`
(3 when omitted) that leaves the target year, the last point's year minus
`lookbackYears`, at 1000 or more, `pickStartEndFor3Y` does not return `null`:
the list splits as `before ++ start :: after` where `start` is dated on or
after the target date (the last date moved back by `lookbackYears` years),
every point of `before` is dated before it, and the result takes
`fromDate`/`startClose` from `start` and `toDate`/`endClose` from the last
point. In particular `before` is empty, and the start is the very first
point, when the first point is already dated on or after the target. The
empty list gives `null`. -/
theorem pickStartEndFor3Y_window (points : List DatedPoint) (last : DatedPoint)
    (cl : CivilDate) (lookbackYears : Option Int)
    (hlast : points.getLast? = some last)
    (hwf : ∀ p ∈ points, ∃ c : CivilDate, c.fourDigit ∧ p.date = isoDateString c)
    (hcl : cl.fourDigit ∧ last.date = isoDateString cl)
    (hk : 0 ≤ lookbackYears.getD 3) (hyr : 1000 ≤ cl.year - lookbackYears.getD 3) :
    pickStartEndFor3Y [] lookbackYears = none ∧
    ∃ (before : List DatedPoint) (start : DatedPoint) (after : List DatedPoint)
      (cs : CivilDate),
      points = before ++ start :: after ∧
      cs.fourDigit ∧ start.date = isoDateString cs ∧
      CivilDate.le (shiftYear cl (cl.year - lookbackYears.getD 3)) cs ∧
      (∀ p ∈ before, ∀ c : CivilDate, c.fourDigit → p.date = isoDateString c →
        ¬ CivilDate.le (shiftYear cl (cl.year - lookbackYears.getD 3)) c) ∧
      (∀ (p : DatedPoint) (c : CivilDate), points.head? = some p → c.fourDigit →
        p.date = isoDateString c →
        CivilDate.le (shiftYear cl (cl.year - lookbackYears.getD 3)) c → before = []) ∧
      pickStartEndFor3Y points lookbackYears =
        some { fromDate := start.date, toDate := last.date,
               startClose := start.close, endClose := last.close } := by
  refine ⟨rfl, ?_⟩
  obtain ⟨⟨hv, hlo, hhi⟩, hcldate⟩ := hcl
  generalize hkdef : lookbackYears.getD 3 = k at hk hyr
  have hTv := shiftYear_valid cl (cl.year - k) hv
  have hTy := shiftYear_year cl (cl.year - k)
  have hTr := shiftYear_inDateRange cl (cl.year - k) hv hyr (by omega)
  have hTlo : 0 ≤ (shiftYear cl (cl.year - k)).year := by rw [hTy]; omega
  have hThi : (shiftYear cl (cl.year - k)).year ≤ 9999 := by rw [hTy]; omega
  have hparse : utcMidnight (last.date ++ "T00:00:00Z") = some cl := by
    rw [hcldate]
    exact utcMidnight_isoDateString cl hv hlo hhi
  have htarget : isoUTCDate (some (shiftYear cl (cl.year - k))) =
      isoDateString (shiftYear cl (cl.year - k)) :=
    isoUTCDate_eq_isoDateString _ hTv (by rw [hTy]; exact hyr) hThi
  have hpick : pickStartEndFor3Y points lookbackYears =
      match points.find? (fun p => jsStrGe p.date
          (isoDateString (shiftYear cl (cl.year - k)))) with
      | none => none
      | some start =>
        some { fromDate := start.date, toDate := last.date,
               startClose := start.close, endClose := last.close } := by
    unfold pickStartEndFor3Y
    rw [hlast]
    simp only [hparse, setUTCFullYear, hTr, if_true, htarget, hkdef]
  have hord : ∀ (p : DatedPoint) (c : CivilDate), c.fourDigit → p.date = isoDateString c →
      (jsStrGe p.date (isoDateString (shiftYear cl (cl.year - k))) = true ↔
        CivilDate.le (shiftYear cl (cl.year - k)) c) := by
    intro p c hc hd
    rw [hd]
    exact jsStrGe_isoDateString _ c hTv hTlo hThi hc.1 hc.2.1 hc.2.2
  cases hfind : points.find? (fun p => jsStrGe p.date
      (isoDateString (shiftYear cl (cl.year - k)))) with
  | none =>
    exfalso
    rw [List.find?_eq_none] at hfind
    exact hfind last (List.mem_of_getLast?_eq_some hlast)
      ((hord last cl ⟨hv, hlo, hhi⟩ hcldate).mpr (shiftYear_le cl k hv hk))
  | some start =>
    rw [hfind] at hpick
    obtain ⟨hp, as, bs, hsplit, has⟩ := List.find?_eq_some.mp hfind
    obtain ⟨cs, hcs, hcsd⟩ := hwf start (by rw [hsplit]; simp)
    have hbefore : ∀ p ∈ as, ∀ c : CivilDate, c.fourDigit → p.date = isoDateString c →
        ¬ CivilDate.le (shiftYear cl (cl.year - k)) c := by
      intro p hpm c hc hd hle
      have h1 := has p hpm
      have h2 := (hord p c hc hd).mpr hle
      simp only [h2, Bool.not_true, Bool.false_eq_true] at h1
    refine ⟨as, start, bs, cs, hsplit, hcs, hcsd, (hord start cs hcs hcsd).mp hp, hbefore,
      ?_, hpick⟩
    intro p c hhead hc hd hle
    cases as with
    | nil => rfl
    | cons b rest =>
      exfalso
      rw [hsplit] at hhead
      simp only [List.cons_append, List.head?_cons, Option.some.injEq] at hhead
      subst hhead
      exact hbefore b (List.mem_cons_self _ _) c hc hd hle

/-- The return window on three points and the default lookback of 3 years. -/
theorem pickStartEndFor3Y_window_witness :
    pickStartEndFor3Y [] none = none ∧
    ∃ (before : List DatedPoint) (start : DatedPoint) (after : List DatedPoint)
      (cs : CivilDate),
      ([⟨"2020-01-01", .num 1⟩, ⟨"2021-06-01", .num 2⟩, ⟨"2024-01-01", .num 3⟩] :
        List DatedPoint) = before ++ start :: after ∧
      cs.fourDigit ∧ start.date = isoDateString cs ∧
      CivilDate.le (shiftYear ⟨2024, 1, 1⟩ (2024 - 3)) cs ∧
      (∀ p ∈ before, ∀ c : CivilDate, c.fourDigit → p.date = isoDateString c →
        ¬ CivilDate.le (shiftYear ⟨2024, 1, 1⟩ (2024 - 3)) c) ∧
      (∀ (p : DatedPoint) (c : CivilDate),
        ([⟨"2020-01-01", .num 1⟩, ⟨"2021-06-01", .num 2⟩, ⟨"2024-01-01", .num 3⟩] :
          List DatedPoint).head? = some p → c.fourDigit →
        p.date = isoDateString c →
        CivilDate.le (shiftYear ⟨2024, 1, 1⟩ (2024 - 3)) c → before = []) ∧
      pickStartEndFor3Y
          [⟨"2020-01-01", .num 1⟩, ⟨"2021-06-01", .num 2⟩, ⟨"2024-01-01", .num 3⟩] none =
        some { fromDate := start.date, toDate := "2024-01-01",
               startClose := start.close, endClose := .num 3 } :=
  pickStartEndFor3Y_window
    [⟨"2020-01-01", .num 1⟩, ⟨"2021-06-01", .num 2⟩, ⟨"2024-01-01", .num 3⟩]
    ⟨"2024-01-01", .num 3⟩ ⟨2024, 1, 1⟩ none rfl
    (by
      intro p hp
      simp only [List.mem_cons, List.mem_singleton, List.not_mem_nil, or_false] at hp
      rcases hp with rfl | rfl | rfl
      · exact ⟨⟨2020, 1, 1⟩, ⟨by decide, by decide, by decide⟩, by decide⟩
      · exact ⟨⟨2021, 6, 1⟩, ⟨by decide, by decide, by decide⟩, by decide⟩
      · exact ⟨⟨2024, 1, 1⟩, ⟨by decide, by decide, by decide⟩, by decide⟩)
    ⟨⟨by decide, by decide, by decide⟩, by decide⟩ (by decide) (by decide)
